import Mathlib

/-!
# conv_srec_addr: address rewriting of Motorola S-Record lines

A shallow embedding of `conv_srec_addr.c`.

* A `char` is its byte value, a natural number (`'S'` is 83, `'0'` is 48, `'9'` is 57,
  `'A'` is 65, `'F'` is 70, `'\r'` is 13, `'\n'` is 10, NUL is 0).
* A line buffer (`char line[LINE_MAX + 1]`, or the `char *` handed to a function) is the
  list of the bytes of the whole array: the C string it holds is the part before the
  first 0, what follows the terminator is whatever the array held before.
* `uint32_t` arithmetic is written with `% 2 ^ 32`, `uint8_t` with `% 256` and `size_t`
  (taken as 64 bits wide) with `% 2 ^ 64` wherever the C expression can wrap.
* A function with an out-parameter returns the pair of its return value and the value
  stored through the pointer; a function that writes into the buffer returns the new
  buffer.
* Of `main`, the treatment of one line (validate, shift the address, rewrite, write) is
  modelled, and `get_line` on the list of the bytes the stream still holds; argument
  handling and the other stream calls are not.
-/

namespace ConvSrecAddr

/-! ## Buffers -/

/-- The read `line[i]`. A read past the end of the array (undefined in C) yields 0;
no function below performs one on a buffer that holds a NUL. -/
def rd (line : List Nat) (i : Nat) : Nat := line.getD i 0

/-- The C library `strlen`: the number of bytes before the first NUL. -/
def strlen : List Nat → Nat
  | [] => 0
  | c :: cs => if c = 0 then 0 else strlen cs + 1

/-- The C string held by a buffer: the bytes before the first NUL (what `fputs` writes). -/
def cstr : List Nat → List Nat
  | [] => []
  | c :: cs => if c = 0 then [] else c :: cstr cs

/-- The C library `memmove(&line[dst], &line[src], n)` inside one array: the `n` bytes
from offset `src` replace those from offset `dst`. The call is defined in C when both
regions lie inside the array; bytes that would land past its end are dropped, like every
write in this model. -/
def memmove (line : List Nat) (dst src n : Nat) : List Nat :=
  (line.take dst ++ ((line.drop src).take n ++ line.drop (dst + n))).take line.length

/-! ## The program -/

/-- The table `srec_addr_len[10]`: address width in bytes of S0..S9. -/
def srec_addr_len : List Nat := [2, 2, 3, 4, 0, 2, 3, 4, 3, 2]

/-- The lookup `srec_addr_len[c - '0']` for a type character `c`. The program performs
it only for `'0' <= c <= '9'`; outside the table the model reads 0. -/
def addr_len_of (c : Nat) : Nat := srec_addr_len.getD (c - 48) 0

/-- The `do { ... } while (*text != '\0')` loop of `get_offset`: `text` is the string from
the read pointer on (without its NUL, so the empty list is `*text == '\0'`), the number
is the current `*p_offset`; the result is the return value and the final `*p_offset`. -/
def get_offset_loop (base : Nat) : List Nat → Nat → Int × Nat
  | [], offset => (0, offset)
  | c :: text, offset =>
    if 48 ≤ c ∧ c ≤ 55 then
      if offset > (4294967295 - (c - 48)) / base then (-1, offset)
      else get_offset_loop base text ((offset * base + (c - 48)) % 2 ^ 32)
    else if 56 ≤ c ∧ c ≤ 57 then
      if base < 10 then (-1, offset)
      else if offset > (4294967295 - (c - 48)) / base then (-1, offset)
      else get_offset_loop base text ((offset * base + (c - 48)) % 2 ^ 32)
    else if 65 ≤ c ∧ c ≤ 70 then
      if base < 16 then (-1, offset)
      else if offset > (4294967295 - (c - 65 + 10)) / base then (-1, offset)
      else get_offset_loop base text ((offset * base + (c - 65 + 10)) % 2 ^ 32)
    else if 97 ≤ c ∧ c ≤ 102 then
      if base < 16 then (-1, offset)
      else if offset > (4294967295 - (c - 97 + 10)) / base then (-1, offset)
      else get_offset_loop base text ((offset * base + (c - 97 + 10)) % 2 ^ 32)
    else (-1, offset)

/-- The function `get_offset(text, &sign, &offset)` on the characters of the string
`text` (without its NUL): the return value, `*p_sign` and `*p_offset`. -/
def get_offset (text : List Nat) : Int × Int × Nat :=
  let sign : Int := if text.head? = some 45 then 1 else 0
  let text := if text.head? = some 45 then text.tail else text
  if text.head? = some 48 then
    if text.tail = [] then (0, sign, 0)
    else if text.tail.head? = some 120 ∨ text.tail.head? = some 88 then
      if text.tail.tail = [] then (-1, sign, 0)
      else ((get_offset_loop 16 text.tail.tail 0).1, sign, (get_offset_loop 16 text.tail.tail 0).2)
    else ((get_offset_loop 8 text.tail 0).1, sign, (get_offset_loop 8 text.tail 0).2)
  else if text = [] then (-1, sign, 0)
  else ((get_offset_loop 10 text 0).1, sign, (get_offset_loop 10 text 0).2)

/-- The decrement `--size` of a `size_t`: 0 wraps to `2 ^ 64 - 1`. -/
def u64_dec (n : Nat) : Nat := if n = 0 then 18446744073709551615 else n - 1

/-- The `while (--size > 0) { ... }` loop of `get_line` and the `return -1` after it. The
first number is the value `--size` has just produced, `n` is the count of characters
stored so far (the pointer `line` of the C code stands `n` bytes into the array), `input`
are the bytes the stream still holds (`getc` yields EOF on the empty list) and `ferr` tells
whether `ferror` is nonzero at EOF. The result is `none` for `return -1`, else the array,
`*p_len` and the bytes left in the stream. -/
def get_line_loop (ferr : Bool) : Nat → List Nat → Nat → List Nat →
    Option (List Nat × Nat × List Nat)
  | 0, _, _, _ => none
  | _ + 1, line, n, [] => if ferr then none else some (line.set n 0, n, [])
  | d + 1, line, n, c :: input =>
    if c = 10 then some ((line.set n c).set (n + 1) 0, n + 1, input)
    else get_line_loop ferr d (line.set n c) (n + 1) input

/-- The function `get_line(line, size, &line_len, pfile)`: `none` for the return value -1,
else the array as the call leaves it, the length stored in `*p_len` and the bytes left in
the stream. -/
def get_line (line : List Nat) (size : Nat) (input : List Nat) (ferr : Bool) :
    Option (List Nat × Nat × List Nat) :=
  get_line_loop ferr (u64_dec size) line 0 input

/-- The `while (len > 0)` loop of `hexstr_to_u32`, with `c` the offset of the read
pointer in `line` and `n` the current value of `*n`. -/
def hexstr_to_u32_loop (line : List Nat) : Nat → Nat → Nat → Int × Nat
  | 0, _, n => (0, n)
  | len + 1, c, n =>
    if 48 ≤ rd line c ∧ rd line c ≤ 57 then
      hexstr_to_u32_loop line len (c + 1) ((n * 16 + (rd line c - 48)) % 2 ^ 32)
    else if 65 ≤ rd line c ∧ rd line c ≤ 70 then
      hexstr_to_u32_loop line len (c + 1) ((n * 16 + (rd line c - 65 + 10)) % 2 ^ 32)
    else (-1, n)

/-- The function `hexstr_to_u32(&line[c], len, &n)`: the return value and the final `*n`. -/
def hexstr_to_u32 (line : List Nat) (c len : Nat) : Int × Nat :=
  hexstr_to_u32_loop line len c 0

/-- The table `hexc[16] = "0123456789ABCDEF"`. -/
def hexc : List Nat := [48, 49, 50, 51, 52, 53, 54, 55, 56, 57, 65, 66, 67, 68, 69, 70]

/-- The function `u32_to_hexstr(n, len, &line[c])`: the buffer after the writes. -/
def u32_to_hexstr : Nat → Nat → List Nat → Nat → List Nat
  | _, 0, line, _ => line
  | n, len + 1, line, c => u32_to_hexstr (n / 16) len (line.set (c + len) (hexc.getD (n % 16) 0)) c

/-- The value of `--srec_len` for a `uint32_t`: the decrement wraps from 0 to
`UINT32_MAX`. -/
def u32_dec (n : Nat) : Nat := if n = 0 then 4294967295 else n - 1

/-- The loop `do { ... } while (--srec_len > stop)` of `srec_check` (`stop = 0`) and of
`srec_addr_change` (`stop = 1`), started with the read pointer at offset `p`. The first
numeric argument is the value that `--srec_len` yields at the end of the current
iteration, so the loop is entered with `u32_dec srec_len`. The result is `none`
for the `return -1` in the body, else the final read offset and `srec_sum`. -/
def sum_loop (stop : Nat) (line : List Nat) : Nat → Nat → Nat → Option (Nat × Nat)
  | 0, p, srec_sum =>
    if (hexstr_to_u32 line p 2).1 ≠ 0 then none
    else some (p + 2, (srec_sum + (hexstr_to_u32 line p 2).2) % 256)
  | d + 1, p, srec_sum =>
    if (hexstr_to_u32 line p 2).1 ≠ 0 then none
    else if d + 1 > stop then
      sum_loop stop line d (p + 2) ((srec_sum + (hexstr_to_u32 line p 2).2) % 256)
    else some (p + 2, (srec_sum + (hexstr_to_u32 line p 2).2) % 256)

/-- The function `srec_check(line)`: 0 or -1. -/
def srec_check (line : List Nat) : Int :=
  let line_len := strlen line
  if line_len < 6 then -1
  else if rd line 0 ≠ 83 then -1
  else if rd line 1 < 48 ∨ 57 < rd line 1 then -1
  else if (hexstr_to_u32 line 2 2).1 ≠ 0 then -1
  else
    let srec_len := (hexstr_to_u32 line 2 2).2
    if srec_len < addr_len_of (rd line 1) + 1 then -1
    else if line_len < (srec_len * 2 + 4) % 2 ^ 32 then -1
    else
      match sum_loop 0 line (u32_dec srec_len) 4 (srec_len % 256) with
      | none => -1
      | some (p, srec_sum) =>
        if srec_sum ≠ 255 then -1
        else
          let p := if rd line p = 13 then p + 1 else p
          let p := if rd line p = 10 then p + 1 else p
          if rd line p ≠ 0 then -1 else 0

/-- The function `srec_addr_change(line, size, addr)`: the return value and the buffer
as the call leaves it. -/
def srec_addr_change (line : List Nat) (size addr : Nat) : Int × List Nat :=
  let line_len := strlen line
  let srec_len := (hexstr_to_u32 line 2 2).2
  let move_n := (8 + 2 ^ 32 - addr_len_of (rd line 1) * 2) % 2 ^ 32
  if move_n > 0 ∧ (size + 2 ^ 64 - (line_len + 1)) % 2 ^ 64 < move_n then (-1, line)
  else if move_n > 0 ∧ srec_len + move_n / 2 > 255 then (-1, line)
  else
    let srec_len := if move_n > 0 then srec_len + move_n / 2 else srec_len
    let line :=
      if move_n > 0 then
        u32_to_hexstr srec_len 2
          (memmove line 12 (12 - move_n) ((line_len + 1 + 2 ^ 64 - (12 - move_n)) % 2 ^ 64)) 2
      else line
    let line :=
      if rd line 1 = 49 ∨ rd line 1 = 50 then line.set 1 51
      else if rd line 1 = 57 ∨ rd line 1 = 56 then line.set 1 55
      else line
    let line := u32_to_hexstr addr 8 line 4
    match sum_loop 1 line (u32_dec srec_len) 4 (srec_len % 256) with
    | none => (-1, line)
    | some (p, srec_sum) => (0, u32_to_hexstr (255 - srec_sum) 2 line p)

/-- The value `move_n = 8 - srec_addr_len[line[1] - '0'] * 2` that `srec_addr_change`
computes (line 226) for the type character `c`. -/
def move_n_of (c : Nat) : Nat := (8 + 2 ^ 32 - addr_len_of c * 2) % 2 ^ 32

/-- What one iteration of the loop of `main` does with a line it has read: either the
text handed to `fputs` (with the warning flag set when the non-S-Record warning was
printed), or the exit code of the `return` that ends the run. The success of the write
itself belongs to the C library and is not modelled. -/
inductive Outcome
  | emit (warning : Bool) (text : List Nat)
  | error (code : Nat)
deriving DecidableEq

/-- Lines 336-343 of `main`: call `srec_addr_change(line, sizeof(line), srec_addr)`, exit
with 6 when it fails, else write the buffer. -/
def convert (line : List Nat) (srec_addr : Nat) : Outcome :=
  if (srec_addr_change line line.length srec_addr).1 ≠ 0 then Outcome.error 6
  else Outcome.emit false (cstr (srec_addr_change line line.length srec_addr).2)

/-- Lines 312-347 of `main`, the treatment of one line: `line` is the array after
`get_line`, `sign` and `offset` are what `get_offset` stored. -/
def process_line (sign : Int) (offset : Nat) (line : List Nat) : Outcome :=
  if srec_check line ≠ 0 then Outcome.emit true (cstr line)
  else if ((49 ≤ rd line 1 ∧ rd line 1 ≤ 51) ∨ (55 ≤ rd line 1 ∧ rd line 1 ≤ 57))
      ∧ offset ≠ 0 then
    let srec_addr := (hexstr_to_u32 line 4 (addr_len_of (rd line 1) * 2)).2
    if sign ≠ 0 then
      if srec_addr < offset then Outcome.error 5
      else convert line ((srec_addr + 2 ^ 32 - offset) % 2 ^ 32)
    else
      if 4294967295 - offset < srec_addr then Outcome.error 5
      else convert line ((srec_addr + offset) % 2 ^ 32)
  else Outcome.emit false (cstr line)

/-! ## Example inputs -/

/-- The bytes of a string literal, for writing example lines. -/
def bytes (s : String) : List Nat := s.toList.map Char.toNat

/-- An array of `size` bytes holding the string `s`, NUL-filled after it. -/
def buffer (s : String) (size : Nat) : List Nat :=
  bytes s ++ List.replicate (size - s.length) 0

/-! ## Specification vocabulary -/

/-- A character accepted by `hexstr_to_u32`: `0`-`9` or `A`-`F`. -/
def IsHex (c : Nat) : Prop := (48 ≤ c ∧ c ≤ 57) ∨ (65 ≤ c ∧ c ≤ 70)

instance (c : Nat) : Decidable (IsHex c) := by unfold IsHex; infer_instance

/-- The value of a hex character. -/
def hexval (c : Nat) : Nat := if c ≤ 57 then c - 48 else c - 55

/-- The hex character of a digit value below 16. -/
def hexdigit (d : Nat) : Nat := if d < 10 then 48 + d else 55 + d

/-- The `len` characters of the zero-padded, big-endian, uppercase base-16 numeral of
`n % 16 ^ len`. -/
def hexstr : Nat → Nat → List Nat
  | 0, _ => []
  | len + 1, n => hexstr len (n / 16) ++ [hexdigit (n % 16)]

/-- The base-16 value of a string of hex characters, most significant first. -/
def hexnum (cs : List Nat) : Nat := cs.foldl (fun n c => n * 16 + hexval c) 0

/-- The sum of the bytes encoded by a string of hex character pairs. -/
def byteSum : List Nat → Nat
  | h :: l :: rest => 16 * hexval h + hexval l + byteSum rest
  | _ => 0

/-- The `len` characters of a buffer from offset `c` on. -/
def chars_at (line : List Nat) (c len : Nat) : List Nat :=
  (List.range len).map (fun i => rd line (c + i))

/-- Following the specification: a well-formed record line is `S`, a type digit `t`, two
hex characters encoding the byte count `n`, exactly `2 * n` further hex characters, and
one of the terminators (none, CR, LF, CR LF), with `n >= srec_addr_len[t] + 1` and
`n` plus the sum of the `n` decoded bytes equal to `0xFF` modulo 256. -/
def IsSRecord (l : List Nat) : Prop :=
  ∃ t h1 h2 body term,
    l = 83 :: (48 + t) :: h1 :: h2 :: (body ++ term) ∧ t ≤ 9 ∧ IsHex h1 ∧ IsHex h2 ∧
    body.length = 2 * (16 * hexval h1 + hexval h2) ∧ (∀ c ∈ body, IsHex c) ∧
    (term = [] ∨ term = [13] ∨ term = [10] ∨ term = [13, 10]) ∧
    srec_addr_len.getD t 0 + 1 ≤ 16 * hexval h1 + hexval h2 ∧
    (16 * hexval h1 + hexval h2 + byteSum body) % 256 = 255

/-- The type characters of the address-bearing records S1, S2, S3, S7, S8, S9: the types
for which `main` calls `srec_addr_change`. -/
def IsAddrType (c : Nat) : Prop := c = 49 ∨ c = 50 ∨ c = 51 ∨ c = 55 ∨ c = 56 ∨ c = 57

instance (c : Nat) : Decidable (IsAddrType c) := by unfold IsAddrType; infer_instance

/-- The type character that `srec_addr_change` leaves for the type character `c`. -/
def new_type (c : Nat) : Nat :=
  if c = 49 ∨ c = 50 then 51 else if c = 57 ∨ c = 56 then 55 else c

/-- The value of a digit character of an offset: `0`-`9`, `A`-`F` or `a`-`f`. -/
def digit_value (c : Nat) : Nat := if c ≤ 57 then c - 48 else if c ≤ 70 then c - 55 else c - 87

/-- The value of a numeral in base `base`, most significant digit first. -/
def numeral_value (base : Nat) (ds : List Nat) : Nat :=
  ds.foldl (fun v c => v * base + digit_value c) 0

/-- An octal digit `0`-`7`. -/
def IsOctDigit (c : Nat) : Prop := 48 ≤ c ∧ c ≤ 55

/-- A decimal digit `0`-`9`. -/
def IsDecDigit (c : Nat) : Prop := 48 ≤ c ∧ c ≤ 57

/-- A hexadecimal digit in either case: `0`-`9`, `A`-`F` or `a`-`f`. -/
def IsHexDigitAny (c : Nat) : Prop :=
  (48 ≤ c ∧ c ≤ 57) ∨ (65 ≤ c ∧ c ≤ 70) ∨ (97 ≤ c ∧ c ≤ 102)

/-- Following the specification: an unsigned offset numeral and its value: the text "0",
or a decimal numeral not starting with `0`, or `0` followed by one or more octal digits,
or "0x" / "0X" followed by one or more hex digits of either case. -/
def IsNumeral (body : List Nat) (value : Nat) : Prop :=
  (body = [48] ∧ value = 0) ∨
  (body ≠ [] ∧ body.head? ≠ some 48 ∧ (∀ c ∈ body, IsDecDigit c) ∧
    value = numeral_value 10 body) ∨
  (∃ ds, body = 48 :: ds ∧ ds ≠ [] ∧ (∀ c ∈ ds, IsOctDigit c) ∧
    value = numeral_value 8 ds) ∨
  (∃ x ds, body = 48 :: x :: ds ∧ (x = 120 ∨ x = 88) ∧ ds ≠ [] ∧
    (∀ c ∈ ds, IsHexDigitAny c) ∧ value = numeral_value 16 ds)

/-- Following the specification: the offset texts, with their sign flag and value: an
optional `-` (sign 1 exactly when it is present) followed by a numeral whose value is at
most `0xFFFFFFFF`. -/
def IsOffsetText (text : List Nat) (sign : Int) (value : Nat) : Prop :=
  ((sign = 0 ∧ IsNumeral text value) ∨
    (sign = 1 ∧ ∃ body, text = 45 :: body ∧ IsNumeral body value)) ∧
  value ≤ 4294967295

/-- A line of the stream, with what the stream holds after it: the text ends at its first
LF, or it holds no LF and the stream ends with it. -/
def IsLineOf (text rest : List Nat) : Prop :=
  (∃ body, text = body ++ [10] ∧ 10 ∉ body) ∨ (10 ∉ text ∧ rest = [])

/-! ## Proof scaffolding -/

/-- Number of iterations of `do { ... } while (--srec_len > stop)` when the first
decrement yields `d`. -/
def iters (stop d : Nat) : Nat := if d > stop then d - stop + 1 else 1

/-- The part of `srec_addr_change` after the widening block (lines 240-261), as a function
of the buffer and of `srec_len` at that point. Used to structure the proofs. -/
def change_tail (line : List Nat) (srec_len addr : Nat) : Int × List Nat :=
  let line :=
    if rd line 1 = 49 ∨ rd line 1 = 50 then line.set 1 51
    else if rd line 1 = 57 ∨ rd line 1 = 56 then line.set 1 55
    else line
  let line := u32_to_hexstr addr 8 line 4
  match sum_loop 1 line (u32_dec srec_len) 4 (srec_len % 256) with
  | none => (-1, line)
  | some (p, srec_sum) => (0, u32_to_hexstr (255 - srec_sum) 2 line p)

/-- The layout of a buffer that holds a valid record: `S`, type `c1`, count `h1 h2`,
address field `A`, data `D`, checksum `K`, terminator, NUL, and the rest `g` of the array. -/
def Layout (line : List Nat) (c1 h1 h2 : Nat) (A D K term g : List Nat) : Prop :=
  line = 83 :: c1 :: h1 :: h2 :: (A ++ (D ++ (K ++ (term ++ 0 :: g)))) ∧
  (48 ≤ c1 ∧ c1 ≤ 57) ∧ IsHex h1 ∧ IsHex h2 ∧
  A.length = 2 * addr_len_of c1 ∧ K.length = 2 ∧
  A.length + D.length + 2 = 2 * (16 * hexval h1 + hexval h2) ∧
  (∀ c ∈ A, IsHex c) ∧ (∀ c ∈ D, IsHex c) ∧ (∀ c ∈ K, IsHex c) ∧
  (16 * hexval h1 + hexval h2 + byteSum (A ++ (D ++ K))) % 256 = 255 ∧
  (term = [] ∨ term = [13] ∨ term = [10] ∨ term = [13, 10])

/-- The digits that the loop of `get_offset` accepts in base `base`. -/
def valid_digit (base c : Nat) : Prop :=
  (48 ≤ c ∧ c ≤ 55) ∨ (56 ≤ c ∧ c ≤ 57 ∧ 10 ≤ base) ∨
  (((65 ≤ c ∧ c ≤ 70) ∨ (97 ≤ c ∧ c ≤ 102)) ∧ 16 ≤ base)

/-- The value accumulated by the loop of `get_offset` from `off` over the digits `ds`. -/
def accum (base : Nat) (ds : List Nat) (off : Nat) : Nat :=
  ds.foldl (fun v c => v * base + digit_value c) off

/-- The part of `get_offset` after the sign (lines 59-111) on the rest `body` of the text:
the return value and `*p_offset`. Used to structure the proofs. -/
def parse_body (body : List Nat) : Int × Nat :=
  if body.head? = some 48 then
    if body.tail = [] then (0, 0)
    else if body.tail.head? = some 120 ∨ body.tail.head? = some 88 then
      if body.tail.tail = [] then (-1, 0)
      else get_offset_loop 16 body.tail.tail 0
    else get_offset_loop 8 body.tail 0
  else if body = [] then (-1, 0)
  else get_offset_loop 10 body 0

/-! ## Buffer lemmas -/

theorem rd_append_left {pre : List Nat} (post : List Nat) {i : Nat} (h : i < pre.length) :
    rd (pre ++ post) i = rd pre i := by
  unfold rd
  exact List.getD_append _ _ _ _ h

theorem rd_append_right (pre post : List Nat) (i : Nat) :
    rd (pre ++ post) (pre.length + i) = rd post i := by
  unfold rd
  rw [List.getD_append_right _ _ _ _ (by omega)]
  congr 1
  omega

theorem rd_append_length (pre post : List Nat) : rd (pre ++ post) pre.length = rd post 0 := by
  simpa using rd_append_right pre post 0

theorem rd_mem {l : List Nat} {i : Nat} (h : i < l.length) : rd l i ∈ l := by
  unfold rd
  rw [List.getD_eq_getElem _ _ h]
  exact List.getElem_mem h

theorem strlen_eq_length_cstr (buf : List Nat) : strlen buf = (cstr buf).length := by
  induction buf with
  | nil => rfl
  | cons c cs ih =>
    unfold strlen cstr
    split <;> simp [ih]

theorem cstr_nul_free (buf : List Nat) : 0 ∉ cstr buf := by
  induction buf with
  | nil => simp [cstr]
  | cons c cs ih =>
    unfold cstr
    split
    · simp
    · rename_i h
      simp only [List.mem_cons, not_or]
      exact ⟨fun h0 => h h0.symm, ih⟩

/-- Every buffer is its C string followed by a tail that is empty or starts with NUL. -/
theorem buf_split (buf : List Nat) : ∃ tail, buf = cstr buf ++ tail ∧ rd tail 0 = 0 := by
  induction buf with
  | nil => exact ⟨[], by simp [cstr], rfl⟩
  | cons c cs ih =>
    obtain ⟨tail, h1, h2⟩ := ih
    by_cases hc : c = 0
    · refine ⟨c :: cs, by simp [cstr, hc], ?_⟩
      simp [rd, hc]
    · refine ⟨tail, ?_, h2⟩
      simp only [cstr, hc, if_false, List.cons_append]
      rw [← h1]

theorem cstr_append_nul {l : List Nat} (h : 0 ∉ l) (g : List Nat) : cstr (l ++ 0 :: g) = l := by
  induction l with
  | nil => simp [cstr]
  | cons c cs ih =>
    simp only [List.mem_cons, not_or] at h
    have hc : c ≠ 0 := fun h0 => h.1 h0.symm
    simp [cstr, hc, ih h.2]

theorem cstr_self {l : List Nat} (h : 0 ∉ l) : cstr l = l := by
  induction l with
  | nil => simp [cstr]
  | cons c cs ih =>
    simp only [List.mem_cons, not_or] at h
    have hc : c ≠ 0 := fun h0 => h.1 h0.symm
    simp [cstr, hc, ih h.2]

/-- A buffer that holds a NUL is its C string, the NUL, and the rest of the array. -/
theorem buf_split_nul (buf : List Nat) (h : strlen buf < buf.length) :
    ∃ g, buf = cstr buf ++ 0 :: g := by
  obtain ⟨tail, h1, h2⟩ := buf_split buf
  cases tail with
  | nil =>
    exfalso
    rw [strlen_eq_length_cstr] at h
    have := congrArg List.length h1
    simp at this
    omega
  | cons a g =>
    simp [rd] at h2
    exact ⟨g, by rw [← h2]; exact h1⟩

theorem hexstr_to_u32_two (line : List Nat) (p : Nat) :
    hexstr_to_u32 line p 2 =
      if IsHex (rd line p) then
        if IsHex (rd line (p + 1)) then (0, 16 * hexval (rd line p) + hexval (rd line (p + 1)))
        else (-1, hexval (rd line p))
      else (-1, 0) := by
  simp only [hexstr_to_u32, hexstr_to_u32_loop, IsHex, hexval]
  split_ifs <;> first | rfl | omega | (simp only [Prod.mk.injEq, true_and]; omega)

theorem hexc_getD (n : Nat) : hexc.getD (n % 16) 0 = hexdigit (n % 16) := by
  have h : n % 16 < 16 := Nat.mod_lt _ (by norm_num)
  interval_cases (n % 16) <;> rfl

theorem hexstr_length (len n : Nat) : (hexstr len n).length = len := by
  induction len generalizing n with
  | zero => rfl
  | succ k ih => simp [hexstr, ih]

theorem hexdigit_isHex (d : Nat) (h : d < 16) : IsHex (hexdigit d) := by
  unfold IsHex hexdigit
  split <;> omega

theorem hexval_hexdigit (d : Nat) (h : d < 16) : hexval (hexdigit d) = d := by
  unfold hexval hexdigit
  split <;> split <;> omega

theorem hexdigit_hexval (c : Nat) (h : IsHex c) : hexdigit (hexval c) = c := by
  unfold IsHex at h
  unfold hexval hexdigit
  split <;> split <;> omega

theorem hexval_lt (c : Nat) (h : IsHex c) : hexval c < 16 := by
  unfold IsHex at h
  unfold hexval
  split <;> omega

theorem hexstr_isHex (len n : Nat) : ∀ c ∈ hexstr len n, IsHex c := by
  induction len generalizing n with
  | zero => simp [hexstr]
  | succ k ih =>
    intro c hc
    simp only [hexstr, List.mem_append, List.mem_singleton] at hc
    rcases hc with hc | hc
    · exact ih _ c hc
    · rw [hc]; exact hexdigit_isHex _ (Nat.mod_lt _ (by norm_num))

theorem isHex_ne_zero {c : Nat} (h : IsHex c) : c ≠ 0 := by
  unfold IsHex at h; omega

theorem nul_free_of_isHex {l : List Nat} (h : ∀ c ∈ l, IsHex c) : 0 ∉ l :=
  fun h0 => isHex_ne_zero (h 0 h0) rfl

/-- The writes of `u32_to_hexstr` replace `len` bytes by the hex numeral. -/
theorem u32_to_hexstr_append (len : Nat) : ∀ (n : Nat) (pre old post : List Nat),
    old.length = len →
    u32_to_hexstr n len (pre ++ old ++ post) pre.length = pre ++ hexstr len n ++ post := by
  induction len with
  | zero =>
    intro n pre old post h
    have : old = [] := List.length_eq_zero.mp h
    simp [u32_to_hexstr, hexstr, this]
  | succ k ih =>
    intro n pre old post h
    obtain ⟨old', x, rfl⟩ : ∃ old' x, old = old' ++ [x] := by
      have hne : old ≠ [] := by intro h0; simp [h0] at h
      exact ⟨old.dropLast, old.getLast hne, (List.dropLast_append_getLast hne).symm⟩
    have hk : old'.length = k := by simpa using h
    have hset : (pre ++ (old' ++ [x]) ++ post).set (pre.length + k) (hexc.getD (n % 16) 0)
        = pre ++ old' ++ (hexdigit (n % 16) :: post) := by
      rw [hexc_getD]
      have : pre ++ (old' ++ [x]) ++ post = (pre ++ old') ++ (x :: post) := by simp
      rw [this, List.set_append_right _ _ (by simp [hk])]
      simp [hk]
    simp only [u32_to_hexstr]
    rw [hset, ih (n / 16) pre old' _ hk]
    simp [hexstr]

theorem byteSum_cons2 (a b : Nat) (l : List Nat) :
    byteSum (a :: b :: l) = 16 * hexval a + hexval b + byteSum l := rfl

theorem sum_loop_append (stop : Nat) : ∀ (d : Nat) (pre body post : List Nat) (s : Nat),
    body.length = 2 * iters stop d →
    sum_loop stop (pre ++ body ++ post) d pre.length s =
      if ∀ c ∈ body, IsHex c then some (pre.length + body.length, (s + byteSum body) % 256)
      else none := by
  intro d
  induction d with
  | zero =>
    intro pre body post s h
    simp only [iters, gt_iff_lt, Nat.not_lt_zero, if_false] at h
    obtain ⟨a, b, rfl⟩ : ∃ a b, body = [a, b] := by
      match body, h with
      | [a, b], _ => exact ⟨a, b, rfl⟩
    have h0 : rd (pre ++ [a, b] ++ post) pre.length = a := by
      rw [List.append_assoc, rd_append_length]; rfl
    have h1 : rd (pre ++ [a, b] ++ post) (pre.length + 1) = b := by
      rw [List.append_assoc, rd_append_right]; rfl
    simp only [sum_loop, hexstr_to_u32_two, h0, h1]
    by_cases ha : IsHex a <;> by_cases hb : IsHex b <;> simp [ha, hb, byteSum]
  | succ d ih =>
    intro pre body post s h
    obtain ⟨a, b, body', rfl⟩ : ∃ a b body', body = a :: b :: body' := by
      match body, h with
      | a :: b :: body', _ => exact ⟨a, b, body', rfl⟩
      | [], h => simp [iters] at h; split at h <;> omega
      | [_], h => simp [iters] at h; split at h <;> omega
    have h0 : rd (pre ++ a :: b :: body' ++ post) pre.length = a := by
      rw [List.append_assoc, rd_append_length]; rfl
    have h1 : rd (pre ++ a :: b :: body' ++ post) (pre.length + 1) = b := by
      rw [List.append_assoc, rd_append_right]; rfl
    have hre : pre ++ a :: b :: body' ++ post = (pre ++ [a, b]) ++ body' ++ post := by simp
    simp only [sum_loop, hexstr_to_u32_two, h0, h1]
    by_cases ha : IsHex a
    · by_cases hb : IsHex b
      · by_cases hd : d + 1 > stop
        · have hlen : body'.length = 2 * iters stop d := by
            simp only [iters, List.length_cons] at h ⊢
            split at h <;> split <;> omega
          have := ih (pre ++ [a, b]) body' post ((s + (16 * hexval a + hexval b)) % 256) hlen
          simp only [List.length_append, List.length_cons, List.length_nil] at this
          rw [hre]
          simp only [ha, hb, hd, if_true, ne_eq, not_true_eq_false, if_false, this,
            List.mem_cons, forall_eq_or_imp, true_and, byteSum_cons2, List.length_cons]
          split
          · simp only [Option.some.injEq, Prod.mk.injEq]
            constructor <;> omega
          · rfl
        · have hlen : body' = [] := by
            simp only [iters, List.length_cons, hd, if_false] at h
            exact List.length_eq_zero.mp (by omega)
          subst hlen
          simp [ha, hb, hd, byteSum]
      · simp [ha, hb]
    · simp [ha]

theorem cstr_append_tail {l tail : List Nat} (hl : 0 ∉ l) (ht : rd tail 0 = 0) :
    cstr (l ++ tail) = l := by
  cases tail with
  | nil => simpa using cstr_self hl
  | cons a g =>
    simp [rd] at ht
    subst ht
    exact cstr_append_nul hl g

theorem strlen_append_tail {l tail : List Nat} (hl : 0 ∉ l) (ht : rd tail 0 = 0) :
    strlen (l ++ tail) = l.length := by
  rw [strlen_eq_length_cstr, cstr_append_tail hl ht]

theorem sum_loop_record (stop d c0 c1 c2 c3 : Nat) (body post : List Nat) (s : Nat)
    (h : body.length = 2 * iters stop d) :
    sum_loop stop (c0 :: c1 :: c2 :: c3 :: (body ++ post)) d 4 s =
      if ∀ c ∈ body, IsHex c then some (4 + body.length, (s + byteSum body) % 256)
      else none :=
  sum_loop_append stop d [c0, c1, c2, c3] body post s h

theorem rd_record (c0 c1 c2 c3 : Nat) (body post : List Nat) (i : Nat) :
    rd (c0 :: c1 :: c2 :: c3 :: (body ++ post)) (4 + body.length + i) = rd post i := by
  have := rd_append_right ([c0, c1, c2, c3] ++ body) post i
  simp only [List.length_append, List.length_cons, List.length_nil] at this
  rw [← this]
  simp

/-- The terminator test at the end of `srec_check`, moved to the text after the
checksum. -/
theorem term_shift (line x : List Nat) (P : Nat) (h : ∀ i, rd line (P + i) = rd x i) :
    rd line (if rd line (if rd line P = 13 then P + 1 else P) = 10
        then (if rd line P = 13 then P + 1 else P) + 1
        else (if rd line P = 13 then P + 1 else P))
      = rd x (if rd x (if rd x 0 = 13 then 1 else 0) = 10
        then (if rd x 0 = 13 then 1 else 0) + 1
        else (if rd x 0 = 13 then 1 else 0)) := by
  have h0 : rd line P = rd x 0 := by simpa using h 0
  have h1 : rd line (P + 1) = rd x 1 := h 1
  have h2 : rd line (P + 1 + 1) = rd x 2 := h 2
  rw [h0]
  by_cases a : rd x 0 = 13
  · simp only [a, if_true, h1]
    by_cases b : rd x 1 = 10
    · simp only [b, if_true, h2]
    · simp only [b, if_false, h1]
  · simp only [a, if_false, h0]
    by_cases b : rd x 0 = 10
    · simp only [b, if_true, h1]
    · simp only [b, if_false, h0]

theorem term_ok (term tail : List Nat) (h0 : 0 ∉ term) (ht : rd tail 0 = 0) :
    rd (term ++ tail) (if rd (term ++ tail) (if rd (term ++ tail) 0 = 13 then 1 else 0) = 10
        then (if rd (term ++ tail) 0 = 13 then 1 else 0) + 1
        else (if rd (term ++ tail) 0 = 13 then 1 else 0)) = 0
      ↔ (term = [] ∨ term = [13] ∨ term = [10] ∨ term = [13, 10]) := by
  have ht' : tail[0]?.getD 0 = 0 := by simpa [rd] using ht
  rcases term with _ | ⟨a, _ | ⟨b, _ | ⟨c, r⟩⟩⟩
  · simp only [List.nil_append, ht, true_or, iff_true]
    norm_num [ht]
  · simp only [List.mem_cons, List.not_mem_nil, or_false] at h0
    have ha : a ≠ 0 := fun h => h0 h.symm
    by_cases a13 : a = 13
    · subst a13
      simp [rd, ht']
    · by_cases a10 : a = 10
      · subst a10
        simp [rd, ht']
      · simp [rd, a13, a10, ha]
  · simp only [List.mem_cons, List.not_mem_nil, or_false, not_or] at h0
    have ha : a ≠ 0 := fun h => h0.1 h.symm
    have hb : b ≠ 0 := fun h => h0.2 h.symm
    by_cases a13 : a = 13
    · subst a13
      by_cases b10 : b = 10
      · subst b10
        simp [rd, ht']
      · simp [rd, b10, hb]
    · by_cases a10 : a = 10
      · subst a10
        simp [rd, hb]
      · simp [rd, a13, a10, ha]
  · simp only [List.mem_cons, not_or] at h0
    have ha : a ≠ 0 := fun h => h0.1 h.symm
    have hb : b ≠ 0 := fun h => h0.2.1 h.symm
    have hc : c ≠ 0 := fun h => h0.2.2.1 h.symm
    by_cases a13 : a = 13
    · subst a13
      by_cases b10 : b = 10
      · subst b10
        simp [rd, hc]
      · simp [rd, b10, hb]
    · by_cases a10 : a = 10
      · subst a10
        simp [rd, hb]
      · simp [rd, a13, a10, ha]

theorem ite_zero_or_neg (c : Prop) [Decidable c] {a b : Int} (ha : a = 0 ∨ a = -1)
    (hb : b = 0 ∨ b = -1) : (if c then a else b) = 0 ∨ (if c then a else b) = -1 := by
  split <;> assumption

theorem srec_check_values (line : List Nat) : srec_check line = 0 ∨ srec_check line = -1 := by
  unfold srec_check
  simp only []
  generalize sum_loop 0 line _ 4 _ = r
  have hm : (-1 : Int) = 0 ∨ (-1 : Int) = -1 := Or.inr rfl
  refine ite_zero_or_neg _ hm (ite_zero_or_neg _ hm (ite_zero_or_neg _ hm (ite_zero_or_neg _ hm
    (ite_zero_or_neg _ hm (ite_zero_or_neg _ hm ?_)))))
  rcases r with _ | ⟨p, s⟩
  · exact hm
  · exact ite_zero_or_neg _ hm (ite_zero_or_neg _ hm (Or.inl rfl))

/-- The guards of `srec_check` that precede its loop. -/
theorem srec_check_pre {line : List Nat} (h : srec_check line = 0) :
    6 ≤ strlen line ∧ rd line 0 = 83 ∧ 48 ≤ rd line 1 ∧ rd line 1 ≤ 57 ∧
    (hexstr_to_u32 line 2 2).1 = 0 ∧
    addr_len_of (rd line 1) + 1 ≤ (hexstr_to_u32 line 2 2).2 ∧
    ((hexstr_to_u32 line 2 2).2 * 2 + 4) % 2 ^ 32 ≤ strlen line := by
  unfold srec_check at h
  simp only [] at h
  generalize sum_loop 0 line _ 4 _ = r at h
  have hm : ¬ ((-1 : Int) = 0) := by decide
  by_cases a1 : strlen line < 6
  · rw [if_pos a1] at h; exact absurd h hm
  rw [if_neg a1] at h
  by_cases a2 : rd line 0 ≠ 83
  · rw [if_pos a2] at h; exact absurd h hm
  rw [if_neg a2] at h
  by_cases a3 : rd line 1 < 48 ∨ 57 < rd line 1
  · rw [if_pos a3] at h; exact absurd h hm
  rw [if_neg a3] at h
  by_cases a4 : (hexstr_to_u32 line 2 2).1 ≠ 0
  · rw [if_pos a4] at h; exact absurd h hm
  rw [if_neg a4] at h
  by_cases a5 : (hexstr_to_u32 line 2 2).2 < addr_len_of (rd line 1) + 1
  · rw [if_pos a5] at h; exact absurd h hm
  rw [if_neg a5] at h
  by_cases a6 : strlen line < ((hexstr_to_u32 line 2 2).2 * 2 + 4) % 2 ^ 32
  · rw [if_pos a6] at h; exact absurd h hm
  refine ⟨by omega, by simpa using a2, by omega, by omega, by simpa using a4, by omega, by omega⟩

/-- The value of `srec_check` on a line that passes the guards before the loop. -/
theorem srec_check_eval (c1 h1 h2 : Nat) (body term tail : List Nat)
    (hc1 : 48 ≤ c1 ∧ c1 ≤ 57) (hh1 : IsHex h1) (hh2 : IsHex h2)
    (hlen : body.length = 2 * (16 * hexval h1 + hexval h2))
    (hn : addr_len_of c1 + 1 ≤ 16 * hexval h1 + hexval h2)
    (hl : 0 ∉ body ++ term) (ht : rd tail 0 = 0) :
    srec_check (83 :: c1 :: h1 :: h2 :: (body ++ term) ++ tail) =
      if (∀ c ∈ body, IsHex c) ∧ (16 * hexval h1 + hexval h2 + byteSum body) % 256 = 255 ∧
          (term = [] ∨ term = [13] ∨ term = [10] ∨ term = [13, 10]) then 0 else -1 := by
  have hv1 := hexval_lt h1 hh1
  have hv2 := hexval_lt h2 hh2
  have hl0 : 0 ∉ 83 :: c1 :: h1 :: h2 :: (body ++ term) := by
    have := isHex_ne_zero hh1
    have := isHex_ne_zero hh2
    simp only [List.mem_cons, not_or]
    refine ⟨by omega, by omega, by omega, by omega, hl⟩
  have hterm0 : 0 ∉ term := fun h => hl (List.mem_append_right _ h)
  have hsl := strlen_append_tail hl0 ht
  have e : 83 :: c1 :: h1 :: h2 :: (body ++ term) ++ tail
      = 83 :: c1 :: h1 :: h2 :: (body ++ (term ++ tail)) := by simp
  rw [e] at hsl ⊢
  generalize hline : 83 :: c1 :: h1 :: h2 :: (body ++ (term ++ tail)) = line at hsl ⊢
  have r0 : rd line 0 = 83 := by rw [← hline]; rfl
  have r1 : rd line 1 = c1 := by rw [← hline]; rfl
  have r2 : rd line 2 = h1 := by rw [← hline]; rfl
  have r3 : rd line 3 = h2 := by rw [← hline]; rfl
  have hx : hexstr_to_u32 line 2 2 = (0, 16 * hexval h1 + hexval h2) := by
    rw [hexstr_to_u32_two, r2, r3, if_pos hh1, if_pos hh2]
  have hit : iters 0 (u32_dec (16 * hexval h1 + hexval h2))
      = 16 * hexval h1 + hexval h2 := by
    unfold iters u32_dec
    split <;> split <;> omega
  have hloop := sum_loop_record 0 (u32_dec (16 * hexval h1 + hexval h2))
    83 c1 h1 h2 body (term ++ tail) ((16 * hexval h1 + hexval h2) % 256) (by rw [hit, hlen])
  rw [hline] at hloop
  have hsh := term_shift line (term ++ tail) (4 + body.length) (fun i => by
    rw [← hline]; exact rd_record 83 c1 h1 h2 body (term ++ tail) i)
  have hto := term_ok term tail hterm0 ht
  unfold srec_check
  simp only [hsl, r0, r1, hx, hloop]
  have hg1 : ¬ (83 :: c1 :: h1 :: h2 :: (body ++ term)).length < 6 := by
    simp only [List.length_cons, List.length_append]; omega
  have hg2 : ¬ (c1 < 48 ∨ 57 < c1) := by omega
  have hg3 : ¬ (16 * hexval h1 + hexval h2 < addr_len_of c1 + 1) := by omega
  have hg4 : ¬ (83 :: c1 :: h1 :: h2 :: (body ++ term)).length
      < ((16 * hexval h1 + hexval h2) * 2 + 4) % 2 ^ 32 := by
    simp only [List.length_cons, List.length_append]; omega
  simp only [hg1, hg2, hg3, hg4, if_false, ne_eq, not_true_eq_false]
  by_cases hall : ∀ c ∈ body, IsHex c
  · rw [if_pos hall]
    by_cases hsum : (16 * hexval h1 + hexval h2 + byteSum body) % 256 = 255
    · have hsum' : ((16 * hexval h1 + hexval h2) % 256 + byteSum body) % 256 = 255 := by omega
      simp only [hsum', not_true_eq_false, if_false, hsh, hto]
      by_cases htm : term = [] ∨ term = [13] ∨ term = [10] ∨ term = [13, 10]
      · rw [if_neg (not_not.mpr htm), if_pos ⟨hall, hsum, htm⟩]
      · rw [if_pos htm, if_neg (fun h => htm h.2.2)]
    · have hsum' : ¬ ((16 * hexval h1 + hexval h2) % 256 + byteSum body) % 256 = 255 := by omega
      simp only [hsum', not_false_eq_true, if_true]
      rw [if_neg (fun h => hsum h.2.1)]
  · rw [if_neg hall, if_neg (fun h => hall h.1)]

/-- The layout of a buffer accepted by `srec_check`. -/
theorem srec_check_decomp {line : List Nat} (h : srec_check line = 0) :
    ∃ c1 h1 h2 body term tail,
      line = 83 :: c1 :: h1 :: h2 :: (body ++ term) ++ tail ∧
      cstr line = 83 :: c1 :: h1 :: h2 :: (body ++ term) ∧ rd tail 0 = 0 ∧
      (48 ≤ c1 ∧ c1 ≤ 57) ∧ IsHex h1 ∧ IsHex h2 ∧
      body.length = 2 * (16 * hexval h1 + hexval h2) ∧
      addr_len_of c1 + 1 ≤ 16 * hexval h1 + hexval h2 ∧
      0 ∉ body ++ term ∧ (∀ c ∈ body, IsHex c) ∧
      (16 * hexval h1 + hexval h2 + byteSum body) % 256 = 255 ∧
      (term = [] ∨ term = [13] ∨ term = [10] ∨ term = [13, 10]) := by
  obtain ⟨p1, p2, p3, p4, p5, p6, p7⟩ := srec_check_pre h
  obtain ⟨tail, hsplit, htail⟩ := buf_split line
  have hnul := cstr_nul_free line
  rw [strlen_eq_length_cstr] at p1 p7
  generalize hl : cstr line = l at hsplit hnul p1 p7
  obtain ⟨c0, c1, h1, h2, r, rfl⟩ : ∃ c0 c1 h1 h2 r, l = c0 :: c1 :: h1 :: h2 :: r := by
    match l, p1 with
    | c0 :: c1 :: h1 :: h2 :: r, _ => exact ⟨c0, c1, h1, h2, r, rfl⟩
  have r0 : rd line 0 = c0 := by rw [hsplit]; rfl
  have r1 : rd line 1 = c1 := by rw [hsplit]; rfl
  have r2 : rd line 2 = h1 := by rw [hsplit]; rfl
  have r3 : rd line 3 = h2 := by rw [hsplit]; rfl
  rw [r0] at p2
  rw [r1] at p3 p4 p6
  subst p2
  rw [hexstr_to_u32_two, r2, r3] at p5 p6 p7
  have hh1 : IsHex h1 := by
    by_contra hc
    rw [if_neg hc] at p5
    exact absurd p5 (by decide)
  rw [if_pos hh1] at p5 p6 p7
  have hh2 : IsHex h2 := by
    by_contra hc
    rw [if_neg hc] at p5
    simp at p5
  rw [if_pos hh2] at p6 p7
  simp only [] at p6 p7
  have hv1 := hexval_lt h1 hh1
  have hv2 := hexval_lt h2 hh2
  simp only [List.length_cons] at p7
  have hr : 2 * (16 * hexval h1 + hexval h2) ≤ r.length := by omega
  have hbody : (r.take (2 * (16 * hexval h1 + hexval h2))).length
      = 2 * (16 * hexval h1 + hexval h2) := by
    rw [List.length_take]; omega
  have hr' : r.take (2 * (16 * hexval h1 + hexval h2))
      ++ r.drop (2 * (16 * hexval h1 + hexval h2)) = r := List.take_append_drop _ _
  generalize r.take (2 * (16 * hexval h1 + hexval h2)) = body at hbody hr'
  generalize r.drop (2 * (16 * hexval h1 + hexval h2)) = term at hr'
  subst hr'
  have hbt : 0 ∉ body ++ term := by
    intro h0
    exact hnul (by simp only [List.mem_cons]; right; right; right; right; exact h0)
  have hev := srec_check_eval c1 h1 h2 body term tail ⟨p3, p4⟩ hh1 hh2 hbody p6 hbt htail
  rw [← hsplit, h] at hev
  by_cases hc : (∀ c ∈ body, IsHex c) ∧
      (16 * hexval h1 + hexval h2 + byteSum body) % 256 = 255 ∧
      (term = [] ∨ term = [13] ∨ term = [10] ∨ term = [13, 10])
  · exact ⟨c1, h1, h2, body, term, tail, hsplit, rfl, htail, ⟨p3, p4⟩, hh1, hh2, hbody, p6, hbt,
      hc.1, hc.2.1, hc.2.2⟩
  · rw [if_neg hc] at hev
    exact absurd hev (by decide)

theorem srec_check_iff (line : List Nat) : srec_check line = 0 ↔ IsSRecord (cstr line) := by
  constructor
  · intro h
    obtain ⟨c1, h1, h2, body, term, tail, -, hc, -, hc1, hh1, hh2, hlen, hn, -, hall, hsum, htm⟩ :=
      srec_check_decomp h
    refine ⟨c1 - 48, h1, h2, body, term, ?_, by omega, hh1, hh2, hlen, hall, htm, ?_, hsum⟩
    · rw [hc]
      have : 48 + (c1 - 48) = c1 := by omega
      rw [this]
    · exact hn
  · rintro ⟨t, h1, h2, body, term, hl, ht, hh1, hh2, hlen, hall, htm, hn, hsum⟩
    obtain ⟨tail, hsplit, htail⟩ := buf_split line
    rw [hl] at hsplit
    have hbt : 0 ∉ body ++ term := by
      intro h0
      rcases List.mem_append.mp h0 with h0 | h0
      · exact isHex_ne_zero (hall 0 h0) rfl
      · rcases htm with rfl | rfl | rfl | rfl <;> simp at h0
    have hal : addr_len_of (48 + t) = srec_addr_len.getD t 0 := by
      unfold addr_len_of
      have : 48 + t - 48 = t := by omega
      rw [this]
    have hev := srec_check_eval (48 + t) h1 h2 body term tail ⟨by omega, by omega⟩ hh1 hh2 hlen
      (by rw [hal]; exact hn) hbt htail
    rw [← hsplit, if_pos ⟨hall, hsum, htm⟩] at hev
    exact hev

theorem addr_len_of_le (c : Nat) : addr_len_of c ≤ 4 := by
  unfold addr_len_of srec_addr_len
  rcases Nat.lt_or_ge (c - 48) 10 with h | h
  · interval_cases (c - 48) <;> simp
  · rw [List.getD_eq_default _ _ (by simpa using h)]
    omega

theorem memmove_spec (P M g : List Nat) (k : Nat) (hk : k ≤ g.length) :
    memmove (P ++ (M ++ g)) (P.length + k) P.length M.length
      = P ++ ((M ++ g).take k ++ (M ++ g.drop k)) := by
  unfold memmove
  have h1 : (P ++ (M ++ g)).take (P.length + k) = P ++ (M ++ g).take k := List.take_append k
  have h2 : ((P ++ (M ++ g)).drop P.length).take M.length = M := by
    rw [List.drop_left, List.take_left]
  have h3 : (P ++ (M ++ g)).drop (P.length + k + M.length) = g.drop k := by
    rw [Nat.add_assoc, List.drop_append, Nat.add_comm k, List.drop_append]
  rw [h1, h2, h3, List.append_assoc]
  apply List.take_of_length_le
  simp only [List.length_append, List.length_take, List.length_drop]
  omega

theorem u32_to_hexstr_count (v c0 c1 k1 k2 : Nat) (rest : List Nat) :
    u32_to_hexstr v 2 (c0 :: c1 :: k1 :: k2 :: rest) 2 = c0 :: c1 :: (hexstr 2 v ++ rest) :=
  u32_to_hexstr_append 2 v [c0, c1] [k1, k2] rest rfl

theorem u32_to_hexstr_addr (v c0 c1 k1 k2 : Nat) (AX rest : List Nat) (h : AX.length = 8) :
    u32_to_hexstr v 8 (c0 :: c1 :: k1 :: k2 :: (AX ++ rest)) 4
      = c0 :: c1 :: k1 :: k2 :: (hexstr 8 v ++ rest) :=
  u32_to_hexstr_append 8 v [c0, c1, k1, k2] AX rest h

theorem u32_to_hexstr_cksum (v c0 c1 k1 k2 : Nat) (B K rest : List Nat) (h : K.length = 2) :
    u32_to_hexstr v 2 (c0 :: c1 :: k1 :: k2 :: (B ++ (K ++ rest))) (4 + B.length)
      = c0 :: c1 :: k1 :: k2 :: (B ++ (hexstr 2 v ++ rest)) := by
  have := u32_to_hexstr_append 2 v ([c0, c1, k1, k2] ++ B) K rest h
  simp only [List.length_append, List.length_cons, List.length_nil, List.cons_append,
    List.nil_append, List.append_assoc] at this
  have e : 4 + B.length = B.length + 1 + 1 + 1 + 1 := by omega
  rw [e]
  exact this

theorem hexstr_two (v : Nat) :
    hexstr 2 v = [hexdigit (v / 16 % 16), hexdigit (v % 16)] := by
  simp [hexstr]

theorem hexstr_two_of_hex (h1 h2 : Nat) (hh1 : IsHex h1) (hh2 : IsHex h2) :
    hexstr 2 (16 * hexval h1 + hexval h2) = [h1, h2] := by
  have hv1 := hexval_lt h1 hh1
  have hv2 := hexval_lt h2 hh2
  rw [hexstr_two]
  have e1 : (16 * hexval h1 + hexval h2) / 16 % 16 = hexval h1 := by omega
  have e2 : (16 * hexval h1 + hexval h2) % 16 = hexval h2 := by omega
  rw [e1, e2, hexdigit_hexval h1 hh1, hexdigit_hexval h2 hh2]

theorem byteSum_hexstr_two (v : Nat) : byteSum (hexstr 2 v) = v % 256 := by
  rw [hexstr_two]
  simp only [byteSum]
  rw [hexval_hexdigit _ (Nat.mod_lt _ (by norm_num)), hexval_hexdigit _ (Nat.mod_lt _ (by norm_num))]
  omega

theorem byteSum_append : ∀ (a b : List Nat), a.length % 2 = 0 →
    byteSum (a ++ b) = byteSum a + byteSum b
  | [], b, _ => by simp [byteSum]
  | [x], b, h => by simp at h
  | x :: y :: rest, b, h => by
    have := byteSum_append rest b (by simp only [List.length_cons] at h; omega)
    simp only [List.cons_append, byteSum_cons2, this]
    omega

theorem srec_addr_change_eq (line : List Nat) (size addr : Nat) :
    srec_addr_change line size addr =
      if (8 + 2 ^ 32 - addr_len_of (rd line 1) * 2) % 2 ^ 32 > 0 ∧
          (size + 2 ^ 64 - (strlen line + 1)) % 2 ^ 64
            < (8 + 2 ^ 32 - addr_len_of (rd line 1) * 2) % 2 ^ 32 then (-1, line)
      else if (8 + 2 ^ 32 - addr_len_of (rd line 1) * 2) % 2 ^ 32 > 0 ∧
          (hexstr_to_u32 line 2 2).2 + (8 + 2 ^ 32 - addr_len_of (rd line 1) * 2) % 2 ^ 32 / 2
            > 255 then (-1, line)
      else if (8 + 2 ^ 32 - addr_len_of (rd line 1) * 2) % 2 ^ 32 > 0 then
        change_tail
          (u32_to_hexstr
            ((hexstr_to_u32 line 2 2).2 + (8 + 2 ^ 32 - addr_len_of (rd line 1) * 2) % 2 ^ 32 / 2) 2
            (memmove line 12 (12 - (8 + 2 ^ 32 - addr_len_of (rd line 1) * 2) % 2 ^ 32)
              ((strlen line + 1 + 2 ^ 64
                - (12 - (8 + 2 ^ 32 - addr_len_of (rd line 1) * 2) % 2 ^ 32)) % 2 ^ 64)) 2)
          ((hexstr_to_u32 line 2 2).2 + (8 + 2 ^ 32 - addr_len_of (rd line 1) * 2) % 2 ^ 32 / 2)
          addr
      else change_tail line (hexstr_to_u32 line 2 2).2 addr := by
  unfold srec_addr_change change_tail
  simp only []
  by_cases h : (8 + 2 ^ 32 - addr_len_of (rd line 1) * 2) % 2 ^ 32 > 0
  · simp only [h, if_true, true_and]
    try rfl
  · simp only [h, if_false, false_and]
    try rfl

theorem retype_cons (c0 c1 : Nat) (rest : List Nat) :
    (if rd (c0 :: c1 :: rest) 1 = 49 ∨ rd (c0 :: c1 :: rest) 1 = 50 then (c0 :: c1 :: rest).set 1 51
      else if rd (c0 :: c1 :: rest) 1 = 57 ∨ rd (c0 :: c1 :: rest) 1 = 56
        then (c0 :: c1 :: rest).set 1 55
      else c0 :: c1 :: rest) = c0 :: new_type c1 :: rest := by
  have r1 : rd (c0 :: c1 :: rest) 1 = c1 := rfl
  rw [r1]
  unfold new_type
  split
  · rfl
  · split <;> rfl

/-- The tail of `srec_addr_change` on a buffer laid out as a record with an 8-character
address field. -/
theorem change_tail_spec (c1 k1 k2 : Nat) (AX D K post : List Nat) (addr n : Nat)
    (hAX : AX.length = 8) (hK : K.length = 2) (hlen : 8 + D.length + 2 = 2 * n)
    (hn : n ≤ 255) (hD : ∀ c ∈ D, IsHex c) :
    change_tail (83 :: c1 :: k1 :: k2 :: (AX ++ (D ++ (K ++ post)))) n addr =
      (0, 83 :: new_type c1 :: k1 :: k2 :: (hexstr 8 addr ++ (D ++
        (hexstr 2 (255 - (n + byteSum (hexstr 8 addr ++ D)) % 256) ++ post)))) := by
  unfold change_tail
  simp only []
  rw [retype_cons, u32_to_hexstr_addr _ _ _ _ _ _ _ hAX]
  have hit : iters 1 (u32_dec n) = n - 1 := by
    unfold iters u32_dec
    split <;> split <;> omega
  have hbl : (hexstr 8 addr ++ D).length = 2 * iters 1 (u32_dec n) := by
    rw [hit, List.length_append, hexstr_length]; omega
  have hall : ∀ c ∈ hexstr 8 addr ++ D, IsHex c := by
    intro c hc
    rcases List.mem_append.mp hc with hc | hc
    · exact hexstr_isHex 8 addr c hc
    · exact hD c hc
  have hloop := sum_loop_record 1 (u32_dec n) 83 (new_type c1) k1 k2
    (hexstr 8 addr ++ D) (K ++ post) (n % 256) hbl
  rw [if_pos hall] at hloop
  rw [List.append_assoc] at hloop
  rw [hloop]
  simp only []
  have hck := u32_to_hexstr_cksum (255 - (n % 256 + byteSum (hexstr 8 addr ++ D)) % 256)
    83 (new_type c1) k1 k2 (hexstr 8 addr ++ D) K post hK
  rw [List.append_assoc, List.append_assoc] at hck
  rw [hck]
  have e : (n % 256 + byteSum (hexstr 8 addr ++ D)) % 256
      = (n + byteSum (hexstr 8 addr ++ D)) % 256 := by omega
  rw [e]

/-- What `srec_addr_change` returns and leaves in the buffer, for a buffer laid out as
`S`, type, count, address field `A`, data `D`, checksum `K`, terminator, NUL, rest. -/
theorem srec_addr_change_spec (c1 h1 h2 : Nat) (A D K term g : List Nat) (size addr : Nat)
    (hh1 : IsHex h1) (hh2 : IsHex h2)
    (hA : A.length = 2 * addr_len_of c1) (hK : K.length = 2)
    (hn : A.length + D.length + 2 = 2 * (16 * hexval h1 + hexval h2))
    (hD : ∀ c ∈ D, IsHex c) (h0 : 0 ∉ A ++ (D ++ (K ++ term))) (hc1 : c1 ≠ 0)
    (hterm : term.length ≤ 2)
    (hsz : 4 + A.length + D.length + 2 + term.length < size)
    (hbuf : size ≤ 4 + A.length + D.length + 2 + term.length + 1 + g.length) :
    srec_addr_change (83 :: c1 :: h1 :: h2 :: (A ++ (D ++ (K ++ (term ++ 0 :: g))))) size addr =
      if 0 < 4 - addr_len_of c1 ∧
          ((size + 2 ^ 64 - (4 + A.length + D.length + 2 + term.length + 1)) % 2 ^ 64
              < 2 * (4 - addr_len_of c1)
            ∨ 16 * hexval h1 + hexval h2 + (4 - addr_len_of c1) > 255) then
        (-1, 83 :: c1 :: h1 :: h2 :: (A ++ (D ++ (K ++ (term ++ 0 :: g)))))
      else
        (0, 83 :: new_type c1 :: (hexstr 2 (16 * hexval h1 + hexval h2 + (4 - addr_len_of c1)) ++
          (hexstr 8 addr ++ (D ++ (hexstr 2 (255 - (16 * hexval h1 + hexval h2
              + (4 - addr_len_of c1) + byteSum (hexstr 8 addr ++ D)) % 256) ++
            (term ++ 0 :: g.drop (2 * (4 - addr_len_of c1)))))))) := by
  have hw := addr_len_of_le c1
  have hv1 := hexval_lt h1 hh1
  have hv2 := hexval_lt h2 hh2
  generalize hwd : addr_len_of c1 = w at *
  generalize hnd : 16 * hexval h1 + hexval h2 = n at *
  have hl0 : 0 ∉ 83 :: c1 :: h1 :: h2 :: (A ++ (D ++ (K ++ term))) := by
    have := isHex_ne_zero hh1
    have := isHex_ne_zero hh2
    simp only [List.mem_cons, not_or]
    refine ⟨by omega, by omega, by omega, by omega, h0⟩
  have hsl : strlen (83 :: c1 :: h1 :: h2 :: (A ++ (D ++ (K ++ (term ++ 0 :: g)))))
      = 4 + A.length + D.length + 2 + term.length := by
    have e : 83 :: c1 :: h1 :: h2 :: (A ++ (D ++ (K ++ (term ++ 0 :: g))))
        = (83 :: c1 :: h1 :: h2 :: (A ++ (D ++ (K ++ term)))) ++ 0 :: g := by simp
    rw [e, strlen_eq_length_cstr, cstr_append_nul hl0]
    simp only [List.length_cons, List.length_append]
    omega
  have r1 : rd (83 :: c1 :: h1 :: h2 :: (A ++ (D ++ (K ++ (term ++ 0 :: g))))) 1 = c1 := rfl
  have hx : hexstr_to_u32 (83 :: c1 :: h1 :: h2 :: (A ++ (D ++ (K ++ (term ++ 0 :: g))))) 2 2
      = (0, n) := by
    rw [hexstr_to_u32_two]
    have r2 : rd (83 :: c1 :: h1 :: h2 :: (A ++ (D ++ (K ++ (term ++ 0 :: g))))) 2 = h1 := rfl
    have r3 : rd (83 :: c1 :: h1 :: h2 :: (A ++ (D ++ (K ++ (term ++ 0 :: g))))) (2 + 1) = h2 := rfl
    rw [r2, r3, if_pos hh1, if_pos hh2, hnd]
  have hmv : (8 + 2 ^ 32 - w * 2) % 2 ^ 32 = 2 * (4 - w) := by omega
  rw [srec_addr_change_eq, hsl, r1, hx, hwd, hmv]
  simp only []
  by_cases he : 0 < 4 - w
  · have he2 : 2 * (4 - w) > 0 := by omega
    have hdiv : 2 * (4 - w) / 2 = 4 - w := by omega
    simp only [he, he2, true_and, hdiv, if_true]
    by_cases ca : (size + 2 ^ 64 - (4 + A.length + D.length + 2 + term.length + 1)) % 2 ^ 64
        < 2 * (4 - w)
    · simp only [ca, if_true, true_or]
    · by_cases cb : n + (4 - w) > 255
      · simp only [cb, if_true, or_true, ite_self]
      · simp only [ca, cb, if_false, or_self]
        have hmod : (size + 2 ^ 64 - (4 + A.length + D.length + 2 + term.length + 1)) % 2 ^ 64
            ≤ size - (4 + A.length + D.length + 2 + term.length + 1) := by
          have : size + 2 ^ 64 - (4 + A.length + D.length + 2 + term.length + 1)
              = (size - (4 + A.length + D.length + 2 + term.length + 1)) + 2 ^ 64 := by omega
          rw [this, Nat.add_mod_right]
          exact Nat.mod_le _ _
        have hg : 2 * (4 - w) ≤ g.length := by omega
        have hsrc : 12 - 2 * (4 - w) = ([83, c1, h1, h2] ++ A).length := by
          simp only [List.length_append, List.length_cons, List.length_nil]; omega
        have hdst : 12 = ([83, c1, h1, h2] ++ A).length + 2 * (4 - w) := by
          simp only [List.length_append, List.length_cons, List.length_nil]; omega
        have hcnt : (4 + A.length + D.length + 2 + term.length + 1 + 2 ^ 64
            - ([83, c1, h1, h2] ++ A).length) % 2 ^ 64 = (D ++ (K ++ (term ++ [0]))).length := by
          simp only [List.length_append, List.length_cons, List.length_nil]; omega
        have hline : 83 :: c1 :: h1 :: h2 :: (A ++ (D ++ (K ++ (term ++ 0 :: g))))
            = ([83, c1, h1, h2] ++ A) ++ ((D ++ (K ++ (term ++ [0]))) ++ g) := by simp
        have hmm := memmove_spec ([83, c1, h1, h2] ++ A) (D ++ (K ++ (term ++ [0]))) g
          (2 * (4 - w)) hg
        rw [← hline, ← hdst] at hmm
        rw [hsrc, hcnt, hmm]
        have hX : (List.take (2 * (4 - w)) (D ++ (K ++ (term ++ [0])) ++ g)).length
            = 2 * (4 - w) := by
          rw [List.length_take]
          simp only [List.length_append, List.length_cons, List.length_nil]
          omega
        generalize List.take (2 * (4 - w)) (D ++ (K ++ (term ++ [0])) ++ g) = X at hX
        have e1 : [83, c1, h1, h2] ++ A ++ (X ++ (D ++ (K ++ (term ++ [0]))
            ++ List.drop (2 * (4 - w)) g))
            = 83 :: c1 :: h1 :: h2 :: ((A ++ X) ++ (D ++ (K ++ (term
              ++ 0 :: List.drop (2 * (4 - w)) g)))) := by simp
        rw [e1, u32_to_hexstr_count, hexstr_two]
        have hAX : (A ++ X).length = 8 := by
          rw [List.length_append]; omega
        have := change_tail_spec c1 (hexdigit ((n + (4 - w)) / 16 % 16))
          (hexdigit ((n + (4 - w)) % 16)) (A ++ X) D K
          (term ++ 0 :: List.drop (2 * (4 - w)) g) addr (n + (4 - w)) hAX hK (by omega)
          (by omega) hD
        simp only [List.cons_append, List.nil_append] at this ⊢
        rw [this]
  · have hw0 : 4 - w = 0 := by omega
    have hA8 : A.length = 8 := by omega
    simp only [hw0, Nat.mul_zero, gt_iff_lt, Nat.lt_irrefl, false_and, if_false, Nat.add_zero,
      List.drop_zero]
    rw [change_tail_spec c1 h1 h2 A D K (term ++ 0 :: g) addr n hA8 hK (by omega) (by omega) hD,
      ← hnd, hexstr_two_of_hex h1 h2 hh1 hh2]
    rfl

theorem valid_layout {line : List Nat} (h : srec_check line = 0)
    (hnul : strlen line < line.length) :
    ∃ c1 h1 h2 A D K term g, Layout line c1 h1 h2 A D K term g := by
  obtain ⟨c1, h1, h2, body, term, tail, hline, hcs, htail, hc1, hh1, hh2, hlen, hn, hbt, hall,
    hsum, htm⟩ := srec_check_decomp h
  have hw := addr_len_of_le c1
  obtain ⟨g, rfl⟩ : ∃ g, tail = 0 :: g := by
    cases tail with
    | nil =>
      exfalso
      rw [strlen_eq_length_cstr, hcs] at hnul
      rw [hline] at hnul
      simp at hnul
    | cons a g =>
      have : a = 0 := by simpa [rd] using htail
      exact ⟨g, by rw [this]⟩
  generalize hnd : 16 * hexval h1 + hexval h2 = n at *
  generalize hwd : addr_len_of c1 = w at *
  have hb1 : body.take (2 * w) ++ body.drop (2 * w) = body := List.take_append_drop _ _
  have hA : (body.take (2 * w)).length = 2 * w := by rw [List.length_take]; omega
  have hR : (body.drop (2 * w)).length = 2 * n - 2 * w := by rw [List.length_drop]; omega
  generalize body.take (2 * w) = A at hb1 hA
  generalize body.drop (2 * w) = R at hb1 hR
  have hb2 : R.take (2 * n - 2 * w - 2) ++ R.drop (2 * n - 2 * w - 2) = R :=
    List.take_append_drop _ _
  have hDl : (R.take (2 * n - 2 * w - 2)).length = 2 * n - 2 * w - 2 := by
    rw [List.length_take]; omega
  have hKl : (R.drop (2 * n - 2 * w - 2)).length = 2 := by rw [List.length_drop]; omega
  generalize R.take (2 * n - 2 * w - 2) = D at hb2 hDl
  generalize R.drop (2 * n - 2 * w - 2) = K at hb2 hKl
  subst hb2
  subst hb1
  subst hnd
  subst hwd
  refine ⟨c1, h1, h2, A, D, K, term, g, ?_, hc1, hh1, hh2, hA, hKl, by omega,
    ?_, ?_, ?_, hsum, htm⟩
  · rw [hline]; simp
  · intro c hc; exact hall c (by simp [hc])
  · intro c hc; exact hall c (by simp [hc])
  · intro c hc; exact hall c (by simp [hc])

theorem term_nul_free {term : List Nat}
    (h : term = [] ∨ term = [13] ∨ term = [10] ∨ term = [13, 10]) :
    0 ∉ term ∧ term.length ≤ 2 := by
  rcases h with rfl | rfl | rfl | rfl <;> simp

/-- The value of `srec_addr_change` on a valid record held in an array of at least `size`
bytes. -/
theorem change_layout {line : List Nat} {c1 h1 h2 : Nat} {A D K term g : List Nat}
    (hL : Layout line c1 h1 h2 A D K term g) (size addr : Nat)
    (hs : strlen line < size) (hb : size ≤ line.length) :
    srec_addr_change line size addr =
      if 0 < 4 - addr_len_of c1 ∧
          ((size + 2 ^ 64 - (strlen line + 1)) % 2 ^ 64 < 2 * (4 - addr_len_of c1)
            ∨ 16 * hexval h1 + hexval h2 + (4 - addr_len_of c1) > 255) then (-1, line)
      else
        (0, 83 :: new_type c1 :: (hexstr 2 (16 * hexval h1 + hexval h2 + (4 - addr_len_of c1)) ++
          (hexstr 8 addr ++ (D ++ (hexstr 2 (255 - (16 * hexval h1 + hexval h2
              + (4 - addr_len_of c1) + byteSum (hexstr 8 addr ++ D)) % 256) ++
            (term ++ 0 :: g.drop (2 * (4 - addr_len_of c1)))))))) := by
  obtain ⟨hline, hc1, hh1, hh2, hA, hK, hn, hAh, hDh, hKh, hsum, htm⟩ := hL
  have ht := term_nul_free htm
  have h0 : 0 ∉ A ++ (D ++ (K ++ term)) := by
    intro h0
    simp only [List.mem_append] at h0
    rcases h0 with h0 | h0 | h0 | h0
    · exact isHex_ne_zero (hAh 0 h0) rfl
    · exact isHex_ne_zero (hDh 0 h0) rfl
    · exact isHex_ne_zero (hKh 0 h0) rfl
    · exact ht.1 h0
  have hl0 : 0 ∉ 83 :: c1 :: h1 :: h2 :: (A ++ (D ++ (K ++ term))) := by
    have := isHex_ne_zero hh1
    have := isHex_ne_zero hh2
    simp only [List.mem_cons, not_or]
    refine ⟨by omega, by omega, by omega, by omega, h0⟩
  have hsl : strlen line = 4 + A.length + D.length + 2 + term.length := by
    have e : 83 :: c1 :: h1 :: h2 :: (A ++ (D ++ (K ++ (term ++ 0 :: g))))
        = (83 :: c1 :: h1 :: h2 :: (A ++ (D ++ (K ++ term)))) ++ 0 :: g := by simp
    rw [hline, e, strlen_eq_length_cstr, cstr_append_nul hl0]
    simp only [List.length_cons, List.length_append]
    omega
  have hll : line.length = 4 + A.length + D.length + 2 + term.length + 1 + g.length := by
    rw [hline]
    simp only [List.length_cons, List.length_append]
    omega
  have := srec_addr_change_spec c1 h1 h2 A D K term g size addr hh1 hh2 hA hK hn hDh h0
    (by omega) ht.2 (by omega) (by omega)
  rw [hsl]
  rw [← hline] at this
  exact this

theorem hexstr_to_u32_loop_append : ∀ (cs pre post : List Nat) (n : Nat),
    (∀ c ∈ cs, IsHex c) →
    hexstr_to_u32_loop (pre ++ cs ++ post) cs.length pre.length n
      = (0, cs.foldl (fun n c => (n * 16 + hexval c) % 2 ^ 32) n) := by
  intro cs
  induction cs with
  | nil => intro pre post n _; rfl
  | cons a cs ih =>
    intro pre post n h
    have ha : IsHex a := h a (List.mem_cons_self _ _)
    have hr : rd (pre ++ a :: cs ++ post) pre.length = a := by
      rw [List.append_assoc, rd_append_length]; rfl
    have hre : pre ++ a :: cs ++ post = (pre ++ [a]) ++ cs ++ post := by simp
    have hih := ih (pre ++ [a]) post ((n * 16 + hexval a) % 2 ^ 32)
      (fun c hc => h c (List.mem_cons_of_mem _ hc))
    simp only [List.length_append, List.length_cons, List.length_nil, Nat.zero_add] at hih
    simp only [List.length_cons, hexstr_to_u32_loop, hr, List.foldl_cons]
    unfold IsHex at ha
    by_cases hd : 48 ≤ a ∧ a ≤ 57
    · rw [if_pos hd, hre, ← hih]
      have : hexval a = a - 48 := by unfold hexval; rw [if_pos hd.2]
      rw [this]
    · have hl : 65 ≤ a ∧ a ≤ 70 := by omega
      rw [if_neg hd, if_pos hl, hre, ← hih]
      have : hexval a = a - 65 + 10 := by
        unfold hexval
        rw [if_neg (by omega)]
        omega
      rw [this]

theorem foldl_mod_eq : ∀ (cs : List Nat) (n m : Nat), n % 2 ^ 32 = m % 2 ^ 32 →
    (cs.foldl (fun n c => (n * 16 + hexval c) % 2 ^ 32) n) % 2 ^ 32
      = (cs.foldl (fun n c => n * 16 + hexval c) m) % 2 ^ 32 := by
  intro cs
  induction cs with
  | nil => intro n m h; exact h
  | cons a cs ih =>
    intro n m h
    simp only [List.foldl_cons]
    apply ih
    omega

theorem foldl_mod_lt : ∀ (cs : List Nat) (n : Nat), n < 2 ^ 32 →
    cs.foldl (fun n c => (n * 16 + hexval c) % 2 ^ 32) n < 2 ^ 32 := by
  intro cs
  induction cs with
  | nil => intro n h; exact h
  | cons a cs ih =>
    intro n _
    simp only [List.foldl_cons]
    exact ih _ (Nat.mod_lt _ (by norm_num))

/-- Decoding `len` hex characters of a buffer yields their base-16 value modulo `2 ^ 32`. -/
theorem hexstr_to_u32_append (cs pre post : List Nat) (h : ∀ c ∈ cs, IsHex c) :
    hexstr_to_u32 (pre ++ cs ++ post) pre.length cs.length = (0, hexnum cs % 2 ^ 32) := by
  unfold hexstr_to_u32
  rw [hexstr_to_u32_loop_append cs pre post 0 h]
  have h1 := foldl_mod_eq cs 0 0 rfl
  have h2 := foldl_mod_lt cs 0 (by norm_num)
  rw [Nat.mod_eq_of_lt h2] at h1
  rw [h1]
  rfl

theorem hexstr_to_u32_lt (line : List Nat) (c len : Nat) :
    (hexstr_to_u32 line c len).2 < 2 ^ 32 := by
  unfold hexstr_to_u32
  have : ∀ (len c n : Nat), n < 2 ^ 32 → (hexstr_to_u32_loop line len c n).2 < 2 ^ 32 := by
    intro len
    induction len with
    | zero => intro c n h; exact h
    | succ k ih =>
      intro c n h
      simp only [hexstr_to_u32_loop]
      split
      · exact ih _ _ (Nat.mod_lt _ (by norm_num))
      · split
        · exact ih _ _ (Nat.mod_lt _ (by norm_num))
        · exact h
  exact this len c 0 (by norm_num)

theorem hexnum_append_singleton (cs : List Nat) (d : Nat) :
    hexnum (cs ++ [d]) = hexnum cs * 16 + hexval d := by
  unfold hexnum
  rw [List.foldl_append]
  rfl

theorem hexnum_hexstr (len v : Nat) : hexnum (hexstr len v) = v % 16 ^ len := by
  induction len generalizing v with
  | zero => simp [hexstr, hexnum, Nat.mod_one]
  | succ k ih =>
    simp only [hexstr]
    rw [hexnum_append_singleton, ih, hexval_hexdigit _ (Nat.mod_lt _ (by norm_num)),
      Nat.pow_succ, Nat.mul_comm (16 ^ k) 16, Nat.mod_mul]
    omega

theorem hexnum_lt : ∀ (cs : List Nat), (∀ c ∈ cs, IsHex c) → hexnum cs < 16 ^ cs.length := by
  intro cs
  induction cs using List.reverseRecOn with
  | nil => intro _; simp [hexnum]
  | append_singleton cs d ih =>
    intro h
    have h1 := ih (fun c hc => h c (List.mem_append_left _ hc))
    have h2 := hexval_lt d (h d (by simp))
    rw [hexnum_append_singleton, List.length_append, List.length_singleton, Nat.pow_succ]
    omega

theorem layout_check {line : List Nat} {c1 h1 h2 : Nat} {A D K term g : List Nat}
    (hL : Layout line c1 h1 h2 A D K term g) : srec_check line = 0 := by
  obtain ⟨hline, hc1, hh1, hh2, hA, hK, hn, hAh, hDh, hKh, hsum, htm⟩ := hL
  have ht := term_nul_free htm
  have hall : ∀ c ∈ A ++ (D ++ K), IsHex c := by
    intro c hc
    simp only [List.mem_append] at hc
    rcases hc with hc | hc | hc
    · exact hAh c hc
    · exact hDh c hc
    · exact hKh c hc
  have hbt : 0 ∉ (A ++ (D ++ K)) ++ term := by
    intro h0
    rcases List.mem_append.mp h0 with h0 | h0
    · exact isHex_ne_zero (hall 0 h0) rfl
    · exact ht.1 h0
  have hev := srec_check_eval c1 h1 h2 (A ++ (D ++ K)) term (0 :: g) hc1 hh1 hh2
    (by simp only [List.length_append]; omega) (by omega) hbt rfl
  rw [if_pos ⟨hall, hsum, htm⟩] at hev
  rw [hline, ← hev]
  simp

theorem new_type_six {c1 : Nat}
    (ht : c1 = 49 ∨ c1 = 50 ∨ c1 = 51 ∨ c1 = 55 ∨ c1 = 56 ∨ c1 = 57) :
    (48 ≤ new_type c1 ∧ new_type c1 ≤ 57) ∧ addr_len_of (new_type c1) = 4 := by
  rcases ht with rfl | rfl | rfl | rfl | rfl | rfl <;> decide

/-- On success the buffer holds, for a record of one of the six address-bearing types,
a valid record with the new type, count, address and checksum, the data and terminator of
the input, and the rest of the array shifted out by the widening. -/
theorem change_out_layout {line : List Nat} {c1 h1 h2 : Nat} {A D K term g : List Nat}
    (hL : Layout line c1 h1 h2 A D K term g) (size addr : Nat)
    (hs : strlen line < size) (hb : size ≤ line.length)
    (hr : (srec_addr_change line size addr).1 = 0) :
    16 * hexval h1 + hexval h2 + (4 - addr_len_of c1) ≤ 255 ∧
    (srec_addr_change line size addr).2 =
      83 :: new_type c1 :: (hexstr 2 (16 * hexval h1 + hexval h2 + (4 - addr_len_of c1)) ++
        (hexstr 8 addr ++ (D ++ (hexstr 2 (255 - (16 * hexval h1 + hexval h2
            + (4 - addr_len_of c1) + byteSum (hexstr 8 addr ++ D)) % 256) ++
          (term ++ 0 :: g.drop (2 * (4 - addr_len_of c1))))))) ∧
    (c1 = 49 ∨ c1 = 50 ∨ c1 = 51 ∨ c1 = 55 ∨ c1 = 56 ∨ c1 = 57 →
      Layout (srec_addr_change line size addr).2 (new_type c1)
        (hexdigit ((16 * hexval h1 + hexval h2 + (4 - addr_len_of c1)) / 16 % 16))
        (hexdigit ((16 * hexval h1 + hexval h2 + (4 - addr_len_of c1)) % 16))
        (hexstr 8 addr) D
        (hexstr 2 (255 - (16 * hexval h1 + hexval h2 + (4 - addr_len_of c1)
          + byteSum (hexstr 8 addr ++ D)) % 256))
        term (g.drop (2 * (4 - addr_len_of c1)))) := by
  have hcl := change_layout hL size addr hs hb
  obtain ⟨hline, hc1, hh1, hh2, hA, hK, hn, hAh, hDh, hKh, hsum, htm⟩ := hL
  have hv1 := hexval_lt h1 hh1
  have hv2 := hexval_lt h2 hh2
  have hw := addr_len_of_le c1
  generalize hnd : 16 * hexval h1 + hexval h2 = n at *
  generalize hwd : addr_len_of c1 = w at *
  by_cases hc : 0 < 4 - w ∧
      ((size + 2 ^ 64 - (strlen line + 1)) % 2 ^ 64 < 2 * (4 - w) ∨ n + (4 - w) > 255)
  · rw [hcl, if_pos hc] at hr
    simp at hr
  · rw [if_neg hc] at hcl
    have hn' : n + (4 - w) ≤ 255 := by
      by_cases he : 0 < 4 - w
      · by_contra hgt
        exact hc ⟨he, Or.inr (by omega)⟩
      · omega
    refine ⟨hn', by rw [hcl], ?_⟩
    intro ht
    have h6 := new_type_six ht
    rw [hcl]
    have hd1 : (n + (4 - w)) / 16 % 16 < 16 := Nat.mod_lt _ (by norm_num)
    have hd2 : (n + (4 - w)) % 16 < 16 := Nat.mod_lt _ (by norm_num)
    have hcnt : 16 * hexval (hexdigit ((n + (4 - w)) / 16 % 16))
        + hexval (hexdigit ((n + (4 - w)) % 16)) = n + (4 - w) := by
      rw [hexval_hexdigit _ hd1, hexval_hexdigit _ hd2]
      omega
    refine ⟨?_, h6.1, hexdigit_isHex _ hd1, hexdigit_isHex _ hd2, ?_, hexstr_length _ _, ?_,
      hexstr_isHex _ _, hDh, hexstr_isHex _ _, ?_, htm⟩
    · rw [hexstr_two]; rfl
    · rw [hexstr_length, h6.2]
    · rw [hcnt, hexstr_length]; omega
    · rw [hcnt, ← List.append_assoc, byteSum_append _ _ (by
        rw [List.length_append, hexstr_length]; omega), byteSum_hexstr_two]
      omega

/-- The function `srec_check` reads only the C string of its buffer. -/
theorem srec_check_cstr (line : List Nat) : srec_check (cstr line) = srec_check line := by
  have hc : cstr (cstr line) = cstr line := cstr_self (cstr_nul_free line)
  have h1 := srec_check_iff line
  have h2 := srec_check_iff (cstr line)
  rw [hc] at h2
  rcases srec_check_values line with a | a <;> rcases srec_check_values (cstr line) with b | b
  · rw [a, b]
  · exact absurd (h2.mpr (h1.mp a)) (by rw [b]; decide)
  · exact absurd (h1.mpr (h2.mp b)) (by rw [a]; decide)
  · rw [a, b]

theorem new_type_digit {c1 : Nat} (h : 48 ≤ c1 ∧ c1 ≤ 57) :
    48 ≤ new_type c1 ∧ new_type c1 ≤ 57 := by
  unfold new_type
  split
  · omega
  · split <;> omega

/-- What `main` does after the range check for a valid record in its array: exit code 6
or the rewritten text. -/
theorem convert_layout {line : List Nat} {c1 h1 h2 : Nat} {A D K term g : List Nat}
    (hL : Layout line c1 h1 h2 A D K term g) (addr : Nat) (h64 : line.length < 2 ^ 64) :
    convert line addr =
      if 0 < 4 - addr_len_of c1 ∧ (g.length < 2 * (4 - addr_len_of c1)
          ∨ 16 * hexval h1 + hexval h2 + (4 - addr_len_of c1) > 255) then Outcome.error 6
      else Outcome.emit false
        (83 :: new_type c1 :: (hexstr 2 (16 * hexval h1 + hexval h2 + (4 - addr_len_of c1)) ++
          (hexstr 8 addr ++ (D ++ (hexstr 2 (255 - (16 * hexval h1 + hexval h2
              + (4 - addr_len_of c1) + byteSum (hexstr 8 addr ++ D)) % 256) ++ term))))) := by
  have hline := hL.1
  have htm := term_nul_free hL.2.2.2.2.2.2.2.2.2.2.2
  have hDh := hL.2.2.2.2.2.2.2.2.1
  have hc1 := hL.2.1
  have hll : line.length = strlen line + 1 + g.length := by
    have hv := layout_check hL
    obtain ⟨_, _, _, _, _, tail, hl2, hcs, _⟩ := srec_check_decomp hv
    rw [strlen_eq_length_cstr]
    have e : line = (83 :: c1 :: h1 :: h2 :: (A ++ (D ++ (K ++ term)))) ++ 0 :: g := by
      rw [hline]; simp
    have hk := hL.2.2.2.2.2.2.2.2.2.1
    have ha := hL.2.2.2.2.2.2.2.1
    have h0 : 0 ∉ 83 :: c1 :: h1 :: h2 :: (A ++ (D ++ (K ++ term))) := by
      have := isHex_ne_zero hL.2.2.1
      have := isHex_ne_zero hL.2.2.2.1
      simp only [List.mem_cons, List.mem_append, not_or]
      refine ⟨by omega, by omega, by omega, by omega, ?_, ?_, ?_, htm.1⟩
      · exact fun h => isHex_ne_zero (ha 0 h) rfl
      · exact fun h => isHex_ne_zero (hDh 0 h) rfl
      · exact fun h => isHex_ne_zero (hk 0 h) rfl
    have hc : cstr line = 83 :: c1 :: h1 :: h2 :: (A ++ (D ++ (K ++ term))) := by
      rw [e]; exact cstr_append_nul h0 g
    rw [hc]
    conv_lhs => rw [e]
    simp only [List.length_append, List.length_cons]
    omega
  have hcl := change_layout hL line.length addr (by omega) (Nat.le_refl _)
  have hsub : (line.length + 2 ^ 64 - (strlen line + 1)) % 2 ^ 64 = g.length := by omega
  rw [hsub] at hcl
  unfold convert
  rw [hcl]
  split
  · simp
  · simp only [ne_eq, not_true_eq_false, if_false]
    congr 1
    have hnt := new_type_digit hc1
    have e2 : 83 :: new_type c1 :: (hexstr 2 (16 * hexval h1 + hexval h2 + (4 - addr_len_of c1)) ++
          (hexstr 8 addr ++ (D ++ (hexstr 2 (255 - (16 * hexval h1 + hexval h2
              + (4 - addr_len_of c1) + byteSum (hexstr 8 addr ++ D)) % 256) ++
            (term ++ 0 :: g.drop (2 * (4 - addr_len_of c1)))))))
        = (83 :: new_type c1 :: (hexstr 2 (16 * hexval h1 + hexval h2 + (4 - addr_len_of c1)) ++
          (hexstr 8 addr ++ (D ++ (hexstr 2 (255 - (16 * hexval h1 + hexval h2
              + (4 - addr_len_of c1) + byteSum (hexstr 8 addr ++ D)) % 256) ++ term)))))
          ++ 0 :: g.drop (2 * (4 - addr_len_of c1)) := by simp
    rw [e2]
    apply cstr_append_nul
    simp only [List.mem_cons, List.mem_append, not_or]
    refine ⟨by omega, by omega, ?_, ?_, ?_, ?_, htm.1⟩
    · exact fun h => isHex_ne_zero (hexstr_isHex _ _ 0 h) rfl
    · exact fun h => isHex_ne_zero (hexstr_isHex _ _ 0 h) rfl
    · exact fun h => isHex_ne_zero (hDh 0 h) rfl
    · exact fun h => isHex_ne_zero (hexstr_isHex _ _ 0 h) rfl

/-- The range check of `main` (lines 315-335) on a valid record of an address-bearing
type with a non-zero offset. -/
theorem process_line_range (sign : Int) (offset : Nat) (line : List Nat)
    (hv : srec_check line = 0) (ht : IsAddrType (rd line 1)) (ho : offset ≠ 0)
    (ho32 : offset < 2 ^ 32) :
    process_line sign offset line =
      if sign ≠ 0 then
        if (hexstr_to_u32 line 4 (addr_len_of (rd line 1) * 2)).2 < offset then Outcome.error 5
        else convert line ((hexstr_to_u32 line 4 (addr_len_of (rd line 1) * 2)).2 - offset)
      else
        if 4294967295 < (hexstr_to_u32 line 4 (addr_len_of (rd line 1) * 2)).2 + offset
          then Outcome.error 5
        else convert line ((hexstr_to_u32 line 4 (addr_len_of (rd line 1) * 2)).2 + offset) := by
  have ha := hexstr_to_u32_lt line 4 (addr_len_of (rd line 1) * 2)
  have hty : (49 ≤ rd line 1 ∧ rd line 1 ≤ 51) ∨ (55 ≤ rd line 1 ∧ rd line 1 ≤ 57) := by
    unfold IsAddrType at ht; omega
  unfold process_line
  rw [if_neg (by rw [hv]; decide), if_pos ⟨hty, ho⟩]
  simp only []
  generalize (hexstr_to_u32 line 4 (addr_len_of (rd line 1) * 2)).2 = a at ha
  by_cases hsg : sign ≠ 0
  · rw [if_pos hsg, if_pos hsg]
    by_cases hlt : a < offset
    · rw [if_pos hlt, if_pos hlt]
    · rw [if_neg hlt, if_neg hlt]
      have : (a + 2 ^ 32 - offset) % 2 ^ 32 = a - offset := by omega
      rw [this]
  · rw [if_neg hsg, if_neg hsg]
    by_cases hlt : 4294967295 - offset < a
    · rw [if_pos hlt, if_pos (by omega)]
    · rw [if_neg hlt, if_neg (by omega)]
      have : (a + offset) % 2 ^ 32 = a + offset := by omega
      rw [this]

/-- On a valid record the address that `main` decodes is the base-16 value of the
address field of the line. -/
theorem addr_decode {line : List Nat} (hv : srec_check line = 0) :
    hexstr_to_u32 line 4 (addr_len_of (rd line 1) * 2)
      = (0, hexnum (((cstr line).drop 4).take (addr_len_of (rd line 1) * 2))) := by
  obtain ⟨c1, h1, h2, body, term, tail, hline, hcs, -, -, -, -, hlen, hn, -, hall, -, -⟩ :=
    srec_check_decomp hv
  have hr1 : rd line 1 = c1 := by rw [hline]; rfl
  have hw := addr_len_of_le c1
  rw [hr1, hcs]
  generalize hwd : addr_len_of c1 = w at *
  have hd : (83 :: c1 :: h1 :: h2 :: (body ++ term)).drop 4 = body ++ term := rfl
  rw [hd, List.take_append_of_le_length (by omega)]
  have hb1 : body.take (w * 2) ++ body.drop (w * 2) = body := List.take_append_drop _ _
  have hA : (body.take (w * 2)).length = w * 2 := by rw [List.length_take]; omega
  have hAh : ∀ c ∈ body.take (w * 2), IsHex c := fun c hc => hall c (List.mem_of_mem_take hc)
  generalize body.take (w * 2) = A at hb1 hA hAh
  generalize body.drop (w * 2) = R at hb1
  have e : line = [83, c1, h1, h2] ++ A ++ (R ++ term ++ tail) := by
    rw [hline, ← hb1]; simp
  have hdec := hexstr_to_u32_append A [83, c1, h1, h2] (R ++ term ++ tail) hAh
  rw [← e, hA] at hdec
  have hlt := hexnum_lt A hAh
  have hpow : 16 ^ A.length ≤ 16 ^ 8 := Nat.pow_le_pow_right (by norm_num) (by omega)
  have h32 : hexnum A % 2 ^ 32 = hexnum A := Nat.mod_eq_of_lt (by
    have : (16 : Nat) ^ 8 = 2 ^ 32 := by norm_num
    omega)
  rw [h32] at hdec
  exact hdec

theorem convert_ne_error5 (line : List Nat) (addr : Nat) : convert line addr ≠ Outcome.error 5 := by
  unfold convert
  split
  · decide
  · intro h; cases h

theorem layout_nul_free {line : List Nat} {c1 h1 h2 : Nat} {A D K term g : List Nat}
    (hL : Layout line c1 h1 h2 A D K term g) :
    0 ∉ 83 :: c1 :: h1 :: h2 :: (A ++ (D ++ (K ++ term))) := by
  obtain ⟨-, hc1, hh1, hh2, -, -, -, hAh, hDh, hKh, -, htm⟩ := hL
  have := isHex_ne_zero hh1
  have := isHex_ne_zero hh2
  simp only [List.mem_cons, List.mem_append, not_or]
  refine ⟨by omega, by omega, by omega, by omega, ?_, ?_, ?_, (term_nul_free htm).1⟩
  · exact fun h => isHex_ne_zero (hAh 0 h) rfl
  · exact fun h => isHex_ne_zero (hDh 0 h) rfl
  · exact fun h => isHex_ne_zero (hKh 0 h) rfl

theorem layout_cstr {line : List Nat} {c1 h1 h2 : Nat} {A D K term g : List Nat}
    (hL : Layout line c1 h1 h2 A D K term g) :
    cstr line = 83 :: c1 :: h1 :: h2 :: (A ++ (D ++ (K ++ term))) := by
  have e : line = (83 :: c1 :: h1 :: h2 :: (A ++ (D ++ (K ++ term)))) ++ 0 :: g := by
    rw [hL.1]; simp
  rw [e]
  exact cstr_append_nul (layout_nul_free hL) g

theorem layout_strlen {line : List Nat} {c1 h1 h2 : Nat} {A D K term g : List Nat}
    (hL : Layout line c1 h1 h2 A D K term g) :
    strlen line = 4 + A.length + D.length + 2 + term.length := by
  rw [strlen_eq_length_cstr, layout_cstr hL]
  simp only [List.length_cons, List.length_append, hL.2.2.2.2.2.1]
  omega

theorem layout_rd1 {line : List Nat} {c1 h1 h2 : Nat} {A D K term g : List Nat}
    (hL : Layout line c1 h1 h2 A D K term g) : rd line 1 = c1 := by
  rw [hL.1]; rfl

theorem layout_count {line : List Nat} {c1 h1 h2 : Nat} {A D K term g : List Nat}
    (hL : Layout line c1 h1 h2 A D K term g) :
    hexstr_to_u32 line 2 2 = (0, 16 * hexval h1 + hexval h2) := by
  have r2 : rd line 2 = h1 := by rw [hL.1]; rfl
  have r3 : rd line (2 + 1) = h2 := by rw [hL.1]; rfl
  rw [hexstr_to_u32_two, r2, r3, if_pos hL.2.2.1, if_pos hL.2.2.2.1]

theorem layout_addr_field {line : List Nat} {c1 h1 h2 : Nat} {A D K term g : List Nat}
    (hL : Layout line c1 h1 h2 A D K term g) : (line.drop 4).take A.length = A := by
  rw [hL.1]
  show (A ++ (D ++ (K ++ (term ++ 0 :: g)))).take A.length = A
  exact List.take_left _ _

theorem layout_addr_decode {line : List Nat} {c1 h1 h2 : Nat} {A D K term g : List Nat}
    (hL : Layout line c1 h1 h2 A D K term g) :
    hexstr_to_u32 line 4 A.length = (0, hexnum A % 2 ^ 32) := by
  have e : line = [83, c1, h1, h2] ++ A ++ (D ++ (K ++ (term ++ 0 :: g))) := by
    rw [hL.1]; simp
  have := hexstr_to_u32_append A [83, c1, h1, h2] (D ++ (K ++ (term ++ 0 :: g)))
    hL.2.2.2.2.2.2.2.1
  rw [← e] at this
  exact this

theorem layout_sum_region {line : List Nat} {c1 h1 h2 : Nat} {A D K term g : List Nat}
    (hL : Layout line c1 h1 h2 A D K term g) :
    (line.drop 4).take (A.length + D.length) = A ++ D := by
  rw [hL.1]
  show (A ++ (D ++ (K ++ (term ++ 0 :: g)))).take (A.length + D.length) = A ++ D
  rw [← List.append_assoc, ← List.length_append]
  exact List.take_left _ _

theorem layout_data {line : List Nat} {c1 h1 h2 : Nat} {A D K term g : List Nat}
    (hL : Layout line c1 h1 h2 A D K term g) :
    ((cstr line).drop (4 + A.length)).take D.length = D := by
  rw [layout_cstr hL]
  have e : 83 :: c1 :: h1 :: h2 :: (A ++ (D ++ (K ++ term)))
      = ([83, c1, h1, h2] ++ A) ++ (D ++ (K ++ term)) := by simp
  rw [e, List.drop_left' (by simp; omega)]
  exact List.take_left _ _

theorem layout_after {line : List Nat} {c1 h1 h2 : Nat} {A D K term g : List Nat}
    (hL : Layout line c1 h1 h2 A D K term g) :
    (cstr line).drop (4 + A.length + D.length + 2) = term := by
  rw [layout_cstr hL]
  have e : 83 :: c1 :: h1 :: h2 :: (A ++ (D ++ (K ++ term)))
      = ([83, c1, h1, h2] ++ A ++ D ++ K) ++ term := by simp
  rw [e]
  exact List.drop_left' (by simp [hL.2.2.2.2.2.1]; omega)

theorem layout_cksum {line : List Nat} {c1 h1 h2 : Nat} {A D K term g : List Nat}
    (hL : Layout line c1 h1 h2 A D K term g) :
    hexstr_to_u32 line (4 + A.length + D.length) 2 = (0, hexnum K % 2 ^ 32) := by
  have e : line = ([83, c1, h1, h2] ++ A ++ D) ++ K ++ (term ++ 0 :: g) := by
    rw [hL.1]; simp
  have := hexstr_to_u32_append K ([83, c1, h1, h2] ++ A ++ D) (term ++ 0 :: g)
    hL.2.2.2.2.2.2.2.2.2.1
  rw [← e, hL.2.2.2.2.2.1] at this
  have hl : ([83, c1, h1, h2] ++ A ++ D).length = 4 + A.length + D.length := by
    simp only [List.length_append, List.length_cons, List.length_nil]
  rw [hl] at this
  exact this

theorem count_digits (v : Nat) (h : v ≤ 255) :
    16 * hexval (hexdigit (v / 16 % 16)) + hexval (hexdigit (v % 16)) = v := by
  rw [hexval_hexdigit _ (Nat.mod_lt _ (by norm_num)), hexval_hexdigit _ (Nat.mod_lt _ (by norm_num))]
  omega

theorem move_n_of_eq (c : Nat) : move_n_of c = 2 * (4 - addr_len_of c) := by
  have := addr_len_of_le c
  unfold move_n_of
  omega

/-- The text left by a successful `srec_addr_change`. -/
theorem out_cstr (nt n addr ck : Nat) (D term g : List Nat) (hnt : nt ≠ 0)
    (hD : ∀ c ∈ D, IsHex c) (ht : 0 ∉ term) :
    cstr (83 :: nt :: (hexstr 2 n ++ (hexstr 8 addr ++ (D ++ (hexstr 2 ck ++
      (term ++ 0 :: g))))))
      = 83 :: nt :: (hexstr 2 n ++ (hexstr 8 addr ++ (D ++ (hexstr 2 ck ++ term)))) := by
  have e : 83 :: nt :: (hexstr 2 n ++ (hexstr 8 addr ++ (D ++ (hexstr 2 ck ++
      (term ++ 0 :: g)))))
      = (83 :: nt :: (hexstr 2 n ++ (hexstr 8 addr ++ (D ++ (hexstr 2 ck ++ term)))))
        ++ 0 :: g := by simp
  rw [e]
  apply cstr_append_nul
  simp only [List.mem_cons, List.mem_append, not_or]
  refine ⟨by omega, fun h => hnt h.symm, ?_, ?_, ?_, ?_, ht⟩
  · exact fun h => isHex_ne_zero (hexstr_isHex _ _ 0 h) rfl
  · exact fun h => isHex_ne_zero (hexstr_isHex _ _ 0 h) rfl
  · exact fun h => isHex_ne_zero (hD 0 h) rfl
  · exact fun h => isHex_ne_zero (hexstr_isHex _ _ 0 h) rfl

theorem out_count (nt n : Nat) (rest : List Nat) (hn : n ≤ 255) :
    hexstr_to_u32 (83 :: nt :: (hexstr 2 n ++ rest)) 2 2 = (0, n) := by
  rw [hexstr_two, hexstr_to_u32_two]
  have r2 : rd (83 :: nt :: ([hexdigit (n / 16 % 16), hexdigit (n % 16)] ++ rest)) 2
      = hexdigit (n / 16 % 16) := rfl
  have r3 : rd (83 :: nt :: ([hexdigit (n / 16 % 16), hexdigit (n % 16)] ++ rest)) (2 + 1)
      = hexdigit (n % 16) := rfl
  rw [r2, r3, if_pos (hexdigit_isHex _ (Nat.mod_lt _ (by norm_num))),
    if_pos (hexdigit_isHex _ (Nat.mod_lt _ (by norm_num))), count_digits n hn]

theorem process_line_other_types (sign : Int) (offset : Nat) (line : List Nat)
    (ht : ¬ ((49 ≤ rd line 1 ∧ rd line 1 ≤ 51) ∨ (55 ≤ rd line 1 ∧ rd line 1 ≤ 57))) :
    process_line sign offset line
      = Outcome.emit (decide (srec_check line ≠ 0)) (cstr line) := by
  unfold process_line
  by_cases hv : srec_check line ≠ 0
  · rw [if_pos hv, decide_eq_true hv]
  · rw [if_neg hv, if_neg (fun h => ht h.1), decide_eq_false hv]

theorem chars_at_succ (line : List Nat) (c len : Nat) :
    chars_at line c (len + 1) = rd line c :: chars_at line (c + 1) len := by
  unfold chars_at
  rw [List.range_succ_eq_map, List.map_cons, List.map_map]
  congr 1
  apply List.map_congr_left
  intro i _
  simp only [Function.comp, Nat.succ_eq_add_one]
  congr 1
  omega

theorem forall_lt_succ_shift (P : Nat → Prop) (c k : Nat) (h0 : P c) :
    (∀ i, i < k → P (c + 1 + i)) ↔ (∀ i, i < k + 1 → P (c + i)) := by
  constructor
  · intro h i hi
    rcases Nat.eq_zero_or_pos i with rfl | hpos
    · exact h0
    · have := h (i - 1) (by omega)
      have e : c + 1 + (i - 1) = c + i := by omega
      rw [e] at this
      exact this
  · intro h i hi
    have := h (i + 1) (by omega)
    have e : c + (i + 1) = c + 1 + i := by omega
    rw [e] at this
    exact this

theorem hexstr_to_u32_loop_status (line : List Nat) : ∀ (len c n : Nat),
    ((hexstr_to_u32_loop line len c n).1 = 0 ↔ ∀ i, i < len → IsHex (rd line (c + i))) ∧
    ((hexstr_to_u32_loop line len c n).1 = 0 ∨ (hexstr_to_u32_loop line len c n).1 = -1) := by
  intro len
  induction len with
  | zero =>
    intro c n
    exact ⟨⟨fun _ i hi => absurd hi (Nat.not_lt_zero i), fun _ => rfl⟩, Or.inl rfl⟩
  | succ k ih =>
    intro c n
    simp only [hexstr_to_u32_loop]
    by_cases hd : 48 ≤ rd line c ∧ rd line c ≤ 57
    · rw [if_pos hd]
      have h0 : IsHex (rd line c) := Or.inl hd
      rw [← forall_lt_succ_shift (fun j => IsHex (rd line j)) c k h0]
      exact ih _ _
    · rw [if_neg hd]
      by_cases hl : 65 ≤ rd line c ∧ rd line c ≤ 70
      · rw [if_pos hl]
        have h0 : IsHex (rd line c) := Or.inr hl
        rw [← forall_lt_succ_shift (fun j => IsHex (rd line j)) c k h0]
        exact ih _ _
      · rw [if_neg hl]
        refine ⟨⟨fun h => ?_, fun h => ?_⟩, Or.inr rfl⟩
        · simp at h
        · have := h 0 (by omega)
          rw [Nat.add_zero] at this
          rcases this with h1 | h1
          · exact absurd h1 hd
          · exact absurd h1 hl

theorem hexstr_to_u32_loop_value (line : List Nat) : ∀ (len c n : Nat),
    (∀ i, i < len → IsHex (rd line (c + i))) →
    hexstr_to_u32_loop line len c n
      = (0, (chars_at line c len).foldl (fun n c => (n * 16 + hexval c) % 2 ^ 32) n) := by
  intro len
  induction len with
  | zero => intro c n _; rfl
  | succ k ih =>
    intro c n h
    have h0 : IsHex (rd line c) := by
      have := h 0 (by omega)
      rw [Nat.add_zero] at this
      exact this
    have hk := (forall_lt_succ_shift (fun j => IsHex (rd line j)) c k h0).mpr h
    rw [chars_at_succ, List.foldl_cons]
    simp only [hexstr_to_u32_loop]
    by_cases hd : 48 ≤ rd line c ∧ rd line c ≤ 57
    · rw [if_pos hd, ih _ _ hk]
      have : hexval (rd line c) = rd line c - 48 := by unfold hexval; rw [if_pos hd.2]
      rw [this]
    · have hl : 65 ≤ rd line c ∧ rd line c ≤ 70 := by
        rcases h0 with h1 | h1
        · exact absurd h1 hd
        · exact h1
      rw [if_neg hd, if_pos hl, ih _ _ hk]
      have : hexval (rd line c) = rd line c - 65 + 10 := by
        unfold hexval
        rw [if_neg (by omega)]
        omega
      rw [this]

theorem mem_chars_at {line : List Nat} {c len x : Nat} (h : x ∈ chars_at line c len) :
    ∃ i, i < len ∧ x = rd line (c + i) := by
  unfold chars_at at h
  rw [List.mem_map] at h
  obtain ⟨i, hi, rfl⟩ := h
  exact ⟨i, List.mem_range.mp hi, rfl⟩

theorem accum_cons (base c : Nat) (ds : List Nat) (off : Nat) :
    accum base (c :: ds) off = accum base ds (off * base + digit_value c) := rfl

theorem accum_ge (base : Nat) (hb : 1 ≤ base) : ∀ (ds : List Nat) (off : Nat),
    off ≤ accum base ds off := by
  intro ds
  induction ds with
  | nil => intro off; exact Nat.le_refl _
  | cons c ds ih =>
    intro off
    rw [accum_cons]
    have h1 := ih (off * base + digit_value c)
    have h2 : off ≤ off * base := Nat.le_mul_of_pos_right off hb
    omega

theorem not_valid_digit_fail (base c off : Nat) (text : List Nat) (o : Nat)
    (hn : ¬ (valid_digit base c ∧ off * base + digit_value c ≤ 4294967295))
    (hmono : off * base + digit_value c ≤ accum base text (off * base + digit_value c)) :
    (((-1 : Int), o).1 = 0 ↔ (valid_digit base c ∧ ∀ a ∈ text, valid_digit base a) ∧
      accum base text (off * base + digit_value c) ≤ 4294967295) ∧
    (((-1 : Int), o).1 = 0 ∨ ((-1 : Int), o).1 = -1) ∧
    (((-1 : Int), o).1 = 0 → ((-1 : Int), o).2 = accum base text (off * base + digit_value c))
    := by
  refine ⟨⟨fun h => by simp at h, fun h => absurd ⟨h.1.1, by omega⟩ hn⟩, Or.inr rfl,
    fun h => by simp at h⟩

theorem get_offset_loop_spec (base : Nat) (hb : base = 8 ∨ base = 10 ∨ base = 16) :
    ∀ (text : List Nat) (off : Nat), off ≤ 4294967295 →
    ((get_offset_loop base text off).1 = 0 ↔
      (∀ c ∈ text, valid_digit base c) ∧ accum base text off ≤ 4294967295) ∧
    ((get_offset_loop base text off).1 = 0 ∨ (get_offset_loop base text off).1 = -1) ∧
    ((get_offset_loop base text off).1 = 0 →
      (get_offset_loop base text off).2 = accum base text off) := by
  intro text
  induction text with
  | nil =>
    intro off hoff
    refine ⟨⟨fun _ => ⟨fun c hc => absurd hc (List.not_mem_nil c), hoff⟩, fun _ => rfl⟩,
      Or.inl rfl, fun _ => rfl⟩
  | cons c text ih =>
    intro off hoff
    have hmono := accum_ge base (by omega) text (off * base + digit_value c)
    rw [accum_cons]
    simp only [List.mem_cons, forall_eq_or_imp]
    have hrec : valid_digit base c → off * base + digit_value c ≤ 4294967295 →
        ((get_offset_loop base text (off * base + digit_value c)).1 = 0 ↔
          (valid_digit base c ∧ ∀ a ∈ text, valid_digit base a) ∧
          accum base text (off * base + digit_value c) ≤ 4294967295) ∧
        ((get_offset_loop base text (off * base + digit_value c)).1 = 0 ∨
          (get_offset_loop base text (off * base + digit_value c)).1 = -1) ∧
        ((get_offset_loop base text (off * base + digit_value c)).1 = 0 →
          (get_offset_loop base text (off * base + digit_value c)).2
            = accum base text (off * base + digit_value c)) := by
      intro hv hle
      have := ih (off * base + digit_value c) hle
      refine ⟨⟨fun h => ⟨⟨hv, (this.1.mp h).1⟩, (this.1.mp h).2⟩,
        fun h => this.1.mpr ⟨h.1.2, h.2⟩⟩, this.2.1, this.2.2⟩
    have hfail := fun o hn => not_valid_digit_fail base c off text o hn hmono
    clear ih hmono
    simp only [get_offset_loop]
    have hbpos : 0 < base := by omega
    by_cases h1 : 48 ≤ c ∧ c ≤ 55
    · rw [if_pos h1]
      have hd : digit_value c = c - 48 := by
        unfold digit_value; rw [if_pos (by omega)]
      by_cases hc : off > (4294967295 - (c - 48)) / base
      · rw [if_pos hc]
        have hlt := (Nat.div_lt_iff_lt_mul hbpos).mp hc
        exact hfail off (fun h => by omega)
      · rw [if_neg hc]
        have hlt := mt (Nat.div_lt_iff_lt_mul hbpos).mpr hc
        have e : (off * base + (c - 48)) % 2 ^ 32 = off * base + digit_value c := by
          rw [hd]; apply Nat.mod_eq_of_lt; omega
        rw [e]
        exact hrec (Or.inl h1) (by omega)
    · rw [if_neg h1]
      by_cases h2 : 56 ≤ c ∧ c ≤ 57
      · rw [if_pos h2]
        have hd : digit_value c = c - 48 := by
          unfold digit_value; rw [if_pos (by omega)]
        by_cases hg : base < 10
        · rw [if_pos hg]
          exact hfail off (fun h => by have := h.1; unfold valid_digit at this; omega)
        · rw [if_neg hg]
          by_cases hc : off > (4294967295 - (c - 48)) / base
          · rw [if_pos hc]
            have hlt := (Nat.div_lt_iff_lt_mul hbpos).mp hc
            exact hfail off (fun h => by omega)
          · rw [if_neg hc]
            have hlt := mt (Nat.div_lt_iff_lt_mul hbpos).mpr hc
            have e : (off * base + (c - 48)) % 2 ^ 32 = off * base + digit_value c := by
              rw [hd]; apply Nat.mod_eq_of_lt; omega
            rw [e]
            exact hrec (Or.inr (Or.inl ⟨h2.1, h2.2, by omega⟩)) (by omega)
      · rw [if_neg h2]
        by_cases h3 : 65 ≤ c ∧ c ≤ 70
        · rw [if_pos h3]
          have hd : digit_value c = c - 65 + 10 := by
            unfold digit_value; rw [if_neg (by omega), if_pos (by omega)]; omega
          by_cases hg : base < 16
          · rw [if_pos hg]
            exact hfail off (fun h => by have := h.1; unfold valid_digit at this; omega)
          · rw [if_neg hg]
            by_cases hc : off > (4294967295 - (c - 65 + 10)) / base
            · rw [if_pos hc]
              have hlt := (Nat.div_lt_iff_lt_mul hbpos).mp hc
              exact hfail off (fun h => by omega)
            · rw [if_neg hc]
              have hlt := mt (Nat.div_lt_iff_lt_mul hbpos).mpr hc
              have e : (off * base + (c - 65 + 10)) % 2 ^ 32 = off * base + digit_value c := by
                rw [hd]; apply Nat.mod_eq_of_lt; omega
              rw [e]
              exact hrec (Or.inr (Or.inr ⟨Or.inl h3, by omega⟩)) (by omega)
        · rw [if_neg h3]
          by_cases h4 : 97 ≤ c ∧ c ≤ 102
          · rw [if_pos h4]
            have hd : digit_value c = c - 97 + 10 := by
              unfold digit_value; rw [if_neg (by omega), if_neg (by omega)]; omega
            by_cases hg : base < 16
            · rw [if_pos hg]
              exact hfail off (fun h => by have := h.1; unfold valid_digit at this; omega)
            · rw [if_neg hg]
              by_cases hc : off > (4294967295 - (c - 97 + 10)) / base
              · rw [if_pos hc]
                have hlt := (Nat.div_lt_iff_lt_mul hbpos).mp hc
                exact hfail off (fun h => by omega)
              · rw [if_neg hc]
                have hlt := mt (Nat.div_lt_iff_lt_mul hbpos).mpr hc
                have e : (off * base + (c - 97 + 10)) % 2 ^ 32 = off * base + digit_value c := by
                  rw [hd]; apply Nat.mod_eq_of_lt; omega
                rw [e]
                exact hrec (Or.inr (Or.inr ⟨Or.inr h4, by omega⟩)) (by omega)
          · rw [if_neg h4]
            exact hfail off (fun h => by have := h.1; unfold valid_digit at this; omega)

theorem get_offset_eq (text : List Nat) :
    get_offset text =
      if text.head? = some 45 then ((parse_body text.tail).1, 1, (parse_body text.tail).2)
      else ((parse_body text).1, 0, (parse_body text).2) := by
  unfold get_offset parse_body
  simp only []
  split_ifs <;> rfl

theorem valid_digit_8 (c : Nat) : valid_digit 8 c ↔ IsOctDigit c := by
  unfold valid_digit IsOctDigit
  constructor
  · intro h; omega
  · intro h; exact Or.inl h

theorem valid_digit_10 (c : Nat) : valid_digit 10 c ↔ IsDecDigit c := by
  unfold valid_digit IsDecDigit
  constructor
  · intro h; omega
  · intro h; omega

theorem valid_digit_16 (c : Nat) : valid_digit 16 c ↔ IsHexDigitAny c := by
  unfold valid_digit IsHexDigitAny
  constructor
  · intro h; omega
  · intro h; omega

theorem get_offset_loop_eq_iff (base : Nat) (hb : base = 8 ∨ base = 10 ∨ base = 16)
    (text : List Nat) (v : Nat) :
    get_offset_loop base text 0 = (0, v) ↔
      (∀ c ∈ text, valid_digit base c) ∧ v = numeral_value base text ∧ v ≤ 4294967295 := by
  have hs := get_offset_loop_spec base hb text 0 (by omega)
  have hacc : accum base text 0 = numeral_value base text := rfl
  rw [hacc] at hs
  constructor
  · intro h
    have h1 : (get_offset_loop base text 0).1 = 0 := by rw [h]
    have h2 := hs.2.2 h1
    rw [h] at h2
    simp only [] at h2
    have h3 := hs.1.mp h1
    exact ⟨h3.1, h2, by rw [h2]; exact h3.2⟩
  · rintro ⟨h1, h2, h3⟩
    have h4 : (get_offset_loop base text 0).1 = 0 := hs.1.mpr ⟨h1, by rw [← h2]; exact h3⟩
    have h5 := hs.2.2 h4
    exact Prod.ext h4 (by rw [h5, h2])

theorem get_offset_loop_values (base : Nat) (hb : base = 8 ∨ base = 10 ∨ base = 16)
    (text : List Nat) :
    (get_offset_loop base text 0).1 = 0 ∨ (get_offset_loop base text 0).1 = -1 :=
  (get_offset_loop_spec base hb text 0 (by omega)).2.1

theorem isNumeral_nil (v : Nat) : ¬ IsNumeral [] v := by
  rintro (⟨h, -⟩ | ⟨h, -⟩ | ⟨ds, h, -⟩ | ⟨x, ds, h, -⟩)
  · cases h
  · exact h rfl
  · cases h
  · cases h

theorem isNumeral_zero (v : Nat) : IsNumeral [48] v ↔ v = 0 := by
  constructor
  · rintro (⟨-, h⟩ | ⟨-, h, -⟩ | ⟨ds, h, hne, -⟩ | ⟨x, ds, h, -⟩)
    · exact h
    · exact absurd rfl h
    · simp only [List.cons.injEq, true_and] at h
      exact absurd h.symm hne
    · simp at h
  · intro h
    exact Or.inl ⟨rfl, h⟩

theorem isNumeral_hex (x : Nat) (ds : List Nat) (v : Nat) (hx : x = 120 ∨ x = 88) :
    IsNumeral (48 :: x :: ds) v ↔
      ds ≠ [] ∧ (∀ c ∈ ds, IsHexDigitAny c) ∧ v = numeral_value 16 ds := by
  constructor
  · rintro (⟨h, -⟩ | ⟨-, h, -⟩ | ⟨ds', h, -, hall, -⟩ | ⟨x', ds', h, -, hne, hall, hv⟩)
    · simp at h
    · exact absurd rfl h
    · simp only [List.cons.injEq, true_and] at h
      subst h
      have := hall x (List.mem_cons_self _ _)
      unfold IsOctDigit at this
      omega
    · simp only [List.cons.injEq, true_and] at h
      obtain ⟨-, rfl⟩ := h
      exact ⟨hne, hall, hv⟩
  · rintro ⟨hne, hall, hv⟩
    exact Or.inr (Or.inr (Or.inr ⟨x, ds, rfl, hx, hne, hall, hv⟩))

theorem isNumeral_oct (x : Nat) (ds : List Nat) (v : Nat) (hx : ¬ (x = 120 ∨ x = 88)) :
    IsNumeral (48 :: x :: ds) v ↔
      (∀ c ∈ x :: ds, IsOctDigit c) ∧ v = numeral_value 8 (x :: ds) := by
  constructor
  · rintro (⟨h, -⟩ | ⟨-, h, -⟩ | ⟨ds', h, -, hall, hv⟩ | ⟨x', ds', h, hx', -⟩)
    · simp at h
    · exact absurd rfl h
    · simp only [List.cons.injEq, true_and] at h
      subst h
      exact ⟨hall, hv⟩
    · simp only [List.cons.injEq, true_and] at h
      obtain ⟨rfl, -⟩ := h
      exact absurd hx' hx
  · rintro ⟨hall, hv⟩
    exact Or.inr (Or.inr (Or.inl ⟨x :: ds, rfl, List.cons_ne_nil _ _, hall, hv⟩))

theorem isNumeral_dec (c : Nat) (rest : List Nat) (v : Nat) (hc : c ≠ 48) :
    IsNumeral (c :: rest) v ↔
      (∀ d ∈ c :: rest, IsDecDigit d) ∧ v = numeral_value 10 (c :: rest) := by
  constructor
  · rintro (⟨h, -⟩ | ⟨-, -, hall, hv⟩ | ⟨ds', h, -⟩ | ⟨x', ds', h, -⟩)
    · simp only [List.cons.injEq] at h
      exact absurd h.1 hc
    · exact ⟨hall, hv⟩
    · simp only [List.cons.injEq] at h
      exact absurd h.1 hc
    · simp only [List.cons.injEq] at h
      exact absurd h.1 hc
  · rintro ⟨hall, hv⟩
    refine Or.inr (Or.inl ⟨List.cons_ne_nil _ _, ?_, hall, hv⟩)
    simp only [List.head?_cons, ne_eq, Option.some.injEq]
    exact hc

/-- What the part of `get_offset` after the sign returns. -/
theorem parse_body_spec (body : List Nat) :
    ((parse_body body).1 = 0 ∨ (parse_body body).1 = -1) ∧
    (∀ v, parse_body body = (0, v) ↔ IsNumeral body v ∧ v ≤ 4294967295) := by
  rcases body with _ | ⟨c, rest⟩
  · have e : parse_body [] = (-1, 0) := rfl
    rw [e]
    refine ⟨Or.inr rfl, fun v => ⟨fun h => by simp at h, fun h => absurd h.1 (isNumeral_nil v)⟩⟩
  · by_cases hc : c = 48
    · subst hc
      rcases rest with _ | ⟨x, ds⟩
      · have e : parse_body [48] = (0, 0) := rfl
        rw [e]
        refine ⟨Or.inl rfl, fun v => ?_⟩
        rw [isNumeral_zero]
        constructor
        · intro h
          have : v = 0 := by simpa using h.symm
          exact ⟨this, by omega⟩
        · rintro ⟨h, -⟩
          rw [h]
      · by_cases hx : x = 120 ∨ x = 88
        · rcases ds with _ | ⟨d, ds⟩
          · have e : parse_body [48, x] = (-1, 0) := by
              unfold parse_body
              simp [hx]
            rw [e]
            refine ⟨Or.inr rfl, fun v => ⟨fun h => by simp at h, fun h => ?_⟩⟩
            exact absurd rfl ((isNumeral_hex x [] v hx).mp h.1).1
          · have e : parse_body (48 :: x :: d :: ds) = get_offset_loop 16 (d :: ds) 0 := by
              unfold parse_body
              simp [hx]
            rw [e]
            refine ⟨get_offset_loop_values 16 (by omega) _, fun v => ?_⟩
            rw [get_offset_loop_eq_iff 16 (by omega), isNumeral_hex x (d :: ds) v hx]
            simp only [valid_digit_16]
            constructor
            · rintro ⟨h1, h2, h3⟩
              exact ⟨⟨List.cons_ne_nil _ _, h1, h2⟩, h3⟩
            · rintro ⟨⟨-, h1, h2⟩, h3⟩
              exact ⟨h1, h2, h3⟩
        · have e : parse_body (48 :: x :: ds) = get_offset_loop 8 (x :: ds) 0 := by
            unfold parse_body
            simp [hx]
          rw [e]
          refine ⟨get_offset_loop_values 8 (by omega) _, fun v => ?_⟩
          rw [get_offset_loop_eq_iff 8 (by omega), isNumeral_oct x ds v hx]
          simp only [valid_digit_8]
          constructor
          · rintro ⟨h1, h2, h3⟩
            exact ⟨⟨h1, h2⟩, h3⟩
          · rintro ⟨⟨h1, h2⟩, h3⟩
            exact ⟨h1, h2, h3⟩
    · have e : parse_body (c :: rest) = get_offset_loop 10 (c :: rest) 0 := by
        unfold parse_body
        simp [hc]
      rw [e]
      refine ⟨get_offset_loop_values 10 (by omega) _, fun v => ?_⟩
      rw [get_offset_loop_eq_iff 10 (by omega), isNumeral_dec c rest v hc]
      simp only [valid_digit_10]
      constructor
      · rintro ⟨h1, h2, h3⟩
        exact ⟨⟨h1, h2⟩, h3⟩
      · rintro ⟨⟨h1, h2⟩, h3⟩
        exact ⟨h1, h2, h3⟩

theorem isNumeral_minus (body : List Nat) (v : Nat) : ¬ IsNumeral (45 :: body) v := by
  rintro (⟨h, -⟩ | ⟨-, -, hall, -⟩ | ⟨ds, h, -⟩ | ⟨x, ds, h, -⟩)
  · simp at h
  · have := hall 45 (List.mem_cons_self _ _)
    unfold IsDecDigit at this
    omega
  · simp at h
  · simp at h

theorem get_offset_iff (text : List Nat) (sign : Int) (value : Nat) :
    get_offset text = (0, sign, value) ↔ IsOffsetText text sign value := by
  rw [get_offset_eq]
  unfold IsOffsetText
  rcases text with _ | ⟨c, rest⟩
  · rw [if_neg (by simp)]
    constructor
    · intro h
      have h1 : (parse_body []).1 = 0 := congrArg Prod.fst h
      exact absurd h1 (by decide)
    · rintro ⟨(⟨h1, h2⟩ | ⟨-, body, h, -⟩), -⟩
      · exact absurd h2 (isNumeral_nil value)
      · cases h
  · by_cases hc : c = 45
    · subst hc
      have hp := (parse_body_spec rest).2 value
      simp only [List.head?_cons, if_true, List.tail_cons, Prod.mk.injEq]
      constructor
      · rintro ⟨h1, h2, h3⟩
        have : parse_body rest = (0, value) := Prod.ext h1 h3
        have := hp.mp this
        exact ⟨Or.inr ⟨h2.symm, rest, rfl, this.1⟩, this.2⟩
      · rintro ⟨(⟨-, h2⟩ | ⟨h1, body, h, h2⟩), h3⟩
        · exact absurd h2 (isNumeral_minus rest value)
        · simp only [List.cons.injEq, true_and] at h
          subst h
          have := hp.mpr ⟨h2, h3⟩
          rw [this]
          exact ⟨rfl, h1.symm, rfl⟩
    · have hp := (parse_body_spec (c :: rest)).2 value
      have hh : ¬ ((c :: rest).head? = some 45) := by
        simp only [List.head?_cons, Option.some.injEq]
        exact hc
      rw [if_neg hh]
      simp only [Prod.mk.injEq]
      constructor
      · rintro ⟨h1, h2, h3⟩
        have : parse_body (c :: rest) = (0, value) := Prod.ext h1 h3
        have := hp.mp this
        exact ⟨Or.inl ⟨h2.symm, this.1⟩, this.2⟩
      · rintro ⟨(⟨h1, h2⟩ | ⟨-, body, h, -⟩), h3⟩
        · have := hp.mpr ⟨h2, h3⟩
          rw [this]
          exact ⟨rfl, h1.symm, rfl⟩
        · simp only [List.cons.injEq] at h
          exact absurd h.1 hc

theorem get_offset_values (text : List Nat) :
    (get_offset text).1 = 0 ∨ (get_offset text).1 = -1 := by
  rw [get_offset_eq]
  split
  · exact (parse_body_spec _).1
  · exact (parse_body_spec _).1

theorem hexstr_hexnum : ∀ (cs : List Nat), (∀ c ∈ cs, IsHex c) →
    hexstr cs.length (hexnum cs) = cs := by
  intro cs
  induction cs using List.reverseRecOn with
  | nil => intro _; rfl
  | append_singleton cs d ih =>
    intro h
    have h1 := ih (fun c hc => h c (List.mem_append_left _ hc))
    have hd : IsHex d := h d (by simp)
    have h2 := hexval_lt d hd
    rw [hexnum_append_singleton, List.length_append, List.length_singleton]
    simp only [hexstr]
    have e1 : (hexnum cs * 16 + hexval d) / 16 = hexnum cs := by omega
    have e2 : (hexnum cs * 16 + hexval d) % 16 = hexval d := by omega
    rw [e1, e2, h1, hexdigit_hexval d hd]

/-- When `srec_addr_change` succeeds there was room for the widening, and the array keeps
its length. -/
theorem change_success_room {line : List Nat} {c1 h1 h2 : Nat} {A D K term g : List Nat}
    (hL : Layout line c1 h1 h2 A D K term g) (size addr : Nat)
    (hs : strlen line < size) (hb : size ≤ line.length)
    (hr : (srec_addr_change line size addr).1 = 0) :
    strlen line + 2 * (4 - addr_len_of c1) < size ∧ 2 * (4 - addr_len_of c1) ≤ g.length ∧
    line.length = strlen line + 1 + g.length := by
  have hcl := change_layout hL size addr hs hb
  have hsl := layout_strlen hL
  have hll : line.length = strlen line + 1 + g.length := by
    rw [hsl]
    conv_lhs => rw [hL.1]
    simp only [List.length_cons, List.length_append, hL.2.2.2.2.2.1]
    omega
  by_cases hc : 0 < 4 - addr_len_of c1 ∧
      ((size + 2 ^ 64 - (strlen line + 1)) % 2 ^ 64 < 2 * (4 - addr_len_of c1)
        ∨ 16 * hexval h1 + hexval h2 + (4 - addr_len_of c1) > 255)
  · rw [hcl, if_pos hc] at hr
    simp at hr
  · have hmod : (size + 2 ^ 64 - (strlen line + 1)) % 2 ^ 64 ≤ size - (strlen line + 1) := by
      have : size + 2 ^ 64 - (strlen line + 1) = (size - (strlen line + 1)) + 2 ^ 64 := by omega
      rw [this, Nat.add_mod_right]
      exact Nat.mod_le _ _
    by_cases he : 0 < 4 - addr_len_of c1
    · have h1 : ¬ (size + 2 ^ 64 - (strlen line + 1)) % 2 ^ 64 < 2 * (4 - addr_len_of c1) :=
        fun h => hc ⟨he, Or.inl h⟩
      exact ⟨by omega, by omega, hll⟩
    · exact ⟨by omega, by omega, hll⟩

theorem new_type_idem (c : Nat) : new_type (new_type c) = new_type c := by
  unfold new_type
  split
  · rfl
  · split
    · rfl
    · rfl

/-- A second call of `srec_addr_change` on the buffer left by a successful first call
gives what a single call with the second address gives. -/
theorem change_override (line : List Nat) (size a b : Nat)
    (hv : srec_check line = 0) (ht : IsAddrType (rd line 1))
    (hs : strlen line < size) (hb : size ≤ line.length)
    (hr : (srec_addr_change line size a).1 = 0) :
    srec_addr_change (srec_addr_change line size a).2 size b = srec_addr_change line size b ∧
    (srec_addr_change line size b).1 = 0 := by
  obtain ⟨c1, h1, h2, A, D, K, term, g, hL⟩ := valid_layout hv (by omega)
  rw [layout_rd1 hL] at ht
  obtain ⟨hn', hout, hLo'⟩ := change_out_layout hL size a hs hb hr
  have hLo := hLo' ht
  obtain ⟨hroom, hg, hll⟩ := change_success_room hL size a hs hb hr
  have h6 := new_type_six ht
  have hsl := layout_strlen hL
  have hslo := layout_strlen hLo
  have hA := hL.2.2.2.2.1
  have hK := hL.2.2.2.2.2.1
  have hw := addr_len_of_le c1
  rw [hexstr_length] at hslo
  have hlo : (srec_addr_change line size a).2.length = line.length := by
    rw [hout]
    conv_rhs => rw [hL.1]
    simp only [List.length_cons, List.length_append, hexstr_length, List.length_drop, hK]
    omega
  have hcl1 := change_layout hLo size b (by omega) (by omega)
  have hcl := change_layout hL size b hs hb
  have hcla := change_layout hL size a hs hb
  have hcond : ¬ (0 < 4 - addr_len_of c1 ∧
      ((size + 2 ^ 64 - (strlen line + 1)) % 2 ^ 64 < 2 * (4 - addr_len_of c1)
        ∨ 16 * hexval h1 + hexval h2 + (4 - addr_len_of c1) > 255)) := by
    intro hc
    rw [hcla, if_pos hc] at hr
    simp at hr
  rw [if_neg hcond] at hcl
  rw [h6.2, if_neg (by omega), count_digits _ hn', new_type_idem] at hcl1
  simp only [Nat.sub_self, Nat.add_zero, Nat.mul_zero, List.drop_zero] at hcl1
  rw [hcl1, hcl]
  exact ⟨rfl, rfl⟩

/-- Rewriting a valid S3 or S7 record to the address it already has leaves the buffer as
it is. -/
theorem change_same_address (line : List Nat) (size : Nat)
    (hv : srec_check line = 0) (ht : rd line 1 = 51 ∨ rd line 1 = 55)
    (hs : strlen line < size) (hb : size ≤ line.length) :
    srec_addr_change line size (hexnum ((line.drop 4).take 8)) = (0, line) := by
  obtain ⟨c1, h1, h2, A, D, K, term, g, hL⟩ := valid_layout hv (by omega)
  rw [layout_rd1 hL] at ht
  have hw : addr_len_of c1 = 4 := by rcases ht with rfl | rfl <;> decide
  have hnt : new_type c1 = c1 := by rcases ht with rfl | rfl <;> decide
  obtain ⟨hline, hc1, hh1, hh2, hA, hK, hn, hAh, hDh, hKh, hsum, htm⟩ := hL
  have hA8 : A.length = 8 := by omega
  have haf := layout_addr_field
    (show Layout line c1 h1 h2 A D K term g from
      ⟨hline, hc1, hh1, hh2, hA, hK, hn, hAh, hDh, hKh, hsum, htm⟩)
  rw [hA8] at haf
  have hcl := change_layout
    (show Layout line c1 h1 h2 A D K term g from
      ⟨hline, hc1, hh1, hh2, hA, hK, hn, hAh, hDh, hKh, hsum, htm⟩)
    size (hexnum A) hs hb
  rw [hw, if_neg (by omega)] at hcl
  simp only [Nat.sub_self, Nat.add_zero, Nat.mul_zero, List.drop_zero] at hcl
  have hAA : hexstr 8 (hexnum A) = A := by
    have := hexstr_hexnum A hAh
    rw [hA8] at this
    exact this
  obtain ⟨k1, k2, rfl⟩ : ∃ k1 k2, K = [k1, k2] := by
    match K, hK with
    | [k1, k2], _ => exact ⟨k1, k2, rfl⟩
  have hk1 : IsHex k1 := hKh k1 (by simp)
  have hk2 : IsHex k2 := hKh k2 (by simp)
  have hv1 := hexval_lt k1 hk1
  have hv2 := hexval_lt k2 hk2
  have hsplit : byteSum (A ++ (D ++ [k1, k2])) = byteSum (A ++ D) + byteSum [k1, k2] := by
    rw [← List.append_assoc]
    exact byteSum_append _ _ (by rw [List.length_append]; omega)
  have hbk : byteSum [k1, k2] = 16 * hexval k1 + hexval k2 := rfl
  rw [hsplit, hbk] at hsum
  have hck : 255 - (16 * hexval h1 + hexval h2 + byteSum (A ++ D)) % 256
      = 16 * hexval k1 + hexval k2 := by omega
  rw [haf, hcl, hnt, hAA, hck, hexstr_two_of_hex h1 h2 hh1 hh2, hexstr_two_of_hex k1 k2 hk1 hk2,
    hline]
  rfl

theorem cstr_append_nul_any : ∀ (a b : List Nat), cstr (a ++ 0 :: b) = cstr a
  | [], b => by simp [cstr]
  | c :: a, b => by
    by_cases h : c = 0
    · simp [cstr, h]
    · simp [cstr, h, cstr_append_nul_any a b]

theorem cstr_eq_self_iff (l : List Nat) : cstr l = l ↔ 0 ∉ l :=
  ⟨fun h => h ▸ cstr_nul_free l, cstr_self⟩

/-- What a successful run of the loop of `get_line` has read and stored. -/
theorem get_line_loop_spec (ferr : Bool) : ∀ (d : Nat) (pre post input out : List Nat)
    (k : Nat) (rest : List Nat), d < post.length →
    get_line_loop ferr d (pre ++ post) pre.length input = some (out, k, rest) →
    ∃ cs, input = cs ++ rest ∧ k = pre.length + cs.length ∧ cs.length ≤ d ∧
      out = pre ++ (cs ++ 0 :: post.drop (cs.length + 1)) ∧ IsLineOf cs rest
  | 0, _, _, _, _, _, _, _, h => by simp [get_line_loop] at h
  | d + 1, pre, post, [], out, k, rest, hd, h => by
    obtain _ | ⟨x, post⟩ := post
    · simp at hd
    cases ferr
    · simp only [get_line_loop, Bool.false_eq_true, if_false, Option.some.injEq,
        Prod.mk.injEq] at h
      obtain ⟨rfl, rfl, rfl⟩ := h
      refine ⟨[], rfl, rfl, by simp, ?_, Or.inr ⟨by simp, rfl⟩⟩
      simp
    · simp [get_line_loop] at h
  | d + 1, pre, post, c :: input, out, k, rest, hd, h => by
    obtain _ | ⟨x, post⟩ := post
    · simp at hd
    have hset : (pre ++ x :: post).set pre.length c = (pre ++ [c]) ++ post := by simp
    by_cases hc : c = 10
    · obtain _ | ⟨y, post⟩ := post
      · simp at hd
      simp only [get_line_loop, hc, if_true, Option.some.injEq, Prod.mk.injEq] at h
      obtain ⟨rfl, rfl, rfl⟩ := h
      refine ⟨[10], by simp [hc], rfl, by simp, ?_, Or.inl ⟨[], rfl, by simp⟩⟩
      have e : (pre ++ x :: y :: post).set pre.length 10 = (pre ++ [10]) ++ y :: post := by simp
      rw [e]
      have e2 : ((pre ++ [10]) ++ y :: post).set (pre.length + 1) 0
          = (pre ++ [10]) ++ 0 :: post := by
        rw [List.set_append_right _ _ (by simp)]
        simp
      rw [e2]
      simp
    · simp only [get_line_loop, hc, if_false] at h
      rw [hset] at h
      have hlen : pre.length + 1 = (pre ++ [c]).length := by simp
      rw [hlen] at h
      obtain ⟨cs, h1, h2, h3, h4, h5⟩ := get_line_loop_spec ferr d (pre ++ [c]) post input out k
        rest (by simpa using hd) h
      refine ⟨c :: cs, by rw [h1]; rfl, by rw [h2]; simp; omega, by simp; omega, ?_, ?_⟩
      · rw [h4]; simp
      · rcases h5 with ⟨body, hb, hn⟩ | ⟨hn, hr⟩
        · exact Or.inl ⟨c :: body, by rw [hb]; rfl, by simp [hn, Ne.symm hc]⟩
        · exact Or.inr ⟨by simp [hn, Ne.symm hc], hr⟩

/-- A successful `get_line` has read a line of the stream into the start of the array and
put a NUL after it; the rest of the array is as before. -/
theorem get_line_spec (old : List Nat) (size : Nat) (input : List Nat) (ferr : Bool)
    (line : List Nat) (n : Nat) (rest : List Nat) (h0 : 0 < size) (hb : size ≤ old.length)
    (h : get_line old size input ferr = some (line, n, rest)) :
    input = input.take n ++ rest ∧ n < size ∧
      line = input.take n ++ 0 :: old.drop (n + 1) ∧ IsLineOf (input.take n) rest := by
  unfold get_line u64_dec at h
  rw [if_neg (by omega)] at h
  obtain ⟨cs, h1, h2, h3, h4, h5⟩ := get_line_loop_spec ferr (size - 1) [] old input line n rest
    (by omega) h
  have hn : n = cs.length := by simpa using h2
  have ht : input.take n = cs := by rw [h1, hn]; exact List.take_left' rfl
  rw [ht]
  refine ⟨h1, by omega, ?_, h5⟩
  rw [h4, hn]
  simp

theorem get_line_loop_line (ferr : Bool) : ∀ (body : List Nat) (d : Nat) (pre post rest : List Nat),
    10 ∉ body → body.length + 1 < post.length → body.length < d →
    get_line_loop ferr d (pre ++ post) pre.length (body ++ 10 :: rest)
      = some (pre ++ (body ++ 10 :: 0 :: post.drop (body.length + 2)),
          pre.length + body.length + 1, rest)
  | [], d, pre, post, rest, _, hp, hd => by
    obtain _ | d := d
    · simp at hd
    obtain _ | ⟨x, _ | ⟨y, post⟩⟩ := post
    · simp at hp
    · simp at hp
    simp only [List.nil_append, get_line_loop, if_true, List.length_nil, Nat.add_zero]
    have e : (pre ++ x :: y :: post).set pre.length 10 = (pre ++ [10]) ++ y :: post := by simp
    rw [e, List.set_append_right _ _ (by simp)]
    simp
  | c :: body, d, pre, post, rest, hn, hp, hd => by
    obtain _ | d := d
    · simp at hd
    obtain _ | ⟨x, post⟩ := post
    · simp at hp
    have hc : c ≠ 10 := fun h => hn (by simp [h])
    have hset : (pre ++ x :: post).set pre.length c = (pre ++ [c]) ++ post := by simp
    have hlen : pre.length + 1 = (pre ++ [c]).length := by simp
    have ih := get_line_loop_line ferr body d (pre ++ [c]) post rest
      (fun h => hn (List.mem_cons_of_mem _ h)) (by simpa using hp) (by simpa using hd)
    have hstep : get_line_loop ferr (d + 1) (pre ++ x :: post) pre.length
        ((c :: body) ++ 10 :: rest)
        = get_line_loop ferr d ((pre ++ x :: post).set pre.length c) (pre.length + 1)
          (body ++ 10 :: rest) := by
      show get_line_loop ferr (d + 1) (pre ++ x :: post) pre.length
        (c :: (body ++ 10 :: rest)) = _
      simp only [get_line_loop, hc, if_false]
    rw [hstep, hset, hlen, ih]
    simp
    omega

/-- The call `get_line` returns 0 on a line that ends in LF and fits the array. -/
theorem get_line_returns (old : List Nat) (size : Nat) (body rest : List Nat) (ferr : Bool)
    (hn : 10 ∉ body) (hs : body.length + 1 < size) (hb : size ≤ old.length) :
    get_line old size (body ++ 10 :: rest) ferr
      = some (body ++ 10 :: 0 :: old.drop (body.length + 2), body.length + 1, rest) := by
  unfold get_line u64_dec
  rw [if_neg (by omega)]
  have := get_line_loop_line ferr body (size - 1) [] old rest hn (by omega) (by omega)
  simpa using this

theorem process_line_zero (sign : Int) (line : List Nat) :
    process_line sign 0 line = Outcome.emit (decide (srec_check line ≠ 0)) (cstr line) := by
  unfold process_line
  by_cases hv : srec_check line ≠ 0
  · rw [if_pos hv, decide_eq_true hv]
  · rw [if_neg hv, if_neg (fun h => h.2 rfl), decide_eq_false hv]

theorem process_line_invalid (sign : Int) (offset : Nat) (line : List Nat)
    (h : srec_check line = -1) :
    process_line sign offset line = Outcome.emit true (cstr line) := by
  unfold process_line
  rw [if_pos (by rw [h]; decide)]

theorem emit_eq_iff (w : Bool) (text : List Nat) :
    Outcome.emit w (cstr text) = Outcome.emit w text ↔ 0 ∉ text := by
  rw [← cstr_eq_self_iff]
  constructor
  · intro h
    injection h
  · intro h
    rw [h]

/-- What `main` holds after a successful `get_line`: the characters read form a line of
the stream, and the text of the array is that line up to its first NUL. -/
theorem get_line_cstr (LINE_MAX : Nat) (old input : List Nat) (ferr : Bool)
    (line : List Nat) (n : Nat) (rest : List Nat) (hlen : old.length = LINE_MAX + 1)
    (hg : get_line old (LINE_MAX + 1) input ferr = some (line, n, rest)) :
    input = input.take n ++ rest ∧ IsLineOf (input.take n) rest ∧
      cstr line = cstr (input.take n) := by
  obtain ⟨h1, -, h3, h4⟩ := get_line_spec old (LINE_MAX + 1) input ferr line n rest (by omega)
    (by omega) hg
  refine ⟨h1, h4, ?_⟩
  rw [h3, cstr_append_nul_any]

/-- Reading one line into a zeroed array that has room for it. -/
theorem get_line_replicate (size : Nat) (body rest : List Nat) (ferr : Bool)
    (hn : 10 ∉ body) (hs : body.length + 1 < size) :
    get_line (List.replicate size 0) size (body ++ 10 :: rest) ferr
      = some (body ++ 10 :: List.replicate (size - (body.length + 1)) 0,
          body.length + 1, rest) := by
  rw [get_line_returns _ _ _ _ _ hn hs (by rw [List.length_replicate]), List.drop_replicate]
  have e : size - (body.length + 1) = (size - (body.length + 2)) + 1 := by omega
  rw [e, List.replicate_succ]

/-! ## The claims -/

/-- C1: `srec_check` accepts exactly the well-formed records. For every buffer, with
`cstr line` the (NUL-free) text it holds, `srec_check` returns 0 if and only if the text is
`S`, a type digit, two hex characters encoding `n`, `2 * n` further hex characters and one
of the four terminators, with `n >= srec_addr_len[t] + 1` and checksum total `0xFF`
(`IsSRecord`); in every other case it returns -1. A NUL-free list is its own text. -/
theorem srec_check_accepts_exactly_records (line : List Nat) :
    (srec_check line = 0 ↔ IsSRecord (cstr line)) ∧
    (¬ IsSRecord (cstr line) → srec_check line = -1) ∧
    (0 ∉ line → cstr line = line) := by
  refine ⟨srec_check_iff line, fun h => ?_, cstr_self⟩
  rcases srec_check_values line with h0 | h1
  · exact absurd ((srec_check_iff line).mp h0) h
  · exact h1

theorem srec_check_accepts_exactly_records_witness :
    srec_check (buffer "S9030000FC\r\n" 32) = 0 ∧
    IsSRecord (cstr (buffer "S9030000FC\r\n" 32)) :=
  ⟨by decide,
    (srec_check_accepts_exactly_records (buffer "S9030000FC\r\n" 32)).1.mp (by decide)⟩

/-- C2: re-validation. For a buffer of at least `size` bytes that holds a line accepted
by `srec_check` of type S1, S2, S3, S7, S8 or S9, and every `addr`, if `srec_addr_change`
returns 0 then `srec_check` returns 0 on the buffer it leaves. -/
theorem srec_addr_change_revalidates (line : List Nat) (size addr : Nat)
    (hv : srec_check line = 0) (ht : IsAddrType (rd line 1))
    (hs : strlen line < size) (hb : size ≤ line.length)
    (hr : (srec_addr_change line size addr).1 = 0) :
    srec_check (srec_addr_change line size addr).2 = 0 := by
  obtain ⟨c1, h1, h2, A, D, K, term, g, hL⟩ := valid_layout hv (by omega)
  have hc1 : rd line 1 = c1 := by rw [hL.1]; rfl
  rw [hc1] at ht
  exact layout_check ((change_out_layout hL size addr hs hb hr).2.2 ht)

theorem srec_addr_change_revalidates_witness :
    srec_check (buffer "S1030000FC" 32) = 0 ∧ IsAddrType (rd (buffer "S1030000FC" 32) 1) ∧
    strlen (buffer "S1030000FC" 32) < 32 ∧ 32 ≤ (buffer "S1030000FC" 32).length ∧
    (srec_addr_change (buffer "S1030000FC" 32) 32 74565).1 = 0 ∧
    srec_check (srec_addr_change (buffer "S1030000FC" 32) 32 74565).2 = 0 :=
  ⟨by decide, by decide, by decide, by decide, by decide,
    srec_addr_change_revalidates (buffer "S1030000FC" 32) 32 74565 (by decide) (by decide)
      (by decide) (by decide) (by decide)⟩

/-- C3 (as stated, refuted): the line S1130000AABBCCDDEEFF00112233445566CA with offset
0x10000 is not turned into an S3 record: `srec_check` returns -1, `main` prints the warning
and writes the line unchanged, its type character still `1`. -/
theorem spec_example_not_upgraded :
    srec_check (buffer "S1130000AABBCCDDEEFF00112233445566CA" 2049) = -1 ∧
    process_line 0 65536 (buffer "S1130000AABBCCDDEEFF00112233445566CA" 2049)
      = Outcome.emit true (bytes "S1130000AABBCCDDEEFF00112233445566CA") ∧
    rd (bytes "S1130000AABBCCDDEEFF00112233445566CA") 1 = 49 := by
  decide

/-- C3 (amended): for every array that holds the line S1130000AABBCCDDEEFF00112233445566CA
(byte count 0x13, but only 16 bytes follow it) the per-line transformation of `main` with
offset 0x10000 prints the warning and writes the line unchanged; for every array that holds
the well-formed record with the same address and data,
S1100000AABBCCDDEEFF001122334455668F, and has room for four more characters, it writes the
S3 record S31200010000AABBCCDDEEFF001122334455668C: address field 00010000, byte count
0x12 and checksum 0x8C recomputed. -/
theorem spec_example_amended (bad good : List Nat)
    (hb : cstr bad = bytes "S1130000AABBCCDDEEFF00112233445566CA")
    (hg : cstr good = bytes "S1100000AABBCCDDEEFF001122334455668F")
    (hroom : 41 ≤ good.length) (h64 : good.length < 2 ^ 64) :
    process_line 0 65536 bad
      = Outcome.emit true (bytes "S1130000AABBCCDDEEFF00112233445566CA") ∧
    process_line 0 65536 good
      = Outcome.emit false (bytes "S31200010000AABBCCDDEEFF001122334455668C") := by
  constructor
  · have hv : srec_check bad = -1 := by
      rw [← srec_check_cstr, hb]
      decide
    unfold process_line
    rw [if_pos (by rw [hv]; decide), hb]
  · have hv : srec_check good = 0 := by
      rw [← srec_check_cstr, hg]
      decide
    have hsl : strlen good = 36 := by
      rw [strlen_eq_length_cstr, hg]
      decide
    obtain ⟨g, hsplit⟩ := buf_split_nul good (by omega)
    rw [hg] at hsplit
    have hL : Layout good 49 49 48 (bytes "0000") (bytes "AABBCCDDEEFF00112233445566")
        (bytes "8F") [] g := by
      refine ⟨by rw [hsplit]; rfl, by decide, by decide, by decide, by decide, by decide,
        by decide, by decide, by decide, by decide, by decide, by decide⟩
    have hr1 : rd good 1 = 49 := by rw [hL.1]; rfl
    have hgl : 4 ≤ g.length := by
      have := congrArg List.length hsplit
      rw [List.length_append, List.length_cons] at this
      have hbl : (bytes "S1100000AABBCCDDEEFF001122334455668F").length = 36 := by decide
      omega
    have hrange := process_line_range 0 65536 good hv (by rw [hr1]; decide) (by decide)
      (by decide)
    rw [addr_decode hv, hr1, hg] at hrange
    have ha : hexnum (((bytes "S1100000AABBCCDDEEFF001122334455668F").drop 4).take
        (addr_len_of 49 * 2)) = 0 := by decide
    rw [ha] at hrange
    simp only [ne_eq, not_true_eq_false, if_false, Nat.zero_add] at hrange
    rw [if_neg (by decide)] at hrange
    rw [hrange, convert_layout hL 65536 h64]
    have hw : 4 - addr_len_of 49 = 2 := by decide
    have hn : 16 * hexval 49 + hexval 48 = 16 := by decide
    rw [if_neg (by rw [hw, hn]; omega)]
    decide

theorem spec_example_amended_witness :
    cstr (buffer "S1130000AABBCCDDEEFF00112233445566CA" 2049)
      = bytes "S1130000AABBCCDDEEFF00112233445566CA" ∧
    cstr (buffer "S1100000AABBCCDDEEFF001122334455668F" 64)
      = bytes "S1100000AABBCCDDEEFF001122334455668F" ∧
    41 ≤ (buffer "S1100000AABBCCDDEEFF001122334455668F" 64).length ∧
    (buffer "S1100000AABBCCDDEEFF001122334455668F" 64).length < 2 ^ 64 ∧
    process_line 0 65536 (buffer "S1130000AABBCCDDEEFF00112233445566CA" 2049)
      = Outcome.emit true (bytes "S1130000AABBCCDDEEFF00112233445566CA") ∧
    process_line 0 65536 (buffer "S1100000AABBCCDDEEFF001122334455668F" 64)
      = Outcome.emit false (bytes "S31200010000AABBCCDDEEFF001122334455668C") :=
  ⟨by decide, by decide, by decide, by decide,
    spec_example_amended (buffer "S1130000AABBCCDDEEFF00112233445566CA" 2049)
      (buffer "S1100000AABBCCDDEEFF001122334455668F" 64) (by decide) (by decide) (by decide)
      (by decide)⟩

/-- C4 (as stated, refuted): the line S9030000FC, NUL, ABC, LF is read whole into the
array by `get_line` (15 characters), and with offset 0 only the ten characters before the
NUL are written: the line is not emitted unchanged. -/
theorem zero_offset_truncates_at_nul :
    get_line (List.replicate 2049 0) 2049 (bytes "S9030000FC" ++ 0 :: bytes "ABC\n") false
      = some ((bytes "S9030000FC" ++ 0 :: bytes "ABC\n") ++ List.replicate 2034 0, 15, []) ∧
    process_line 0 0 ((bytes "S9030000FC" ++ 0 :: bytes "ABC\n") ++ List.replicate 2034 0)
      = Outcome.emit false (bytes "S9030000FC") ∧
    bytes "S9030000FC" ≠ bytes "S9030000FC" ++ 0 :: bytes "ABC\n" := by
  have hg : get_line (List.replicate 2049 0) 2049
      (bytes "S9030000FC" ++ 0 :: bytes "ABC\n") false
      = some ((bytes "S9030000FC" ++ 0 :: bytes "ABC\n") ++ List.replicate 2034 0, 15, []) :=
    get_line_replicate 2049 (bytes "S9030000FC" ++ 0 :: bytes "ABC") [] false (by decide)
      (by decide)
  exact ⟨hg, by decide, by decide⟩

/-- C4 (amended): zero offset is the identity on every line without a NUL. For every line
that `get_line` reads from the stream into the array of `LINE_MAX + 1` bytes (a valid
record or not, of any type) and either sign, the per-line transformation of `main` with
offset 0 never ends the run and writes the characters of the line before its first NUL:
the line is written character for character unchanged exactly when it holds no NUL.
`get_offset` stores offset 0 for both "0" (sign 0) and "-0" (sign 1), and S9030000FC is
emitted identically whatever follows its NUL in the array. -/
theorem zero_offset_is_identity_up_to_nul (LINE_MAX : Nat) (sign : Int)
    (old input : List Nat) (ferr : Bool) (line : List Nat) (n : Nat) (rest g : List Nat)
    (hlen : old.length = LINE_MAX + 1)
    (hg : get_line old (LINE_MAX + 1) input ferr = some (line, n, rest)) :
    input = input.take n ++ rest ∧ IsLineOf (input.take n) rest ∧
    process_line sign 0 line
      = Outcome.emit (decide (srec_check line ≠ 0)) (cstr (input.take n)) ∧
    (process_line sign 0 line = Outcome.emit (decide (srec_check line ≠ 0)) (input.take n)
      ↔ 0 ∉ input.take n) ∧
    get_offset (bytes "0") = (0, 0, 0) ∧ get_offset (bytes "-0") = (0, 1, 0) ∧
    process_line sign 0 (bytes "S9030000FC" ++ 0 :: g)
      = Outcome.emit false (bytes "S9030000FC") := by
  obtain ⟨h1, hl, h2⟩ := get_line_cstr LINE_MAX old input ferr line n rest hlen hg
  have hp : process_line sign 0 line
      = Outcome.emit (decide (srec_check line ≠ 0)) (cstr (input.take n)) := by
    rw [process_line_zero, h2]
  refine ⟨h1, hl, hp, ?_, by decide, by decide, ?_⟩
  · rw [hp]
    exact emit_eq_iff _ _
  · rw [process_line_zero, cstr_append_nul (by decide), ← srec_check_cstr,
      cstr_append_nul (by decide)]
    decide

theorem zero_offset_is_identity_up_to_nul_witness :
    (List.replicate 2049 0).length = 2048 + 1 ∧
    get_line (List.replicate 2049 0) (2048 + 1) (bytes "S9030000FC\n") false
      = some (bytes "S9030000FC\n" ++ List.replicate 2038 0, 11, []) ∧
    process_line 1 0 (bytes "S9030000FC\n" ++ List.replicate 2038 0)
      = Outcome.emit false (bytes "S9030000FC\n") := by
  have hg : get_line (List.replicate 2049 0) (2048 + 1) (bytes "S9030000FC\n") false
      = some (bytes "S9030000FC\n" ++ List.replicate 2038 0, 11, []) :=
    get_line_replicate 2049 (bytes "S9030000FC") [] false (by decide) (by decide)
  exact ⟨List.length_replicate _ _, hg,
    ((zero_offset_is_identity_up_to_nul 2048 1 (List.replicate 2049 0)
      (bytes "S9030000FC\n") false (bytes "S9030000FC\n" ++ List.replicate 2038 0) 11 [] []
      (List.length_replicate _ _) hg).2.2.1).trans (by decide)⟩

/-- C5: overflow rejection. For a line accepted by `srec_check` with type S1, S2, S3, S7,
S8 or S9 whose address field has the base-16 value `a`, and a non-zero 32-bit offset, the
per-line transformation of `main` ends the run with exit code 5 (the "Address out of
range" return, nothing written) exactly when the sign is positive and
`a + offset > 0xFFFFFFFF` or the sign is negative and `offset > a`; otherwise the address
handed to `srec_addr_change` is `a + offset`, respectively `a - offset`, with no
wrap-around. -/
theorem offset_out_of_range_rejected (sign : Int) (offset : Nat) (line : List Nat)
    (hv : srec_check line = 0) (ht : IsAddrType (rd line 1)) (ho : offset ≠ 0)
    (ho32 : offset < 2 ^ 32) :
    (process_line sign offset line = Outcome.error 5 ↔
      (sign = 0 ∧ hexnum (((cstr line).drop 4).take (addr_len_of (rd line 1) * 2)) + offset
          > 4294967295)
      ∨ (sign ≠ 0 ∧ offset > hexnum (((cstr line).drop 4).take (addr_len_of (rd line 1) * 2)))) ∧
    (sign = 0 →
      hexnum (((cstr line).drop 4).take (addr_len_of (rd line 1) * 2)) + offset ≤ 4294967295 →
      process_line sign offset line = convert line
        (hexnum (((cstr line).drop 4).take (addr_len_of (rd line 1) * 2)) + offset)) ∧
    (sign ≠ 0 →
      offset ≤ hexnum (((cstr line).drop 4).take (addr_len_of (rd line 1) * 2)) →
      process_line sign offset line = convert line
        (hexnum (((cstr line).drop 4).take (addr_len_of (rd line 1) * 2)) - offset)) := by
  have hr := process_line_range sign offset line hv ht ho ho32
  rw [addr_decode hv] at hr
  simp only [] at hr
  generalize hexnum (((cstr line).drop 4).take (addr_len_of (rd line 1) * 2)) = a at hr
  refine ⟨?_, ?_, ?_⟩
  · rw [hr]
    by_cases hsg : sign ≠ 0
    · rw [if_pos hsg]
      by_cases hlt : a < offset
      · rw [if_pos hlt]
        exact ⟨fun _ => Or.inr ⟨hsg, hlt⟩, fun _ => rfl⟩
      · rw [if_neg hlt]
        constructor
        · intro h; exact absurd h (convert_ne_error5 _ _)
        · rintro (⟨h0, _⟩ | ⟨_, h1⟩)
          · exact absurd h0 hsg
          · exact absurd h1 hlt
    · rw [if_neg hsg]
      have hs0 : sign = 0 := not_not.mp hsg
      by_cases hlt : 4294967295 < a + offset
      · rw [if_pos hlt]
        exact ⟨fun _ => Or.inl ⟨hs0, hlt⟩, fun _ => rfl⟩
      · rw [if_neg hlt]
        constructor
        · intro h; exact absurd h (convert_ne_error5 _ _)
        · rintro (⟨_, h1⟩ | ⟨h0, _⟩)
          · exact absurd h1 hlt
          · exact absurd hs0 h0
  · intro hs0 hle
    rw [hr, if_neg (not_not.mpr hs0), if_neg (by omega)]
  · intro hsg hle
    rw [hr, if_pos hsg, if_neg (by omega)]

theorem offset_out_of_range_rejected_witness :
    srec_check (buffer "S30500000001F9" 32) = 0 ∧
    IsAddrType (rd (buffer "S30500000001F9" 32) 1) ∧ (4294967295 : Nat) ≠ 0 ∧
    (4294967295 : Nat) < 2 ^ 32 ∧
    process_line 0 4294967295 (buffer "S30500000001F9" 32) = Outcome.error 5 :=
  ⟨by decide, by decide, by decide, by decide,
    (offset_out_of_range_rejected 0 4294967295 (buffer "S30500000001F9" 32) (by decide)
      (by decide) (by decide) (by decide)).1.mpr (Or.inl ⟨rfl, by decide⟩)⟩

/-- C6 (as stated, refuted): the S1 record S1030000FC rewritten to address 0, which fits
in two bytes, is nevertheless turned into the S3 record S30500000000FA, four characters
longer. -/
theorem widening_despite_fitting_addr :
    srec_check (buffer "S1030000FC" 32) = 0 ∧ (0 : Nat) < 2 ^ 16 ∧
    (srec_addr_change (buffer "S1030000FC" 32) 32 0).1 = 0 ∧
    rd (buffer "S1030000FC" 32) 1 = 49 ∧
    rd (srec_addr_change (buffer "S1030000FC" 32) 32 0).2 1 = 51 ∧
    strlen (srec_addr_change (buffer "S1030000FC" 32) 32 0).2
      = strlen (buffer "S1030000FC" 32) + 4 ∧
    cstr (srec_addr_change (buffer "S1030000FC" 32) 32 0).2 = bytes "S30500000000FA" := by
  decide

/-- C6 (amended): for every valid S1, S2, S8 or S9 record and every new address, whether
or not the address fits the original width, a successful `srec_addr_change` changes the
type character (S1 and S2 to `3`, S8 and S9 to `7`), raises the byte count by `4 - w` and
lengthens the line by `2 * (4 - w)` characters, where `w` is the original address width:
`w = 2` for S1 and S9 (count + 2, four characters more) and `w = 3` for S2 and S8
(count + 1, two characters more). The type, the byte count and the line length are never
left unchanged. -/
theorem widening_regardless_of_addr (line : List Nat) (size addr : Nat)
    (hv : srec_check line = 0)
    (ht : rd line 1 = 49 ∨ rd line 1 = 50 ∨ rd line 1 = 56 ∨ rd line 1 = 57)
    (hs : strlen line < size) (hb : size ≤ line.length)
    (hr : (srec_addr_change line size addr).1 = 0) :
    rd (srec_addr_change line size addr).2 1 ≠ rd line 1 ∧
    (rd line 1 = 49 ∨ rd line 1 = 50 → rd (srec_addr_change line size addr).2 1 = 51) ∧
    (rd line 1 = 56 ∨ rd line 1 = 57 → rd (srec_addr_change line size addr).2 1 = 55) ∧
    (rd line 1 = 49 ∨ rd line 1 = 57 →
      addr_len_of (rd line 1) = 2 ∧
      strlen (srec_addr_change line size addr).2 = strlen line + 4 ∧
      (hexstr_to_u32 (srec_addr_change line size addr).2 2 2).2
        = (hexstr_to_u32 line 2 2).2 + 2) ∧
    (rd line 1 = 50 ∨ rd line 1 = 56 →
      addr_len_of (rd line 1) = 3 ∧
      strlen (srec_addr_change line size addr).2 = strlen line + 2 ∧
      (hexstr_to_u32 (srec_addr_change line size addr).2 2 2).2
        = (hexstr_to_u32 line 2 2).2 + 1) ∧
    0 < 4 - addr_len_of (rd line 1) ∧
    strlen (srec_addr_change line size addr).2
      = strlen line + 2 * (4 - addr_len_of (rd line 1)) ∧
    (hexstr_to_u32 (srec_addr_change line size addr).2 2 2).2
      = (hexstr_to_u32 line 2 2).2 + (4 - addr_len_of (rd line 1)) := by
  obtain ⟨c1, h1, h2, A, D, K, term, g, hL⟩ := valid_layout hv (by omega)
  obtain ⟨hn', -, hout⟩ := change_out_layout hL size addr hs hb hr
  rw [layout_rd1 hL] at ht ⊢
  have hLo := hout (by omega)
  rw [layout_rd1 hLo, layout_strlen hLo, layout_strlen hL, layout_count hLo, layout_count hL,
    hexstr_length, count_digits _ hn']
  have hA := hL.2.2.2.2.1
  refine ⟨?_, ?_, ?_, ?_, ?_, ?_, ?_, rfl⟩
  · rcases ht with rfl | rfl | rfl | rfl <;> decide
  · rintro (rfl | rfl) <;> decide
  · rintro (rfl | rfl) <;> decide
  · intro h
    have hw : addr_len_of c1 = 2 := by rcases h with rfl | rfl <;> decide
    rw [hw] at hA ⊢
    exact ⟨rfl, by omega, rfl⟩
  · intro h
    have hw : addr_len_of c1 = 3 := by rcases h with rfl | rfl <;> decide
    rw [hw] at hA ⊢
    exact ⟨rfl, by omega, rfl⟩
  · have hw : addr_len_of c1 = 2 ∨ addr_len_of c1 = 3 := by
      rcases ht with rfl | rfl | rfl | rfl <;> decide
    omega
  · have hw : addr_len_of c1 = 2 ∨ addr_len_of c1 = 3 := by
      rcases ht with rfl | rfl | rfl | rfl <;> decide
    omega

theorem widening_regardless_of_addr_witness :
    srec_check (buffer "S9030000FC" 32) = 0 ∧
    (rd (buffer "S9030000FC" 32) 1 = 49 ∨ rd (buffer "S9030000FC" 32) 1 = 50 ∨
      rd (buffer "S9030000FC" 32) 1 = 56 ∨ rd (buffer "S9030000FC" 32) 1 = 57) ∧
    strlen (buffer "S9030000FC" 32) < 32 ∧ 32 ≤ (buffer "S9030000FC" 32).length ∧
    (srec_addr_change (buffer "S9030000FC" 32) 32 1).1 = 0 ∧
    rd (srec_addr_change (buffer "S9030000FC" 32) 32 1).2 1 ≠ rd (buffer "S9030000FC" 32) 1 :=
  ⟨by decide, by decide, by decide, by decide, by decide,
    (widening_regardless_of_addr (buffer "S9030000FC" 32) 32 1 (by decide) (by decide)
      (by decide) (by decide) (by decide)).1⟩

/-- C7 (as stated, refuted): `srec_check` accepts the S4 record S401FE, `srec_addr_change`
succeeds on it, and the type of the output is S4. -/
theorem output_type_can_be_s4 :
    srec_check (buffer "S401FE" 32) = 0 ∧
    (srec_addr_change (buffer "S401FE" 32) 32 0).1 = 0 ∧
    rd (srec_addr_change (buffer "S401FE" 32) 32 0).2 1 = 52 ∧
    cstr (srec_addr_change (buffer "S401FE" 32) 32 0).2 = bytes "S40500000000FA" := by
  decide

/-- C7 (amended): for every valid record on which `srec_addr_change` succeeds the output
type character is `3` when the input type is S1, S2 or S3 and `7` when it is S7, S8 or S9
(so S3 and S7 stay what they are), and the output type is S4 only when the input type is
S4. -/
theorem type_mapping (line : List Nat) (size addr : Nat)
    (hv : srec_check line = 0) (hs : strlen line < size) (hb : size ≤ line.length)
    (hr : (srec_addr_change line size addr).1 = 0) :
    (rd line 1 = 49 ∨ rd line 1 = 50 ∨ rd line 1 = 51 →
      rd (srec_addr_change line size addr).2 1 = 51) ∧
    (rd line 1 = 55 ∨ rd line 1 = 56 ∨ rd line 1 = 57 →
      rd (srec_addr_change line size addr).2 1 = 55) ∧
    (rd (srec_addr_change line size addr).2 1 = 52 ↔ rd line 1 = 52) := by
  obtain ⟨c1, h1, h2, A, D, K, term, g, hL⟩ := valid_layout hv (by omega)
  obtain ⟨-, hout, -⟩ := change_out_layout hL size addr hs hb hr
  have hr1 : rd (srec_addr_change line size addr).2 1 = new_type c1 := by rw [hout]; rfl
  rw [layout_rd1 hL, hr1]
  unfold new_type
  refine ⟨?_, ?_, ?_⟩
  · intro h
    split
    · rfl
    · split <;> omega
  · intro h
    split
    · omega
    · split <;> omega
  · split
    · omega
    · split <;> omega

theorem type_mapping_witness :
    srec_check (buffer "S9030000FC" 32) = 0 ∧ strlen (buffer "S9030000FC" 32) < 32 ∧
    32 ≤ (buffer "S9030000FC" 32).length ∧
    (srec_addr_change (buffer "S9030000FC" 32) 32 1).1 = 0 ∧
    rd (srec_addr_change (buffer "S9030000FC" 32) 32 1).2 1 = 55 :=
  ⟨by decide, by decide, by decide, by decide,
    (type_mapping (buffer "S9030000FC" 32) 32 1 (by decide) (by decide) (by decide)
      (by decide)).2.1 (by decide)⟩

/-- C8: new address field. For every valid record of type S1, S2, S3, S7, S8 or S9 and
every 32-bit `addr`, when `srec_addr_change` succeeds the characters at positions 4..11 of
the buffer are the 8-digit zero-padded uppercase hexadecimal numeral of `addr`, and
`hexstr_to_u32` decodes them back to exactly `addr`. -/
theorem new_address_field (line : List Nat) (size addr : Nat)
    (hv : srec_check line = 0) (ht : IsAddrType (rd line 1))
    (hs : strlen line < size) (hb : size ≤ line.length) (ha : addr < 2 ^ 32)
    (hr : (srec_addr_change line size addr).1 = 0) :
    ((srec_addr_change line size addr).2.drop 4).take 8 = hexstr 8 addr ∧
    hexstr_to_u32 (srec_addr_change line size addr).2 4 8 = (0, addr) := by
  obtain ⟨c1, h1, h2, A, D, K, term, g, hL⟩ := valid_layout hv (by omega)
  obtain ⟨-, -, hout⟩ := change_out_layout hL size addr hs hb hr
  rw [layout_rd1 hL] at ht
  have hLo := hout ht
  have h1 := layout_addr_field hLo
  have h2 := layout_addr_decode hLo
  rw [hexstr_length] at h1 h2
  rw [hexnum_hexstr] at h2
  have e : addr % 16 ^ 8 % 2 ^ 32 = addr := by
    have : (16 : Nat) ^ 8 = 2 ^ 32 := by norm_num
    rw [this, Nat.mod_mod, Nat.mod_eq_of_lt ha]
  rw [e] at h2
  exact ⟨h1, h2⟩

theorem new_address_field_witness :
    srec_check (buffer "S1030000FC" 32) = 0 ∧ IsAddrType (rd (buffer "S1030000FC" 32) 1) ∧
    strlen (buffer "S1030000FC" 32) < 32 ∧ 32 ≤ (buffer "S1030000FC" 32).length ∧
    (74565 : Nat) < 2 ^ 32 ∧ (srec_addr_change (buffer "S1030000FC" 32) 32 74565).1 = 0 ∧
    ((srec_addr_change (buffer "S1030000FC" 32) 32 74565).2.drop 4).take 8 = bytes "00012345" ∧
    hexstr_to_u32 (srec_addr_change (buffer "S1030000FC" 32) 32 74565).2 4 8 = (0, 74565) :=
  ⟨by decide, by decide, by decide, by decide, by decide, by decide,
    new_address_field (buffer "S1030000FC" 32) 32 74565 (by decide) (by decide) (by decide)
      (by decide) (by decide) (by decide)⟩

/-- C9: checksum invariant. For every valid address-bearing record and every `addr`, when
`srec_addr_change` succeeds, with `n` the byte count field of the output, the last byte of
the output record (at characters `4 + 2 * (n - 1)` and the next, followed only by the
terminator) decodes to a checksum `c <= 0xFF` with
`0xFF - c = (n + sum of the n - 1 address and data bytes) mod 256`. -/
theorem checksum_invariant (line : List Nat) (size addr : Nat)
    (hv : srec_check line = 0) (ht : IsAddrType (rd line 1))
    (hs : strlen line < size) (hb : size ≤ line.length)
    (hr : (srec_addr_change line size addr).1 = 0) :
    (hexstr_to_u32 (srec_addr_change line size addr).2 2 2).1 = 0 ∧
    (hexstr_to_u32 (srec_addr_change line size addr).2
      (4 + 2 * ((hexstr_to_u32 (srec_addr_change line size addr).2 2 2).2 - 1)) 2).1 = 0 ∧
    (hexstr_to_u32 (srec_addr_change line size addr).2
      (4 + 2 * ((hexstr_to_u32 (srec_addr_change line size addr).2 2 2).2 - 1)) 2).2 ≤ 255 ∧
    255 - (hexstr_to_u32 (srec_addr_change line size addr).2
      (4 + 2 * ((hexstr_to_u32 (srec_addr_change line size addr).2 2 2).2 - 1)) 2).2
      = ((hexstr_to_u32 (srec_addr_change line size addr).2 2 2).2
          + byteSum (((srec_addr_change line size addr).2.drop 4).take
              (2 * ((hexstr_to_u32 (srec_addr_change line size addr).2 2 2).2 - 1)))) % 256 ∧
    ((cstr (srec_addr_change line size addr).2).drop
        (4 + 2 * (hexstr_to_u32 (srec_addr_change line size addr).2 2 2).2) = [] ∨
      (cstr (srec_addr_change line size addr).2).drop
        (4 + 2 * (hexstr_to_u32 (srec_addr_change line size addr).2 2 2).2) = [13] ∨
      (cstr (srec_addr_change line size addr).2).drop
        (4 + 2 * (hexstr_to_u32 (srec_addr_change line size addr).2 2 2).2) = [10] ∨
      (cstr (srec_addr_change line size addr).2).drop
        (4 + 2 * (hexstr_to_u32 (srec_addr_change line size addr).2 2 2).2) = [13, 10]) := by
  obtain ⟨c1, h1, h2, A, D, K, term, g, hL⟩ := valid_layout hv (by omega)
  obtain ⟨hn', -, hout⟩ := change_out_layout hL size addr hs hb hr
  rw [layout_rd1 hL] at ht
  have hLo := hout ht
  have hcnt := layout_count hLo
  rw [count_digits _ hn'] at hcnt
  have hlen := hLo.2.2.2.2.2.2.1
  rw [count_digits _ hn', hexstr_length] at hlen
  have hck := layout_cksum hLo
  have hreg := layout_sum_region hLo
  have haft := layout_after hLo
  rw [hexstr_length] at hck hreg haft
  rw [hexnum_hexstr] at hck
  generalize hnd : 16 * hexval h1 + hexval h2 + (4 - addr_len_of c1) = n at *
  generalize hsd : byteSum (hexstr 8 addr ++ D) = S at *
  have e1 : 4 + 2 * (n - 1) = 4 + 8 + D.length := by omega
  have e2 : 2 * (n - 1) = 8 + D.length := by omega
  have e3 : 4 + 2 * n = 4 + 8 + D.length + 2 := by omega
  have e4 : (255 - (n + S) % 256) % 16 ^ 2 % 2 ^ 32 = 255 - (n + S) % 256 := by omega
  rw [hcnt]
  simp only []
  rw [e1, e2, e3, hck, hreg, haft, hsd, e4]
  simp only []
  refine ⟨trivial, trivial, by omega, by omega, hLo.2.2.2.2.2.2.2.2.2.2.2⟩

theorem checksum_invariant_witness :
    srec_check (buffer "S1030000FC" 32) = 0 ∧ IsAddrType (rd (buffer "S1030000FC" 32) 1) ∧
    strlen (buffer "S1030000FC" 32) < 32 ∧ 32 ≤ (buffer "S1030000FC" 32).length ∧
    (srec_addr_change (buffer "S1030000FC" 32) 32 74565).1 = 0 ∧
    (hexstr_to_u32 (srec_addr_change (buffer "S1030000FC" 32) 32 74565).2
      (4 + 2 * ((hexstr_to_u32 (srec_addr_change (buffer "S1030000FC" 32) 32 74565).2 2 2).2
        - 1)) 2).2 ≤ 255 :=
  ⟨by decide, by decide, by decide, by decide, by decide,
    (checksum_invariant (buffer "S1030000FC" 32) 32 74565 (by decide) (by decide) (by decide)
      (by decide) (by decide)).2.2.1⟩

/-- C10: payload and terminator are preserved and the line never shrinks. For every valid
record of type S1, S2, S3, S7, S8 or S9 with address width `w` and byte count `n`, when
`srec_addr_change` succeeds the output is `2 * (4 - w)` characters longer than the input,
its byte count field is `n + (4 - w)`, the `2 * (n - w - 1)` hex characters of the data
are the same sequence as in the input, and everything after the checksum is identical to
the input's. -/
theorem payload_and_terminator_preserved (line : List Nat) (size addr : Nat)
    (hv : srec_check line = 0) (ht : IsAddrType (rd line 1))
    (hs : strlen line < size) (hb : size ≤ line.length)
    (hr : (srec_addr_change line size addr).1 = 0) :
    strlen (srec_addr_change line size addr).2
      = strlen line + 2 * (4 - addr_len_of (rd line 1)) ∧
    strlen line ≤ strlen (srec_addr_change line size addr).2 ∧
    hexstr_to_u32 (srec_addr_change line size addr).2 2 2
      = (0, (hexstr_to_u32 line 2 2).2 + (4 - addr_len_of (rd line 1))) ∧
    ((cstr (srec_addr_change line size addr).2).drop 12).take
        (2 * ((hexstr_to_u32 line 2 2).2 - addr_len_of (rd line 1) - 1))
      = ((cstr line).drop (4 + 2 * addr_len_of (rd line 1))).take
        (2 * ((hexstr_to_u32 line 2 2).2 - addr_len_of (rd line 1) - 1)) ∧
    (cstr (srec_addr_change line size addr).2).drop
        (4 + 2 * ((hexstr_to_u32 line 2 2).2 + (4 - addr_len_of (rd line 1))))
      = (cstr line).drop (4 + 2 * (hexstr_to_u32 line 2 2).2) := by
  obtain ⟨c1, h1, h2, A, D, K, term, g, hL⟩ := valid_layout hv (by omega)
  obtain ⟨hn', -, hout⟩ := change_out_layout hL size addr hs hb hr
  rw [layout_rd1 hL] at ht ⊢
  have hLo := hout ht
  have hw := addr_len_of_le c1
  have hA := hL.2.2.2.2.1
  have hlen := hL.2.2.2.2.2.2.1
  have hd1 := layout_data hL
  have hd2 := layout_data hLo
  have ha1 := layout_after hL
  have ha2 := layout_after hLo
  rw [hexstr_length] at hd2 ha2
  rw [layout_strlen hLo, layout_strlen hL, layout_count hLo, layout_count hL, hexstr_length,
    count_digits _ hn']
  simp only []
  generalize hnd : 16 * hexval h1 + hexval h2 = n at *
  generalize hwd : addr_len_of c1 = w at *
  have e1 : 2 * (n - w - 1) = D.length := by omega
  have e2 : 4 + 2 * w = 4 + A.length := by omega
  have e3 : 4 + 2 * (n + (4 - w)) = 4 + 8 + D.length + 2 := by omega
  have e4 : 4 + 2 * n = 4 + A.length + D.length + 2 := by omega
  have e5 : (12 : Nat) = 4 + 8 := rfl
  rw [e1, e2, e3, e4, e5, hd1, hd2, ha1, ha2]
  refine ⟨by omega, by omega, ?_, ?_, ?_⟩ <;> first | rfl | trivial

theorem payload_and_terminator_preserved_witness :
    srec_check (buffer "S1050000AABB95\r\n" 32) = 0 ∧
    IsAddrType (rd (buffer "S1050000AABB95\r\n" 32) 1) ∧
    strlen (buffer "S1050000AABB95\r\n" 32) < 32 ∧
    32 ≤ (buffer "S1050000AABB95\r\n" 32).length ∧
    (srec_addr_change (buffer "S1050000AABB95\r\n" 32) 32 74565).1 = 0 ∧
    strlen (srec_addr_change (buffer "S1050000AABB95\r\n" 32) 32 74565).2
      = strlen (buffer "S1050000AABB95\r\n" 32)
        + 2 * (4 - addr_len_of (rd (buffer "S1050000AABB95\r\n" 32) 1)) :=
  ⟨by decide, by decide, by decide, by decide, by decide,
    (payload_and_terminator_preserved (buffer "S1050000AABB95\r\n" 32) 32 74565 (by decide)
      (by decide) (by decide) (by decide) (by decide)).1⟩

/-- C11: failure conditions of the rewriter. For a line accepted by `srec_check` (of any
type, so in particular S1, S2, S3, S7, S8 or S9; address width `w`, byte count `n`) held in
an array of at least `size` bytes with `size > strlen line`, `srec_addr_change` returns -1
if and only if
`w < 4` and (`size - (len + 1) < 2 * (4 - w)` or `n + (4 - w) > 255`); in every other case
it returns 0, so the `return -1` of the checksum loop is never taken. -/
theorem rewriter_failure_conditions (line : List Nat) (size addr : Nat)
    (hv : srec_check line = 0)
    (hs : strlen line < size) (hb : size ≤ line.length) (h64 : size < 2 ^ 64) :
    ((srec_addr_change line size addr).1 = -1 ↔
      addr_len_of (rd line 1) < 4 ∧
        (size - (strlen line + 1) < 2 * (4 - addr_len_of (rd line 1)) ∨
          (hexstr_to_u32 line 2 2).2 + (4 - addr_len_of (rd line 1)) > 255)) ∧
    (¬ (addr_len_of (rd line 1) < 4 ∧
        (size - (strlen line + 1) < 2 * (4 - addr_len_of (rd line 1)) ∨
          (hexstr_to_u32 line 2 2).2 + (4 - addr_len_of (rd line 1)) > 255)) →
      (srec_addr_change line size addr).1 = 0) := by
  obtain ⟨c1, h1, h2, A, D, K, term, g, hL⟩ := valid_layout hv (by omega)
  have hcl := change_layout hL size addr hs hb
  rw [layout_rd1 hL, layout_count hL]
  simp only []
  have hsub : (size + 2 ^ 64 - (strlen line + 1)) % 2 ^ 64 = size - (strlen line + 1) := by
    omega
  rw [hsub] at hcl
  generalize 16 * hexval h1 + hexval h2 = n at *
  generalize addr_len_of c1 = w at *
  by_cases hc : 0 < 4 - w ∧ (size - (strlen line + 1) < 2 * (4 - w) ∨ n + (4 - w) > 255)
  · rw [if_pos hc] at hcl
    have hc' : w < 4 ∧ (size - (strlen line + 1) < 2 * (4 - w) ∨ n + (4 - w) > 255) :=
      ⟨by omega, hc.2⟩
    rw [hcl]
    exact ⟨⟨fun _ => hc', fun _ => rfl⟩, fun h => absurd hc' h⟩
  · rw [if_neg hc] at hcl
    have hc' : ¬ (w < 4 ∧ (size - (strlen line + 1) < 2 * (4 - w) ∨ n + (4 - w) > 255)) :=
      fun h => hc ⟨by omega, h.2⟩
    rw [hcl]
    refine ⟨⟨fun h => ?_, fun h => absurd h hc'⟩, fun _ => rfl⟩
    simp at h

theorem rewriter_failure_conditions_witness :
    srec_check (buffer "S1030000FC" 12) = 0 ∧
    strlen (buffer "S1030000FC" 12) < 12 ∧ 12 ≤ (buffer "S1030000FC" 12).length ∧
    (12 : Nat) < 2 ^ 64 ∧ (srec_addr_change (buffer "S1030000FC" 12) 12 1).1 = -1 :=
  ⟨by decide, by decide, by decide, by decide,
    (rewriter_failure_conditions (buffer "S1030000FC" 12) 12 1 (by decide)
      (by decide) (by decide) (by decide)).1.mpr ⟨by decide, Or.inl (by decide)⟩⟩

/-- C12 (as stated, refuted): the line S1XY, NUL, ZZZZ, LF is read whole into the array by
`get_line` (10 characters) and rejected by `srec_check`; `main` prints the warning and
writes only the four characters before the NUL: the line is not emitted unchanged. -/
theorem invalid_line_truncated_at_nul :
    get_line (List.replicate 2049 0) 2049 (bytes "S1XY" ++ 0 :: bytes "ZZZZ\n") false
      = some ((bytes "S1XY" ++ 0 :: bytes "ZZZZ\n") ++ List.replicate 2039 0, 10, []) ∧
    srec_check ((bytes "S1XY" ++ 0 :: bytes "ZZZZ\n") ++ List.replicate 2039 0) = -1 ∧
    process_line 0 65536 ((bytes "S1XY" ++ 0 :: bytes "ZZZZ\n") ++ List.replicate 2039 0)
      = Outcome.emit true (bytes "S1XY") ∧
    bytes "S1XY" ≠ bytes "S1XY" ++ 0 :: bytes "ZZZZ\n" := by
  have hg : get_line (List.replicate 2049 0) 2049 (bytes "S1XY" ++ 0 :: bytes "ZZZZ\n") false
      = some ((bytes "S1XY" ++ 0 :: bytes "ZZZZ\n") ++ List.replicate 2039 0, 10, []) :=
    get_line_replicate 2049 (bytes "S1XY" ++ 0 :: bytes "ZZZZ") [] false (by decide)
      (by decide)
  exact ⟨hg, by decide, by decide, by decide⟩

/-- C12 (amended): invalid lines pass through up to their first NUL. For every line that
`get_line` reads from the stream into the array of `LINE_MAX + 1` bytes and on which
`srec_check` returns -1, and for every offset and sign, the per-line transformation of
`main` prints the warning, does not end the run and writes the characters of the line
before its first NUL: the line is written unchanged exactly when it holds no NUL. The
malformed line S1XYZZZZ, whatever follows its NUL in the array, is rejected by
`srec_check` and written unchanged. -/
theorem invalid_lines_pass_through_up_to_nul (LINE_MAX : Nat) (sign : Int) (offset : Nat)
    (old input : List Nat) (ferr : Bool) (line : List Nat) (n : Nat) (rest g : List Nat)
    (hlen : old.length = LINE_MAX + 1)
    (hg : get_line old (LINE_MAX + 1) input ferr = some (line, n, rest))
    (h : srec_check line = -1) :
    input = input.take n ++ rest ∧ IsLineOf (input.take n) rest ∧
    process_line sign offset line = Outcome.emit true (cstr (input.take n)) ∧
    (process_line sign offset line = Outcome.emit true (input.take n) ↔ 0 ∉ input.take n) ∧
    srec_check (bytes "S1XYZZZZ" ++ 0 :: g) = -1 ∧
    process_line sign offset (bytes "S1XYZZZZ" ++ 0 :: g)
      = Outcome.emit true (bytes "S1XYZZZZ") := by
  obtain ⟨h1, hl, h2⟩ := get_line_cstr LINE_MAX old input ferr line n rest hlen hg
  have hp : process_line sign offset line = Outcome.emit true (cstr (input.take n)) := by
    rw [process_line_invalid sign offset line h, h2]
  have hcs : cstr (bytes "S1XYZZZZ" ++ 0 :: g) = bytes "S1XYZZZZ" :=
    cstr_append_nul (by decide) g
  have hx : srec_check (bytes "S1XYZZZZ" ++ 0 :: g) = -1 := by
    rw [← srec_check_cstr, hcs]
    decide
  refine ⟨h1, hl, hp, ?_, hx, ?_⟩
  · rw [hp]
    exact emit_eq_iff _ _
  · rw [process_line_invalid _ _ _ hx, hcs]

theorem invalid_lines_pass_through_up_to_nul_witness :
    (List.replicate 2049 0).length = 2048 + 1 ∧
    get_line (List.replicate 2049 0) (2048 + 1) (bytes "S1XYZZZZ\n") false
      = some (bytes "S1XYZZZZ\n" ++ List.replicate 2040 0, 9, []) ∧
    srec_check (bytes "S1XYZZZZ\n" ++ List.replicate 2040 0) = -1 ∧
    process_line 1 65536 (bytes "S1XYZZZZ\n" ++ List.replicate 2040 0)
      = Outcome.emit true (bytes "S1XYZZZZ\n") := by
  have hg : get_line (List.replicate 2049 0) (2048 + 1) (bytes "S1XYZZZZ\n") false
      = some (bytes "S1XYZZZZ\n" ++ List.replicate 2040 0, 9, []) :=
    get_line_replicate 2049 (bytes "S1XYZZZZ") [] false (by decide) (by decide)
  exact ⟨List.length_replicate _ _, hg, by decide,
    ((invalid_lines_pass_through_up_to_nul 2048 1 65536 (List.replicate 2049 0)
      (bytes "S1XYZZZZ\n") false (bytes "S1XYZZZZ\n" ++ List.replicate 2040 0) 9 [] []
      (List.length_replicate _ _) hg (by decide)).2.2.1).trans (by decide)⟩

/-- C13 (as stated, refuted): the line S0030000FC, NUL, tail, LF is read whole into the
array by `get_line` (16 characters); its type character is `0` and `srec_check` accepts
it, and `main` writes only the ten characters before the NUL: the line is not emitted
unchanged. -/
theorem s0_line_truncated_at_nul :
    get_line (List.replicate 2049 0) 2049 (bytes "S0030000FC" ++ 0 :: bytes "tail\n") false
      = some ((bytes "S0030000FC" ++ 0 :: bytes "tail\n") ++ List.replicate 2033 0, 16, []) ∧
    rd ((bytes "S0030000FC" ++ 0 :: bytes "tail\n") ++ List.replicate 2033 0) 1 = 48 ∧
    srec_check ((bytes "S0030000FC" ++ 0 :: bytes "tail\n") ++ List.replicate 2033 0) = 0 ∧
    process_line 0 65536
        ((bytes "S0030000FC" ++ 0 :: bytes "tail\n") ++ List.replicate 2033 0)
      = Outcome.emit false (bytes "S0030000FC") ∧
    bytes "S0030000FC" ≠ bytes "S0030000FC" ++ 0 :: bytes "tail\n" := by
  have hg : get_line (List.replicate 2049 0) 2049
      (bytes "S0030000FC" ++ 0 :: bytes "tail\n") false
      = some ((bytes "S0030000FC" ++ 0 :: bytes "tail\n") ++ List.replicate 2033 0, 16, []) :=
    get_line_replicate 2049 (bytes "S0030000FC" ++ 0 :: bytes "tail") [] false (by decide)
      (by decide)
  exact ⟨hg, by decide, by decide, by decide, by decide⟩

/-- C13 (amended): non-address-bearing types are never rewritten. For every line that
`get_line` reads from the stream into the array of `LINE_MAX + 1` bytes and whose type
character is `0`, `4`, `5` or `6`, accepted by `srec_check` or not, and for every offset
and sign, the per-line transformation of `main` never calls `srec_addr_change` and does
not end the run: it writes the text of the array as `get_line` left it (with the warning
exactly when `srec_check` rejects the line), that is the characters of the line before its
first NUL, so the line is written unchanged exactly when it holds no NUL. -/
theorem other_types_pass_through_up_to_nul (LINE_MAX : Nat) (sign : Int) (offset : Nat)
    (old input : List Nat) (ferr : Bool) (line : List Nat) (n : Nat) (rest : List Nat)
    (hlen : old.length = LINE_MAX + 1)
    (hg : get_line old (LINE_MAX + 1) input ferr = some (line, n, rest))
    (ht : rd line 1 = 48 ∨ rd line 1 = 52 ∨ rd line 1 = 53 ∨ rd line 1 = 54) :
    input = input.take n ++ rest ∧ IsLineOf (input.take n) rest ∧
    process_line sign offset line
      = Outcome.emit (decide (srec_check line ≠ 0)) (cstr line) ∧
    process_line sign offset line
      = Outcome.emit (decide (srec_check line ≠ 0)) (cstr (input.take n)) ∧
    (process_line sign offset line
        = Outcome.emit (decide (srec_check line ≠ 0)) (input.take n)
      ↔ 0 ∉ input.take n) := by
  obtain ⟨h1, hl, h2⟩ := get_line_cstr LINE_MAX old input ferr line n rest hlen hg
  have hp0 := process_line_other_types sign offset line (by omega)
  have hp : process_line sign offset line
      = Outcome.emit (decide (srec_check line ≠ 0)) (cstr (input.take n)) := by
    rw [hp0, h2]
  refine ⟨h1, hl, hp0, hp, ?_⟩
  rw [hp]
  exact emit_eq_iff _ _

theorem other_types_pass_through_up_to_nul_witness :
    (List.replicate 2049 0).length = 2048 + 1 ∧
    get_line (List.replicate 2049 0) (2048 + 1) (bytes "S0030000FC\n") false
      = some (bytes "S0030000FC\n" ++ List.replicate 2038 0, 11, []) ∧
    (rd (bytes "S0030000FC\n" ++ List.replicate 2038 0) 1 = 48 ∨
      rd (bytes "S0030000FC\n" ++ List.replicate 2038 0) 1 = 52 ∨
      rd (bytes "S0030000FC\n" ++ List.replicate 2038 0) 1 = 53 ∨
      rd (bytes "S0030000FC\n" ++ List.replicate 2038 0) 1 = 54) ∧
    process_line 0 65536 (bytes "S0030000FC\n" ++ List.replicate 2038 0)
      = Outcome.emit false (bytes "S0030000FC\n") := by
  have hg : get_line (List.replicate 2049 0) (2048 + 1) (bytes "S0030000FC\n") false
      = some (bytes "S0030000FC\n" ++ List.replicate 2038 0, 11, []) :=
    get_line_replicate 2049 (bytes "S0030000FC") [] false (by decide) (by decide)
  exact ⟨List.length_replicate _ _, hg, by decide,
    ((other_types_pass_through_up_to_nul 2048 0 65536 (List.replicate 2049 0)
      (bytes "S0030000FC\n") false (bytes "S0030000FC\n" ++ List.replicate 2038 0) 11 []
      (List.length_replicate _ _) hg (by decide)).2.2.2.1).trans (by decide)⟩

/-- C14 (as stated, refuted): for the valid S0 record S0030000FC `srec_addr_change`
computes `move_n = 4`, not 0, and turns it into S00500000000FA: type unchanged, but byte
count 5 instead of 3 and four characters more. -/
theorem s0_record_is_widened :
    srec_check (buffer "S0030000FC" 32) = 0 ∧ rd (buffer "S0030000FC" 32) 1 = 48 ∧
    move_n_of (rd (buffer "S0030000FC" 32) 1) = 4 ∧
    (srec_addr_change (buffer "S0030000FC" 32) 32 0).1 = 0 ∧
    cstr (srec_addr_change (buffer "S0030000FC" 32) 32 0).2 = bytes "S00500000000FA" ∧
    strlen (srec_addr_change (buffer "S0030000FC" 32) 32 0).2
      = strlen (buffer "S0030000FC" 32) + 4 := by
  decide

/-- C14 (amended): `srec_addr_change` computes `move_n = 0` for the types S3 and S7 and
`move_n = 4`, `4` and `2` for the types S0, S5 and S6. On every valid record of type S3 or
S7 it succeeds and leaves the type, the byte count and the line length unchanged. On a
valid record of type S0, S5 or S6 it keeps the type character but, when it succeeds,
raises the byte count by `move_n / 2` (2 for S0 and S5, 1 for S6) and the line length by
`move_n` (4 for S0 and S5, 2 for S6). In the program `main` does not call
`srec_addr_change` for these three types: it hands the text of the array as it is to
`fputs`. -/
theorem move_n_by_type (sign : Int) (offset : Nat) (line : List Nat) (size addr : Nat)
    (hv : srec_check line = 0) (hs : strlen line < size) (hb : size ≤ line.length) :
    (move_n_of 51 = 0 ∧ move_n_of 55 = 0 ∧ move_n_of 48 = 4 ∧ move_n_of 53 = 4 ∧
      move_n_of 54 = 2) ∧
    (rd line 1 = 51 ∨ rd line 1 = 55 →
      move_n_of (rd line 1) = 0 ∧ (srec_addr_change line size addr).1 = 0 ∧
      rd (srec_addr_change line size addr).2 1 = rd line 1 ∧
      hexstr_to_u32 (srec_addr_change line size addr).2 2 2 = hexstr_to_u32 line 2 2 ∧
      strlen (srec_addr_change line size addr).2 = strlen line) ∧
    (rd line 1 = 48 ∨ rd line 1 = 53 →
      move_n_of (rd line 1) = 4 ∧
      ((srec_addr_change line size addr).1 = 0 →
        rd (srec_addr_change line size addr).2 1 = rd line 1 ∧
        hexstr_to_u32 (srec_addr_change line size addr).2 2 2
          = (0, (hexstr_to_u32 line 2 2).2 + 2) ∧
        strlen (srec_addr_change line size addr).2 = strlen line + 4)) ∧
    (rd line 1 = 54 →
      move_n_of (rd line 1) = 2 ∧
      ((srec_addr_change line size addr).1 = 0 →
        rd (srec_addr_change line size addr).2 1 = rd line 1 ∧
        hexstr_to_u32 (srec_addr_change line size addr).2 2 2
          = (0, (hexstr_to_u32 line 2 2).2 + 1) ∧
        strlen (srec_addr_change line size addr).2 = strlen line + 2)) ∧
    (rd line 1 = 48 ∨ rd line 1 = 53 ∨ rd line 1 = 54 →
      process_line sign offset line = Outcome.emit false (cstr line)) := by
  have hgen : rd line 1 = 48 ∨ rd line 1 = 53 ∨ rd line 1 = 54 →
      ((srec_addr_change line size addr).1 = 0 →
        rd (srec_addr_change line size addr).2 1 = rd line 1 ∧
        hexstr_to_u32 (srec_addr_change line size addr).2 2 2
          = (0, (hexstr_to_u32 line 2 2).2 + move_n_of (rd line 1) / 2) ∧
        strlen (srec_addr_change line size addr).2 = strlen line + move_n_of (rd line 1)) ∧
      process_line sign offset line = Outcome.emit false (cstr line) := by
    obtain ⟨c1, h1, h2, A, D, K, term, g, hL⟩ := valid_layout hv (by omega)
    have htm := term_nul_free hL.2.2.2.2.2.2.2.2.2.2.2
    have hA := hL.2.2.2.2.1
    rw [layout_rd1 hL, layout_count hL, layout_strlen hL, move_n_of_eq]
    intro ht
    have hw : addr_len_of c1 = 2 ∨ addr_len_of c1 = 3 := by
      rcases ht with rfl | rfl | rfl <;> decide
    have hnt : new_type c1 = c1 := by rcases ht with rfl | rfl | rfl <;> decide
    refine ⟨?_, ?_⟩
    · intro hr
      obtain ⟨hn', hout, -⟩ := change_out_layout hL size addr hs hb hr
      rw [hout, hnt]
      refine ⟨rfl, ?_, ?_⟩
      · rw [out_count _ _ _ hn']
        simp only []
        congr 1
        omega
      · rw [strlen_eq_length_cstr, out_cstr _ _ _ _ _ _ _
          (by rcases ht with rfl | rfl | rfl <;> decide) hL.2.2.2.2.2.2.2.2.1 htm.1]
        simp only [List.length_cons, List.length_append, hexstr_length]
        omega
    · rw [process_line_other_types sign offset line (by rw [layout_rd1 hL]; omega),
        decide_eq_false (by rw [hv]; decide)]
  refine ⟨by decide, ?_, ?_, ?_, fun ht => (hgen ht).2⟩
  · obtain ⟨c1, h1, h2, A, D, K, term, g, hL⟩ := valid_layout hv (by omega)
    have hcl := change_layout hL size addr hs hb
    have htm := term_nul_free hL.2.2.2.2.2.2.2.2.2.2.2
    have hA := hL.2.2.2.2.1
    have hlen := hL.2.2.2.2.2.2.1
    have hv1 := hexval_lt h1 hL.2.2.1
    have hv2 := hexval_lt h2 hL.2.2.2.1
    rw [layout_rd1 hL, layout_count hL, layout_strlen hL, move_n_of_eq]
    intro ht
    have hw : addr_len_of c1 = 4 := by rcases ht with rfl | rfl <;> decide
    have hnt : new_type c1 = c1 := by rcases ht with rfl | rfl <;> decide
    rw [hw] at hcl
    rw [if_neg (by omega)] at hcl
    rw [hcl, hw, hnt]
    simp only [Nat.sub_self, Nat.add_zero, Nat.mul_zero]
    refine ⟨trivial, trivial, rfl, out_count _ _ _ (by omega), ?_⟩
    rw [strlen_eq_length_cstr, out_cstr _ _ _ _ _ _ _ (by rcases ht with rfl | rfl <;> decide)
      hL.2.2.2.2.2.2.2.2.1 htm.1]
    simp only [List.length_cons, List.length_append, hexstr_length]
    omega
  · intro ht
    have hm : move_n_of (rd line 1) = 4 := by rcases ht with h | h <;> rw [h] <;> decide
    have h3 := (hgen (by omega)).1
    rw [hm] at h3
    exact ⟨hm, h3⟩
  · intro ht
    have hm : move_n_of (rd line 1) = 2 := by rw [ht]; decide
    have h3 := (hgen (by omega)).1
    rw [hm] at h3
    exact ⟨hm, h3⟩

theorem move_n_by_type_witness :
    srec_check (buffer "S70500000000FA" 32) = 0 ∧ strlen (buffer "S70500000000FA" 32) < 32 ∧
    32 ≤ (buffer "S70500000000FA" 32).length ∧
    strlen (srec_addr_change (buffer "S70500000000FA" 32) 32 74565).2
      = strlen (buffer "S70500000000FA" 32) :=
  ⟨by decide, by decide, by decide,
    ((move_n_by_type 0 1 (buffer "S70500000000FA" 32) 32 74565 (by decide) (by decide)
      (by decide)).2.1 (by decide)).2.2.2.2⟩

/-- C15: hex encode pads and truncates. For every `n` and width `len`, with the `len`
bytes `c[0..len-1]` inside the buffer (`old`, after `pre` and before `post`),
`u32_to_hexstr(n, len, c)` replaces exactly these bytes and leaves the rest of the buffer
as it is; the `len` characters written are all in `0-9A-F` and are the big-endian base-16
numeral of `n mod 16 ^ len`, hence of `n` itself when `len >= 8` and `n` is a 32-bit
value. -/
theorem u32_to_hexstr_pads_and_truncates (n len : Nat) (pre old post : List Nat)
    (hold : old.length = len) :
    u32_to_hexstr n len (pre ++ old ++ post) pre.length = pre ++ hexstr len n ++ post ∧
    (hexstr len n).length = len ∧ (∀ c ∈ hexstr len n, IsHex c) ∧
    hexnum (hexstr len n) = n % 16 ^ len ∧
    (8 ≤ len → n < 2 ^ 32 → hexnum (hexstr len n) = n) := by
  refine ⟨u32_to_hexstr_append len n pre old post hold, hexstr_length len n,
    hexstr_isHex len n, hexnum_hexstr len n, ?_⟩
  intro h8 hn
  rw [hexnum_hexstr]
  apply Nat.mod_eq_of_lt
  have hpow : 16 ^ 8 ≤ 16 ^ len := Nat.pow_le_pow_right (by norm_num) h8
  have : (16 : Nat) ^ 8 = 2 ^ 32 := by norm_num
  omega

theorem u32_to_hexstr_pads_and_truncates_witness :
    (bytes "FC").length = 2 ∧
    u32_to_hexstr 74565 2 (bytes "S90300" ++ bytes "FC" ++ bytes "\r\n") (bytes "S90300").length
      = bytes "S9030045\r\n" ∧
    u32_to_hexstr 10 4 (bytes "S903" ++ bytes "00FC" ++ []) (bytes "S903").length
      = bytes "S903000A" :=
  ⟨by decide,
    (u32_to_hexstr_pads_and_truncates 74565 2 (bytes "S90300") (bytes "FC") (bytes "\r\n")
      (by decide)).1.trans (by decide),
    (u32_to_hexstr_pads_and_truncates 10 4 (bytes "S903") (bytes "00FC") []
      (by decide)).1.trans (by decide)⟩

/-- C16: hex decode. For every buffer, offset `c` and length `len`, `hexstr_to_u32`
returns 0 if and only if each of the `len` characters from `c` on is one of `0-9` or `A-F`
(uppercase only), and -1 otherwise (so on a lowercase digit, as in "1a"); on success the
value stored is the base-16 value of these characters modulo `2 ^ 32`; and for
`len <= 8`, decoding what `u32_to_hexstr(n, len)` wrote yields `n mod 16 ^ len`. -/
theorem hexstr_to_u32_decodes (line : List Nat) (c len : Nat) :
    ((hexstr_to_u32 line c len).1 = 0 ↔ ∀ i, i < len → IsHex (rd line (c + i))) ∧
    ((hexstr_to_u32 line c len).1 = 0 ∨ (hexstr_to_u32 line c len).1 = -1) ∧
    ((hexstr_to_u32 line c len).1 = 0 →
      (hexstr_to_u32 line c len).2 = hexnum (chars_at line c len) % 2 ^ 32) ∧
    ¬ IsHex 97 ∧ ¬ IsHex 102 ∧ hexstr_to_u32 (bytes "1a") 0 2 = (-1, 1) ∧
    (len ≤ 8 → ∀ (n : Nat) (pre old post : List Nat), old.length = len →
      hexstr_to_u32 (u32_to_hexstr n len (pre ++ old ++ post) pre.length) pre.length len
        = (0, n % 16 ^ len)) := by
  have hst := hexstr_to_u32_loop_status line len c 0
  refine ⟨hst.1, hst.2, ?_, by decide, by decide, by decide, ?_⟩
  · intro h0
    have hall := hst.1.mp h0
    unfold hexstr_to_u32
    rw [hexstr_to_u32_loop_value line len c 0 hall]
    have h1 := foldl_mod_eq (chars_at line c len) 0 0 rfl
    have h2 := foldl_mod_lt (chars_at line c len) 0 (by norm_num)
    rw [Nat.mod_eq_of_lt h2] at h1
    exact h1
  · intro h8 n pre old post hold
    rw [u32_to_hexstr_append len n pre old post hold]
    have := hexstr_to_u32_append (hexstr len n) pre post (hexstr_isHex len n)
    rw [hexstr_length, hexnum_hexstr] at this
    rw [this]
    congr 1
    apply Nat.mod_eq_of_lt
    have hpow : 16 ^ len ≤ 16 ^ 8 := Nat.pow_le_pow_right (by norm_num) h8
    have h16 : (16 : Nat) ^ 8 = 2 ^ 32 := by norm_num
    have : n % 16 ^ len < 16 ^ len := Nat.mod_lt _ (by positivity)
    omega

theorem hexstr_to_u32_decodes_witness :
    (hexstr_to_u32 (bytes "S903FFFC") 4 4).1 = 0 ∧
    (hexstr_to_u32 (bytes "S903FFFC") 4 4).2
      = hexnum (chars_at (bytes "S903FFFC") 4 4) % 2 ^ 32 ∧
    (hexstr_to_u32 (bytes "S903FFFC") 4 4).2 = 65532 :=
  ⟨by decide,
    (hexstr_to_u32_decodes (bytes "S903FFFC") 4 4).2.2.1 (by decide), by decide⟩

/-- C17: offset parsing. On the characters of its argument string, `get_offset` returns 0
if and only if the text is an optional `-` followed by "0", or by a decimal numeral not
starting with `0`, or by `0` and one or more octal digits, or by "0x" / "0X" and one or
more hex digits of either case, with a value of at most `0xFFFFFFFF` (`IsOffsetText`); on
success `*p_offset` is that value and `*p_sign` is 1 exactly when the `-` is present;
every other text returns -1, such as the empty text, "-", "0x", "+1", "08" and
"4294967296". -/
theorem get_offset_accepts_exactly_numerals (text : List Nat) :
    ((get_offset text).1 = 0 ↔ ∃ sign value, IsOffsetText text sign value) ∧
    (∀ sign value, IsOffsetText text sign value ↔ get_offset text = (0, sign, value)) ∧
    ((¬ ∃ sign value, IsOffsetText text sign value) → (get_offset text).1 = -1) ∧
    (∀ sign value, IsOffsetText text sign value →
      (sign = 1 ↔ text.head? = some 45) ∧ (sign = 0 ∨ sign = 1) ∧ value ≤ 4294967295) ∧
    (get_offset []).1 = -1 ∧ (get_offset (bytes "-")).1 = -1 ∧
    (get_offset (bytes "0x")).1 = -1 ∧ (get_offset (bytes "+1")).1 = -1 ∧
    (get_offset (bytes "08")).1 = -1 ∧ (get_offset (bytes "4294967296")).1 = -1 ∧
    get_offset (bytes "4294967295") = (0, 0, 4294967295) ∧
    get_offset (bytes "-0x10000") = (0, 1, 65536) ∧
    get_offset (bytes "0777") = (0, 0, 511) ∧ get_offset (bytes "0XfF") = (0, 0, 255) := by
  have hiff : (get_offset text).1 = 0 ↔ ∃ sign value, IsOffsetText text sign value := by
    constructor
    · intro h
      refine ⟨(get_offset text).2.1, (get_offset text).2.2, ?_⟩
      rw [← get_offset_iff]
      exact Prod.ext h rfl
    · rintro ⟨sign, value, h⟩
      rw [(get_offset_iff text sign value).mpr h]
  refine ⟨hiff, fun sign value => (get_offset_iff text sign value).symm, ?_, ?_,
    by decide, by decide, by decide, by decide, by decide, by decide, by decide, by decide,
    by decide, by decide⟩
  · intro hn
    rcases get_offset_values text with h | h
    · exact absurd (hiff.mp h) hn
    · exact h
  · rintro sign value ⟨(⟨h1, h2⟩ | ⟨h1, body, h, -⟩), h3⟩
    · refine ⟨⟨fun h => by omega, fun h => ?_⟩, Or.inl h1, h3⟩
      rcases text with _ | ⟨c, rest⟩
      · simp at h
      · simp only [List.head?_cons, Option.some.injEq] at h
        subst h
        exact absurd h2 (isNumeral_minus rest value)
    · subst h
      exact ⟨⟨fun _ => rfl, fun _ => h1⟩, Or.inr h1, h3⟩

theorem get_offset_accepts_exactly_numerals_witness :
    IsOffsetText (bytes "-0x10000") 1 65536 ∧ get_offset (bytes "-0x10000") = (0, 1, 65536) :=
  ⟨((get_offset_accepts_exactly_numerals (bytes "-0x10000")).2.1 1 65536).mpr (by decide),
    by decide⟩

/-- C18: failure is atomic on validated input. For a line accepted by `srec_check` (of
any type, so in particular S1, S2, S3, S7, S8 or S9) held in an array of at least
`size > strlen line` bytes, and every `addr`, if `srec_addr_change` returns -1 the buffer is left exactly as it was: both
failure checks come before the first write. -/
theorem failure_leaves_buffer_unchanged (line : List Nat) (size addr : Nat)
    (hv : srec_check line = 0)
    (hs : strlen line < size) (hb : size ≤ line.length)
    (hr : (srec_addr_change line size addr).1 = -1) :
    (srec_addr_change line size addr).2 = line := by
  obtain ⟨c1, h1, h2, A, D, K, term, g, hL⟩ := valid_layout hv (by omega)
  have hcl := change_layout hL size addr hs hb
  by_cases hc : 0 < 4 - addr_len_of c1 ∧
      ((size + 2 ^ 64 - (strlen line + 1)) % 2 ^ 64 < 2 * (4 - addr_len_of c1)
        ∨ 16 * hexval h1 + hexval h2 + (4 - addr_len_of c1) > 255)
  · rw [if_pos hc] at hcl
    rw [hcl]
  · rw [if_neg hc] at hcl
    rw [hcl] at hr
    simp at hr

theorem failure_leaves_buffer_unchanged_witness :
    srec_check (buffer "S1030000FC" 12) = 0 ∧
    strlen (buffer "S1030000FC" 12) < 12 ∧ 12 ≤ (buffer "S1030000FC" 12).length ∧
    (srec_addr_change (buffer "S1030000FC" 12) 12 1).1 = -1 ∧
    (srec_addr_change (buffer "S1030000FC" 12) 12 1).2 = buffer "S1030000FC" 12 :=
  ⟨by decide, by decide, by decide, by decide,
    failure_leaves_buffer_unchanged (buffer "S1030000FC" 12) 12 1 (by decide)
      (by decide) (by decide) (by decide)⟩

/-- C19: a later rewrite overrides an earlier one. For a line accepted by `srec_check`
with type S1, S2, S3, S7, S8 or S9 in an array of at least `size > strlen line` bytes and
all addresses `a` and `b`: if `srec_addr_change` with `a` succeeds, then `srec_addr_change`
with `b` on the buffer it leaves succeeds and returns and leaves exactly what
`srec_addr_change` with `b` does on the original buffer; in particular the rewrite with `a`
is idempotent; and a valid S3 or S7 record rewritten to any address `b` and then back to
the address it had is the original buffer again. -/
theorem later_rewrite_overrides (line : List Nat) (size a b : Nat)
    (hv : srec_check line = 0) (ht : IsAddrType (rd line 1))
    (hs : strlen line < size) (hb : size ≤ line.length)
    (hr : (srec_addr_change line size a).1 = 0) :
    srec_addr_change (srec_addr_change line size a).2 size b = srec_addr_change line size b ∧
    (srec_addr_change (srec_addr_change line size a).2 size b).1 = 0 ∧
    srec_addr_change (srec_addr_change line size a).2 size a = srec_addr_change line size a ∧
    (rd line 1 = 51 ∨ rd line 1 = 55 →
      (srec_addr_change line size b).1 = 0 ∧
      srec_addr_change (srec_addr_change line size b).2 size (hexnum ((line.drop 4).take 8))
        = (0, line)) := by
  have hab := change_override line size a b hv ht hs hb hr
  have haa := change_override line size a a hv ht hs hb hr
  refine ⟨hab.1, by rw [hab.1]; exact hab.2, haa.1, fun h37 => ?_⟩
  have hba := change_override line size b (hexnum ((line.drop 4).take 8)) hv ht hs hb hab.2
  refine ⟨hab.2, ?_⟩
  rw [hba.1]
  exact change_same_address line size hv h37 hs hb

theorem later_rewrite_overrides_witness :
    srec_check (buffer "S1030000FC" 32) = 0 ∧ IsAddrType (rd (buffer "S1030000FC" 32) 1) ∧
    strlen (buffer "S1030000FC" 32) < 32 ∧ 32 ≤ (buffer "S1030000FC" 32).length ∧
    (srec_addr_change (buffer "S1030000FC" 32) 32 74565).1 = 0 ∧
    srec_addr_change (srec_addr_change (buffer "S1030000FC" 32) 32 74565).2 32 255
      = srec_addr_change (buffer "S1030000FC" 32) 32 255 :=
  ⟨by decide, by decide, by decide, by decide, by decide,
    (later_rewrite_overrides (buffer "S1030000FC" 32) 32 74565 255 (by decide) (by decide)
      (by decide) (by decide) (by decide)).1⟩

/-- C20: the capacity error is unreachable from `main`. Every line accepted by
`srec_check` has at most `4 + 2 * 255 + 2 = 516` characters; so in the array of
`LINE_MAX + 1` bytes of `main`, with `LINE_MAX >= 2048`, the capacity check
`(size - (line_len + 1)) < move_n` of `srec_addr_change` is false, the highest byte that
the widening writes (the NUL, at offset `line_len + move_n`) lies inside the array, which
keeps its length, and `srec_addr_change` fails, ending `main` with exit code 6, exactly
when the widened byte count `n + move_n / 2` exceeds 255. -/
theorem capacity_error_unreachable (LINE_MAX : Nat) (line : List Nat) (addr : Nat)
    (hmax : 2048 ≤ LINE_MAX) (hlen : line.length = LINE_MAX + 1)
    (h64 : LINE_MAX + 1 < 2 ^ 64) (hv : srec_check line = 0) :
    strlen line ≤ 516 ∧
    ¬ ((line.length + 2 ^ 64 - (strlen line + 1)) % 2 ^ 64 < move_n_of (rd line 1)) ∧
    strlen line + move_n_of (rd line 1) < line.length ∧
    (srec_addr_change line line.length addr).2.length = line.length ∧
    ((srec_addr_change line line.length addr).1 = -1 ↔
      (hexstr_to_u32 line 2 2).2 + move_n_of (rd line 1) / 2 > 255) ∧
    (¬ (hexstr_to_u32 line 2 2).2 + move_n_of (rd line 1) / 2 > 255 →
      (srec_addr_change line line.length addr).1 = 0) ∧
    (convert line addr = Outcome.error 6 ↔
      (hexstr_to_u32 line 2 2).2 + move_n_of (rd line 1) / 2 > 255) := by
  obtain ⟨c1, h1, h2, body, term, tail, hline, hcs, -, -, hh1, hh2, hbl, -, -, -, -, htm⟩ :=
    srec_check_decomp hv
  have hv1 := hexval_lt h1 hh1
  have hv2 := hexval_lt h2 hh2
  have ht2 := (term_nul_free htm).2
  have h516 : strlen line ≤ 516 := by
    rw [strlen_eq_length_cstr, hcs]
    simp only [List.length_cons, List.length_append]
    omega
  obtain ⟨c1', h1', h2', A, D, K, term', g, hL⟩ := valid_layout hv (by omega)
  have hw := addr_len_of_le (rd line 1)
  have hmv := move_n_of_eq (rd line 1)
  have hcl := change_layout hL line.length addr (by omega) (Nat.le_refl _)
  have hcnt := layout_count hL
  have hr1 := layout_rd1 hL
  have hsub : (line.length + 2 ^ 64 - (strlen line + 1)) % 2 ^ 64
      = line.length - (strlen line + 1) := by omega
  have hK := hL.2.2.2.2.2.1
  have hll : line.length = strlen line + 1 + g.length := by
    rw [layout_strlen hL]
    conv_lhs => rw [hL.1]
    simp only [List.length_cons, List.length_append, hK]
    omega
  have hv1' := hexval_lt h1' hL.2.2.1
  have hv2' := hexval_lt h2' hL.2.2.2.1
  rw [hcnt, hmv, hsub]
  rw [hsub] at hcl
  rw [hr1] at hw ⊢
  simp only []
  have hdiv : 2 * (4 - addr_len_of c1') / 2 = 4 - addr_len_of c1' := by omega
  rw [hdiv]
  have hconv : convert line addr = if (srec_addr_change line line.length addr).1 ≠ 0
      then Outcome.error 6
      else Outcome.emit false (cstr (srec_addr_change line line.length addr).2) := rfl
  rw [hconv]
  have hn255 : 16 * hexval h1' + hexval h2' ≤ 255 := by omega
  have hA := hL.2.2.2.2.1
  have hsl := layout_strlen hL
  have hroom : ¬ (line.length - (strlen line + 1) < 2 * (4 - addr_len_of c1')) := by omega
  generalize 16 * hexval h1' + hexval h2' = n at *
  generalize addr_len_of c1' = w at *
  by_cases hc : n + (4 - w) > 255
  · rw [if_pos ⟨by omega, Or.inr hc⟩] at hcl
    rw [hcl]
    simp only [ne_eq, if_true]
    refine ⟨h516, by omega, by omega, trivial, ?_, ?_, ?_⟩
    · exact ⟨fun _ => hc, fun _ => trivial⟩
    · intro h; exact absurd hc h
    · exact ⟨fun _ => hc, fun _ => by simp⟩
  · rw [if_neg (fun h => h.2.elim hroom hc)] at hcl
    rw [hcl]
    simp only [ne_eq, not_true_eq_false, if_false]
    refine ⟨h516, by omega, by omega, ?_, ?_, ?_, ?_⟩
    · simp only [List.length_cons, List.length_append, hexstr_length, List.length_drop]
      omega
    · exact ⟨fun h => by simp at h, fun h => absurd h hc⟩
    · intro _; trivial
    · exact ⟨fun h => by simp at h, fun h => absurd h hc⟩

theorem capacity_error_unreachable_witness :
    (2048 : Nat) ≤ 2048 ∧
    (bytes "S1030000FC" ++ List.replicate 2039 0).length = 2048 + 1 ∧
    (2048 + 1 : Nat) < 2 ^ 64 ∧
    srec_check (bytes "S1030000FC" ++ List.replicate 2039 0) = 0 ∧
    strlen (bytes "S1030000FC" ++ List.replicate 2039 0) ≤ 516 :=
  have hl : (bytes "S1030000FC" ++ List.replicate 2039 0).length = 2048 + 1 := by
    have : (bytes "S1030000FC").length = 10 := by decide
    rw [List.length_append, List.length_replicate, this]
  ⟨by decide, hl, by decide, by decide,
    (capacity_error_unreachable 2048 (bytes "S1030000FC" ++ List.replicate 2039 0) 1
      (by decide) hl (by decide) (by decide)).1⟩

end ConvSrecAddr
